import Mathlib

/-!
# Reconciliation of rpm and rpmtree rules in a build file

A shallow embedding of `pkg/bazel/bazel.go`: the package-rule synchronizer
`AddRPMS`, the bundle-rule synchronizer `AddTree` and the rule views
`rpmRule` / `rpmTree`, together with the fragment of the collaborating
libraries they call (`build.Rule`, `build.File`, `edit.InsertAtEnd`,
`path.Join`, `sort.SliceStable`).
-/

namespace Bazeldnf

/-! ## The syntax tree fragment the program observes -/

/-- Element of a list expression: a string literal (`*build.StringExpr`) or
any other expression. -/
inductive Elem where
  | str (Value : String)
  | other (tag : Nat)
  deriving DecidableEq, Repr

/-- Right-hand side of an attribute: a string literal (`*build.StringExpr`), a
list expression (`*build.ListExpr`) or any other expression. -/
inductive Expr where
  | str (Value : String)
  | list (List : List Elem)
  | other (tag : Nat)
  deriving DecidableEq, Repr

/-- Argument of a call: an assignment whose left side is the identifier
`key`, or anything else (which the attribute accessors skip). -/
inductive Arg where
  | assign (key : String) (RHS : Expr)
  | other (tag : Nat)
  deriving DecidableEq, Repr

/-- Callee of a call expression: an identifier, a dotted name, or any other
expression. -/
inductive Callee where
  | ident (Name : String)
  | dot (X : Callee) (Name : String)
  | other (tag : Nat)
  deriving DecidableEq, Repr

/-- Top-level statement: a call (`*build.CallExpr`), a comment block
(`*build.CommentBlock`) or any other statement, one that holds no rule. -/
inductive Stmt where
  | call (X : Callee) (List : List Arg)
  | comment (tag : Nat)
  | other (tag : Nat)
  deriving DecidableEq, Repr

/-- The document, `build.File`: its ordered statement sequence. -/
structure File where
  Stmt : List Stmt
  deriving DecidableEq, Repr

/-- View of one call expression, `build.Rule`. -/
structure Rule where
  X : Callee
  List : List Arg
  deriving DecidableEq, Repr

/-- Modelled from the spec: the Package Descriptor `api.Package`, declared in
`pkg/api` and not part of this file. `ident` is the identity string returned
by `pkg.String()`, `Checksum` is `pkg.Checksum.Text`, `Mirrors` is
`pkg.Repository.Mirrors` and `Href` is `pkg.Location.Href`. -/
structure Package where
  Name : String
  ident : String
  Checksum : String
  Mirrors : List String
  Href : String
  deriving DecidableEq, Repr

/-- Go's `<` on strings: lexicographic comparison, byte by byte (for UTF-8
text the same as character by character). -/
def strLess (a b : String) : Bool := decide (a.toList < b.toList)

/-! ## `build.Rule` and `build.File` -/

/-- Names of a dotted callee from the leading identifier outwards; `none`
when the innermost expression is not an identifier. -/
def Callee.names : Callee → Option (List String)
  | .ident n => some [n]
  | .dot x n => (Callee.names x).map (fun ns => ns ++ [n])
  | .other _ => none

/-- Kind of a rule, `(*build.Rule).Kind`: the dotted callee name, or `""`. -/
def Rule.Kind (r : Rule) : String :=
  match r.X.names with
  | some ns => ".".intercalate ns
  | none => ""

/-- Right-hand side of the first assignment to `key`, `(*build.Rule).Attr`
on the argument list (`none` is Go's `nil`). -/
def attrDefn (key : String) : List Arg → Option Expr
  | [] => none
  | .assign k v :: l => if k = key then some v else attrDefn key l
  | .other _ :: l => attrDefn key l

/-- Replace the right-hand side of the first assignment to `key`, or append
a new assignment: `(*build.Rule).SetAttr` on the argument list. -/
def setAttr (key : String) (val : Expr) : List Arg → List Arg
  | [] => [.assign key val]
  | .assign k v :: l =>
    if k = key then .assign k val :: l else .assign k v :: setAttr key val l
  | .other t :: l => .other t :: setAttr key val l

/-- Value of attribute `key`: `(*build.Rule).Attr`. -/
def Rule.Attr (r : Rule) (key : String) : Option Expr := attrDefn key r.List

/-- Overwrite or add attribute `key`: `(*build.Rule).SetAttr`. -/
def Rule.SetAttr (r : Rule) (key : String) (val : Expr) : Rule :=
  { r with List := setAttr key val r.List }

/-- String value of attribute `key`, `""` when absent or not a string
literal: `(*build.Rule).AttrString`. -/
def Rule.AttrString (r : Rule) (key : String) : String :=
  match r.Attr key with
  | some (.str v) => v
  | _ => ""

/-- Target name of a rule, `(*build.Rule).Name`: the string value of the
`name` attribute. The implicit name, the second field of `build.Rule`, is
empty, as in the rules `AddRPMS` and `AddTree` construct (their second
field is `""`) and in a file of the top-level package. -/
def Rule.Name (r : Rule) : String := r.AttrString "name"

/-- The statement a rule's call expression stands for. -/
def Rule.Call (r : Rule) : Stmt := .call r.X r.List

/-- Whether a statement is a rule selected by `kind` and `name`, where `""`
selects everything: the test of `(*build.File).DelRules`. -/
def Stmt.isRule (kind name : String) : Stmt → Bool
  | .call X L =>
    (kind = "" || (Rule.mk X L).Kind = kind) && (name = "" || (Rule.mk X L).Name = name)
  | _ => false

/-- Rules of the given kind in statement order: `(*build.File).Rules`. -/
def File.Rules (f : File) (kind : String) : List Rule :=
  f.Stmt.filterMap fun stmt =>
    match stmt with
    | .call X L => if kind ≠ "" ∧ (Rule.mk X L).Kind ≠ kind then none else some ⟨X, L⟩
    | _ => none

/-- Remove every statement that is a rule of the given kind and name:
`(*build.File).DelRules`. -/
def File.DelRules (f : File) (kind name : String) : File :=
  ⟨f.Stmt.filter fun stmt => !stmt.isRule kind name⟩

/-- Whether a statement is a `*build.CommentBlock`. -/
def Stmt.isCommentBlock : Stmt → Bool
  | .comment _ => true
  | _ => false

namespace edit

/-- Insert an expression at the end of a statement list, before the
trailing comment blocks: `edit.InsertAtEnd`. -/
def InsertAtEnd (stmt : List Stmt) (expr : Stmt) : List Stmt :=
  stmt.rdropWhile Stmt.isCommentBlock ++ expr :: stmt.rtakeWhile Stmt.isCommentBlock

end edit

namespace sort

/-- Stable sort by `less`, `sort.SliceStable`: elements that compare equal
keep their relative order. -/
def SliceStable {α : Type} (less : α → α → Bool) (data : List α) : List α :=
  data.insertionSort (fun a b => less b a = false)

end sort

namespace path

/-- Split a path at every `/`. -/
def splitSlash : List Char → List (List Char)
  | [] => [[]]
  | c :: cs =>
    if c = '/' then [] :: splitSlash cs
    else
      match splitSlash cs with
      | [] => [[c]]
      | w :: ws => (c :: w) :: ws

/-- One step of the loop of `path.Clean` on a path element: `out` holds the
elements written so far and `dotdot` how many leading elements a `..` may
not remove. -/
def cleanStep (rooted : Bool) (st : List (List Char) × Nat) (e : List Char) :
    List (List Char) × Nat :=
  if e = [] ∨ e = ['.'] then st
  else if e = ['.', '.'] then
    if st.1.length > st.2 then (st.1.dropLast, st.2)
    else if rooted then st
    else (st.1 ++ [e], st.1.length + 1)
  else (st.1 ++ [e], st.2)

/-- Shortest equivalent path, `path.Clean`: empty and `.` elements are
dropped, `..` removes the element before it, and repeated slashes collapse. -/
def Clean (p : String) : String :=
  if p = "" then "."
  else
    let rooted : Bool := p.toList.head? = some '/'
    let out := ((splitSlash p.toList).foldl (cleanStep rooted) ([], 0)).1
    let body := "/".intercalate (out.map String.mk)
    if rooted then "/" ++ body
    else if out = [] then "."
    else body

/-- Join path elements with slashes and clean the result, `path.Join`:
leading empty elements are ignored and `""` is returned when all are empty. -/
def Join (elem : List String) : String :=
  match elem.dropWhile (fun e => e = "") with
  | [] => ""
  | es => Clean ("/".intercalate es)

end path

/-! ## Rule views -/

/-- The loop `for _, expr := range list { out = append(out, expr.(*build.StringExpr).Value) }`:
the values of the string literals, `none` when an element is not one (the
type assertion fails). -/
def stringValues : List Elem → Option (List String)
  | [] => some []
  | .str v :: l => (stringValues l).map (fun vs => v :: vs)
  | .other _ :: _ => none

namespace rpmRule

/-- The `urls` attribute as strings, `(*rpmRule).URLs`. Go's `nil` result is
the empty list; `none` is a failed type assertion. -/
def URLs (r : Rule) : Option (List String) :=
  match r.Attr "urls" with
  | none => some []
  | some (.list l) =>
    if l.length > 0 then stringValues l else some []
  | some _ => none

/-- Store one URL per mirror: `(*rpmRule).SetURLs`. -/
def SetURLs (r : Rule) (urls : List String) (href : String) : Rule :=
  r.SetAttr "urls" (.list (urls.map fun url => .str (path.Join [url, href])))

/-- Set the `name` attribute: `(*rpmRule).SetName`. -/
def SetName (r : Rule) (name : String) : Rule := r.SetAttr "name" (.str name)

/-- Set the `sha256` attribute: `(*rpmRule).SetSHA256`. -/
def SetSHA256 (r : Rule) (sha256 : String) : Rule := r.SetAttr "sha256" (.str sha256)

end rpmRule

namespace rpmTree

/-- Set the `name` attribute: `(*rpmTree).SetName`. -/
def SetName (r : Rule) (name : String) : Rule := r.SetAttr "name" (.str name)

/-- The `rpms` attribute as strings, `(*rpmTree).RPMs`. Go's `nil` result is
the empty list; `none` is a failed type assertion. -/
def RPMs (r : Rule) : Option (List String) :=
  match r.Attr "rpms" with
  | none => some []
  | some (.list l) =>
    if l.length > 0 then stringValues l else some []
  | some _ => none

/-- Set the `rpms` attribute: `(*rpmTree).SetRPMs`. -/
def SetRPMs (r : Rule) (rpms : List String) : Rule :=
  r.SetAttr "rpms" (.list (rpms.map fun rpm => .str rpm))

/-- Set the `files` attribute: `(*rpmTree).SetFiles`. -/
def SetFiles (r : Rule) (files : List String) : Rule :=
  r.SetAttr "files" (.list (files.map fun file => .str file))

end rpmTree

/-! ## The name-keyed lookup -/

/-- The lookup `map[string]*rpmRule` / `map[string]*rpmTree`: entries with
pairwise distinct keys. -/
abbrev RuleMap := List (String × Rule)

/-- Read `m[k]`; `none` is Go's `nil`. -/
def mapGet : RuleMap → String → Option Rule
  | [], _ => none
  | (k', r) :: m, k => if k' = k then some r else mapGet m k

/-- Assign `m[k] = r`. -/
def mapSet : RuleMap → String → Rule → RuleMap
  | [], k, r => [(k, r)]
  | (k', r') :: m, k, r => if k' = k then (k, r) :: m else (k', r') :: mapSet m k r

/-- The lookup built by `for _, rule := range f.Rules(kind) { m[rule.Name()] = rule }`. -/
def lookupOf (rules : List Rule) : RuleMap :=
  rules.foldl (fun m rule => mapSet m rule.Name rule) []

/-- An order in which `range` enumerates a map. Go leaves it unspecified, so
it is an arbitrary rearrangement of the entries. -/
structure MapOrder where
  enumerate : RuleMap → RuleMap
  perm : ∀ m, (enumerate m).Perm m

/-- The rule slice collected by `for _, rule := range m` and then sorted by
`sort.SliceStable` on `Name()`. -/
def sortedRules (o : MapOrder) (m : RuleMap) : List Rule :=
  sort.SliceStable (fun a b => strLess a.Name b.Name) ((o.enumerate m).map Prod.snd)

/-- Append each rule's call with `edit.InsertAtEnd`, in order. -/
def insertAll (stmt : List Stmt) (rules : List Rule) : List Stmt :=
  rules.foldl (fun st rule => edit.InsertAtEnd st rule.Call) stmt

/-! ## `AddRPMS` -/

/-- Body of the loop over `pkgs` in `AddRPMS`: fetch or create the rule of
the descriptor, set name and checksum, and set the URLs when the rule has
none. The rule is mutated through the pointer held by the lookup, which here
is a write back to the lookup; `none` is a failed type assertion in `URLs`. -/
def upsert (rpms : RuleMap) (pkg : Package) : Option RuleMap :=
  let rule := (mapGet rpms pkg.ident).getD ⟨.ident "rpm", []⟩
  let rule := rpmRule.SetName rule pkg.ident
  let rule := rpmRule.SetSHA256 rule pkg.Checksum
  match rpmRule.URLs rule with
  | none => none
  | some urls =>
    let rule := if urls.length = 0 then rpmRule.SetURLs rule pkg.Mirrors pkg.Href else rule
    some (mapSet rpms pkg.ident rule)

/-- The loop `for _, pkg := range pkgs` of `AddRPMS`. -/
def upsertAll : RuleMap → List Package → Option RuleMap
  | rpms, [] => some rpms
  | rpms, pkg :: pkgs =>
    match upsert rpms pkg with
    | none => none
    | some rpms' => upsertAll rpms' pkgs

/-- The package-rule synchronizer `AddRPMS`. The lookup points into the
statements of kind `rpm`, all of which `DelRules` removes before the
collected rules are appended, so the rules are carried by value. The result
is the document after the call, `none` when a type assertion fails. -/
def AddRPMS (o : MapOrder) (workspace : File) (pkgs : List Package) : Option File :=
  let rpms := lookupOf (workspace.Rules "rpm")
  match upsertAll rpms pkgs with
  | none => none
  | some rpms =>
    let rules := sortedRules o rpms
    let workspace := workspace.DelRules "rpm" ""
    some ⟨insertAll workspace.Stmt rules⟩

/-- The rule the document holds under the identity `(kind, name)`: the entry
of the lookup built from `Rules(kind)`, which is the last rule of that name. -/
def File.rule (f : File) (kind name : String) : Option Rule :=
  mapGet (lookupOf (f.Rules kind)) name

/-- A rule block is well formed when its `urls` attribute is absent or a
list of string literals. -/
def Rule.wellFormed (r : Rule) : Bool :=
  match r.Attr "urls" with
  | none => true
  | some (.list l) => l.all fun e => match e with
    | .str _ => true
    | .other _ => false
  | some _ => false

/-- A document whose rpm rules are all well formed. -/
def File.WellFormed (f : File) : Prop := ∀ r ∈ f.Rules "rpm", r.wellFormed = true

/-- The enumeration that lists the lookup in insertion order. -/
def insertionOrder : MapOrder := ⟨id, fun _ => List.Perm.refl _⟩

/-- The enumeration that lists the lookup in reverse insertion order. -/
def reverseOrder : MapOrder := ⟨List.reverse, fun m => List.reverse_perm m⟩

/-! ## `AddTree` -/

/-- Whether a statement is a rule of the given kind whose `Name()` is `name`:
the rules `Rules(kind)` files under the key `name` in the lookup. -/
def Stmt.isNamed (kind name : String) : Stmt → Bool
  | .call X L => (Rule.mk X L).Kind = kind && (Rule.mk X L).Name = name
  | _ => false

/-- Position of the last statement that is a rule of the given kind and
name: the statement whose call expression the lookup holds under `name`. -/
def lastRulePos (kind name : String) : List Stmt → Option Nat
  | [] => none
  | s :: l =>
    match lastRulePos kind name l with
    | some i => some (i + 1)
    | none => if s.isNamed kind name then some 0 else none

/-- The bundle-rule synchronizer `AddTree`. The rule found in the lookup
shares its call expression with a statement of the document (the statements
being distinct expressions, as in a parsed file), so its update shows in
that statement too; no statement is removed before the collected rules are
appended. -/
def AddTree (o : MapOrder) (name : String) (buildfile : File) (pkgs : List Package)
    (files : List String) : File :=
  let rpmtrees := lookupOf (buildfile.Rules "rpmtree")
  let rpms := pkgs.map fun pkg => "@" ++ pkg.Name ++ "//rpm"
  let files := sort.SliceStable strLess files
  let found := mapGet rpmtrees name
  let rule := found.getD ⟨.ident "rpmtree", []⟩
  let rule := rpmTree.SetName rule name
  let rule := rpmTree.SetRPMs rule rpms
  let rule := rpmTree.SetFiles rule files
  let rpmtrees := mapSet rpmtrees name rule
  let stmt :=
    match found, lastRulePos "rpmtree" name buildfile.Stmt with
    | some _, some i => buildfile.Stmt.set i rule.Call
    | _, _ => buildfile.Stmt
  ⟨insertAll stmt (sortedRules o rpmtrees)⟩

/-! ## Notions used in the statements and their proofs -/

/-- Keys of the lookup are pairwise distinct. -/
def NodupKeys (m : RuleMap) : Prop := (m.map Prod.fst).Nodup

/-- Invariant of the lookup: distinct keys, every rule filed under its own
name, every rule of the given kind. -/
structure ValidLookup (kind : String) (m : RuleMap) : Prop where
  nodup : NodupKeys m
  name : ∀ k r, (k, r) ∈ m → r.Name = k
  kind : ∀ k r, (k, r) ∈ m → r.Kind = kind

/-- The statements `DelRules("rpm", "")` keeps. -/
def kept (f : File) : List Stmt := (f.DelRules "rpm" "").Stmt

/-- Layout of the document `AddRPMS` leaves for a final lookup `m`. -/
def layout (o : MapOrder) (f : File) (m : RuleMap) : File :=
  ⟨(kept f).rdropWhile Stmt.isCommentBlock ++ (sortedRules o m).map Rule.Call ++
    (kept f).rtakeWhile Stmt.isCommentBlock⟩

/-- The rule a descriptor creates when the lookup has none. -/
def freshRule : Rule := ⟨.ident "rpm", []⟩

/-- Name and checksum set from the descriptor. -/
def stamped (pkg : Package) (rule : Rule) : Rule :=
  rpmRule.SetSHA256 (rpmRule.SetName rule pkg.ident) pkg.Checksum

/-- Effect of one pass of the loop of `AddRPMS` on the rule it fetched. -/
def touch (pkg : Package) (rule : Rule) : Option Rule :=
  match rpmRule.URLs rule with
  | none => none
  | some urls =>
    some (if urls.length = 0 then rpmRule.SetURLs (stamped pkg rule) pkg.Mirrors pkg.Href
      else stamped pkg rule)

/-- The passes of the loop of `AddRPMS` that concern identity `k`, applied
to the entry the lookup holds under `k`. -/
def touchAll (k : String) : Option Rule → List Package → Option (Option Rule)
  | cur, [] => some cur
  | cur, p :: ps =>
    if p.ident = k then
      match touch p (cur.getD freshRule) with
      | none => none
      | some r => touchAll k (some r) ps
    else touchAll k cur ps

/-- A rule on which further passes for identity `k` only rewrite the
checksum: it is named `k` and its `urls` list is either non-empty or stays
empty under every descriptor of `k` in `ps`. -/
def StableFor (k : String) (ps : List Package) (r : Rule) : Prop :=
  r.Attr "name" = some (.str k) ∧
    ∃ U : List String, r.Attr "urls" = some (.list (U.map Elem.str)) ∧
      (U ≠ [] ∨ ∀ p ∈ ps, p.ident = k → p.Mirrors = [])

/-- What is known of the entry for `k` once the descriptors `pre` have been
processed: untouched, or stable. -/
def Settled (k : String) (pre : List Package) (cur : Option Rule) : Prop :=
  (∀ p ∈ pre, p.ident ≠ k) ∨ ∃ r, cur = some r ∧ StableFor k pre r

instance (f : File) : Decidable f.WellFormed :=
  inferInstanceAs (Decidable (∀ r ∈ f.Rules "rpm", r.wellFormed = true))

/-- The rule block a descriptor gives on a fresh rule: name, checksum and
one URL per mirror, in this order. -/
def ruleOf (p : Package) : Rule :=
  ⟨.ident "rpm",
    [.assign "name" (.str p.ident), .assign "sha256" (.str p.Checksum),
      .assign "urls" (.list (p.Mirrors.map fun url => .str (path.Join [url, p.Href])))]⟩

/-- Descriptor of the worked example of the fresh document. -/
def exampleA (name href : String) (mirrors : List String) : Package :=
  ⟨name, "a-1-1.x86_64", "deadbeef", mirrors, href⟩

/-- Second descriptor of the worked example of the fresh document. -/
def exampleB (name href : String) (mirrors : List String) : Package :=
  ⟨name, "b-1-1.x86_64", "beadfeed", mirrors, href⟩

/-- A document that ends in a comment block. -/
def commentedDoc : File := ⟨[.other 0, .comment 1]⟩

/-- A descriptor with one mirror. -/
def samplePkg : Package := ⟨"a", "a-1-1.x86_64", "deadbeef", ["m"], "a.rpm"⟩

/-- The rule a bundle name creates when the lookup has none. -/
def freshTree : Rule := ⟨.ident "rpmtree", []⟩

/-- The bundle rule after `AddTree` has set its name, references and files. -/
def bundleRule (name : String) (d : File) (pkgs : List Package) (files : List String) : Rule :=
  rpmTree.SetFiles
    (rpmTree.SetRPMs (rpmTree.SetName ((d.rule "rpmtree" name).getD freshTree) name)
      (pkgs.map fun pkg => "@" ++ pkg.Name ++ "//rpm"))
    (sort.SliceStable strLess files)

/-- A well-formed document with two rpm rules, a rule of another kind and a
trailing comment block. -/
def sampleDoc : File :=
  ⟨[.other 0,
    .call (.ident "rpm")
      [.assign "name" (.str "b-1-1.x86_64"), .assign "sha256" (.str "0ld"),
        .assign "urls" (.list [.str "https://kept/b.rpm"])],
    .call (.ident "filegroup") [.assign "name" (.str "srcs")],
    .call (.ident "rpm") [.assign "name" (.str "zlib-1.2-3.x86_64")],
    .comment 1]⟩

/-- Three descriptors, two of them of the same identity. -/
def samplePkgs : List Package :=
  [⟨"b", "b-1-1.x86_64", "beadfeed", ["http://m/"], "b-1-1.x86_64.rpm"⟩,
    ⟨"a", "a-1-1.x86_64", "deadbeef", ["http://m/"], "a-1-1.x86_64.rpm"⟩,
    ⟨"b", "b-1-1.x86_64", "f00df00d", ["http://n/"], "b-1-1.x86_64.rpm"⟩]

/-- The statements of the input after the update of the bundle rule has
been written through to the statement the lookup points to. -/
def writtenThrough (name : String) (d : File) (pkgs : List Package) (files : List String) :
    List Stmt :=
  match d.rule "rpmtree" name, lastRulePos "rpmtree" name d.Stmt with
  | some _, some i => d.Stmt.set i (bundleRule name d pkgs files).Call
  | _, _ => d.Stmt

/-- The lookup of `AddTree` once the bundle rule is registered. -/
def treeLookup (name : String) (d : File) (pkgs : List Package) (files : List String) :
    RuleMap :=
  mapSet (lookupOf (d.Rules "rpmtree")) name (bundleRule name d pkgs files)

/-- A bundle rule block is well formed when its `rpms` attribute is absent
or a list of string literals. -/
def Rule.wellFormedRPMs (r : Rule) : Bool :=
  match r.Attr "rpms" with
  | none => true
  | some (.list l) => l.all fun e => match e with
    | .str _ => true
    | .other _ => false
  | some _ => false

/-- A document with one bundle rule. -/
def bundleDoc : File :=
  ⟨[.call (.ident "rpmtree")
    [.assign "name" (.str "t"), .assign "files" (.list [.str "old.txt"])]]⟩

/-- A document with two rpm rules of the same name. -/
def duplicateDoc : File :=
  ⟨[.call (.ident "rpm") [.assign "name" (.str "a-1-1.x86_64"), .assign "sha256" (.str "1")],
    .other 0,
    .call (.ident "rpm") [.assign "name" (.str "a-1-1.x86_64"), .assign "sha256" (.str "2")]]⟩

/-- A document with two rpm rules of one name, of which only the first has URLs. -/
def shadowedDoc : File :=
  ⟨[.call (.ident "rpm")
      [.assign "name" (.str "a-1-1.x86_64"), .assign "urls" (.list [.str "https://kept/a.rpm"])],
    .call (.ident "rpm") [.assign "name" (.str "a-1-1.x86_64")]]⟩

/-! ## Documents whose statements hold calls -/

/-- Top-level statement in full: a call (`*build.CallExpr`), a comment block
(`*build.CommentBlock`), or any other statement together with the calls it
holds outside any other call (the right side of an assignment, the elements
of a list, the body of a conditional), in the order `build.Walk` meets them. -/
inductive Node where
  | call (X : Callee) (List : List Arg)
  | comment (tag : Nat)
  | other (tag : Nat) (calls : List Rule)
  deriving DecidableEq, Repr

/-- The document in full, `build.File`: its ordered statement sequence. -/
structure Tree where
  Stmt : List Node
  deriving DecidableEq, Repr

/-- The statement a rule's call expression stands for. -/
def Rule.Node (r : Rule) : Node := .call r.X r.List

/-- The calls `build.Walk` meets in a statement outside any other call. -/
def Node.rules : Node → List Rule
  | .call X L => [⟨X, L⟩]
  | .comment _ => []
  | .other _ calls => calls

/-- Rules of the given kind in the order `build.Walk` meets them,
`(*build.File).Rules`: every statement is walked and every call that does
not lie inside another call is a rule. -/
def Tree.Rules (f : Tree) (kind : String) : List Rule :=
  (f.Stmt.flatMap Node.rules).filter fun r => !(decide (kind ≠ "") && decide (r.Kind ≠ kind))

/-- Whether a statement is itself a rule selected by `kind` and `name`,
where `""` selects everything: the test of `(*build.File).DelRules`, which
looks at the top-level statements alone. -/
def Node.isRule (kind name : String) : Node → Bool
  | .call X L =>
    (kind = "" || (Rule.mk X L).Kind = kind) && (name = "" || (Rule.mk X L).Name = name)
  | _ => false

/-- Remove every top-level statement that is a rule of the given kind and
name: `(*build.File).DelRules`. -/
def Tree.DelRules (f : Tree) (kind name : String) : Tree :=
  ⟨f.Stmt.filter fun stmt => !stmt.isRule kind name⟩

/-- Whether a statement is a `*build.CommentBlock`. -/
def Node.isCommentBlock : Node → Bool
  | .comment _ => true
  | _ => false

/-- Replace, in the calls a statement holds, the last rule of the given
kind and name; `none` when there is none. -/
def replaceLastCall (kind name : String) (new : Rule) : List Rule → Option (List Rule)
  | [] => none
  | r :: l =>
    match replaceLastCall kind name new l with
    | some l' => some (r :: l')
    | none => if r.Kind = kind ∧ r.Name = name then some (new :: l) else none

/-- Replace the last rule of the given kind and name that `Rules` meets in
the statements; `none` when there is none. -/
def replaceLast (kind name : String) (new : Rule) : List Node → Option (List Node)
  | [] => none
  | s :: l =>
    match replaceLast kind name new l with
    | some l' => some (s :: l')
    | none =>
      match s with
      | .call X L =>
        if (Rule.mk X L).Kind = kind ∧ (Rule.mk X L).Name = name then some (new.Node :: l)
        else none
      | .comment _ => none
      | .other t calls => (replaceLastCall kind name new calls).map fun c => .other t c :: l

/-- The document after a rule held by the lookup under `name` has been
mutated to `new`: the lookup points to the last rule of that name `Rules`
met, and the call expression of that rule is part of the document. -/
def writeThrough (kind name : String) (new : Rule) (stmt : List Node) : List Node :=
  (replaceLast kind name new stmt).getD stmt

namespace Nested

/-- Insert an expression at the end of a statement list, before the
trailing comment blocks: `edit.InsertAtEnd`. -/
def InsertAtEnd (stmt : List Node) (expr : Node) : List Node :=
  stmt.rdropWhile Node.isCommentBlock ++ expr :: stmt.rtakeWhile Node.isCommentBlock

/-- Append each rule's call with `edit.InsertAtEnd`, in order. -/
def insertAll (stmt : List Node) (rules : List Rule) : List Node :=
  rules.foldl (fun st rule => InsertAtEnd st rule.Node) stmt

/-- The package-rule synchronizer `AddRPMS` on a document in full. The loop
over `pkgs` mutates the rules through the pointers of the lookup, so every
rule it fetched shows its final state in the document; `DelRules` then
removes the top-level rpm statements and the collected rules are appended.
`none` is a failed type assertion. -/
def AddRPMS (o : MapOrder) (workspace : Tree) (pkgs : List Package) : Option Tree :=
  let rpms := lookupOf (workspace.Rules "rpm")
  match upsertAll rpms pkgs with
  | none => none
  | some rpms =>
    let stmt := pkgs.foldl
      (fun st pkg =>
        match mapGet rpms pkg.ident with
        | some rule => writeThrough "rpm" pkg.ident rule st
        | none => st)
      workspace.Stmt
    let rules := sortedRules o rpms
    let stmt := (Tree.mk stmt).DelRules "rpm" ""
    some ⟨insertAll stmt.Stmt rules⟩

/-- The bundle-rule synchronizer `AddTree` on a document in full. The rule
found in the lookup is mutated through its pointer, so the update shows in
the statement that holds its call; no statement is removed before the
collected rules are appended. -/
def AddTree (o : MapOrder) (name : String) (buildfile : Tree) (pkgs : List Package)
    (files : List String) : Tree :=
  let rpmtrees := lookupOf (buildfile.Rules "rpmtree")
  let rpms := pkgs.map fun pkg => "@" ++ pkg.Name ++ "//rpm"
  let files := sort.SliceStable strLess files
  let rule := (mapGet rpmtrees name).getD ⟨.ident "rpmtree", []⟩
  let rule := rpmTree.SetName rule name
  let rule := rpmTree.SetRPMs rule rpms
  let rule := rpmTree.SetFiles rule files
  let rpmtrees := mapSet rpmtrees name rule
  let stmt := writeThrough "rpmtree" name rule buildfile.Stmt
  ⟨insertAll stmt (sortedRules o rpmtrees)⟩

end Nested

/-- How a call a statement holds may differ after the rule of the given
kind and name has been mutated to `new`. -/
def CallUpdated (kind name : String) (new : Rule) (r r' : Rule) : Prop :=
  r' = r ∨ (r.Kind = kind ∧ r.Name = name ∧ r' = new)

/-- How a statement may differ after the rule of the given kind and name has
been mutated to `new`: a call that is this rule becomes `new`, a statement
that holds calls keeps its place and the number of its calls. -/
def NodeUpdated (kind name : String) (new : Rule) : Node → Node → Prop
  | .call X L, s' =>
    s' = .call X L ∨ ((Rule.mk X L).Kind = kind ∧ (Rule.mk X L).Name = name ∧ s' = new.Node)
  | .comment t, s' => s' = .comment t
  | .other t c, s' => ∃ c', s' = .other t c' ∧ List.Forall₂ (CallUpdated kind name new) c c'

/-- How a statement may differ after rules of the given kind have been
mutated: it is a rule of that kind, or a comment block, exactly when it was;
a statement that holds calls keeps its place and the number of its calls;
and a statement that holds no rule of that kind is unchanged. -/
def NodeKept (kind : String) (s s' : Node) : Prop :=
  s'.isRule kind "" = s.isRule kind "" ∧ s'.isCommentBlock = s.isCommentBlock ∧
    ((∀ r ∈ s.rules, r.Kind ≠ kind) → s' = s) ∧
    ∀ t c, s = .other t c → ∃ c', s' = .other t c' ∧ c'.length = c.length

/-- The calls of a document in full as a document whose statements are
these calls: its rules are the rules `Rules` meets. -/
def Tree.flat (f : Tree) : File := ⟨(f.Stmt.flatMap Node.rules).map Rule.Call⟩

/-- The rule the document holds under the identity `(kind, name)`: the entry
of the lookup built from `Rules(kind)`, which is the last rule of that name
that `Rules` meets. -/
def Tree.rule (f : Tree) (kind name : String) : Option Rule :=
  mapGet (lookupOf (f.Rules kind)) name

/-- The bundle rule after `AddTree` has set its name, references and files. -/
def Tree.bundleRule (d : Tree) (name : String) (pkgs : List Package) (files : List String) :
    Rule :=
  rpmTree.SetFiles
    (rpmTree.SetRPMs (rpmTree.SetName ((d.rule "rpmtree" name).getD freshTree) name)
      (pkgs.map fun pkg => "@" ++ pkg.Name ++ "//rpm"))
    (sort.SliceStable strLess files)

/-- The lookup of `AddTree` once the bundle rule is registered. -/
def Tree.treeLookup (d : Tree) (name : String) (pkgs : List Package) (files : List String) :
    RuleMap :=
  mapSet (lookupOf (d.Rules "rpmtree")) name (d.bundleRule name pkgs files)

/-- A document with one bundle rule, held by an assignment statement. -/
def heldTreeDoc : Tree :=
  ⟨[.other 0 [⟨.ident "rpmtree", [.assign "name" (.str "t")]⟩]]⟩

/-- The statements of the input after the rules of the final lookup `m`
have been written through, descriptor by descriptor, to the statements that
hold them. -/
def writeAll (m : RuleMap) (pkgs : List Package) (stmt : List Node) : List Node :=
  pkgs.foldl
    (fun st pkg => match mapGet m pkg.ident with
      | some rule => writeThrough "rpm" pkg.ident rule st
      | none => st) stmt

/-- A document in which an assignment statement holds an rpm rule and a
comment block comes last. -/
def heldDoc : Tree :=
  ⟨[.other 0 [⟨.ident "rpm", [.assign "name" (.str "a-1-1.x86_64")]⟩], .comment 1]⟩

/-- A document in which a comment block precedes the only rpm rule. -/
def commentThenRule : Tree :=
  ⟨[.other 0 [], .comment 1, .call (.ident "rpm") [.assign "name" (.str "a-1-1.x86_64")]]⟩

/-- Whether a statement is a rule of exactly the given kind and name. -/
def Node.isNamed (kind name : String) : Node → Bool
  | .call X L => decide ((Rule.mk X L).Kind = kind) && decide ((Rule.mk X L).Name = name)
  | _ => false

namespace Nested

/-- The document after successive calls of `AddTree` with the same bundle
name on the empty document, one call per entry: its enumeration order, its
descriptors and its files. Statements are values here, so a call updates the
last statement that holds the bundle rule; the program, in which the
statements inserted for one rule share its call expression, shows the update
in all of them. The number of statements, their kind and their name are the
same either way. -/
def successiveAddTree (name : String)
    (calls : List (MapOrder × List Package × List String)) : Tree :=
  calls.foldl (fun d c => AddTree c.1 name d c.2.1 c.2.2) ⟨[]⟩

end Nested

/-- A document seen in full: its statements hold no calls. -/
def Stmt.toNode : Stmt → Node
  | .call X L => .call X L
  | .comment t => .comment t
  | .other t => .other t []

/-- A document without calls inside its statements, as a document in full. -/
def File.toTree (f : File) : Tree := ⟨f.Stmt.map Stmt.toNode⟩

/-- How a call a statement holds may differ after `AddRPMS` has mutated the
rules of its final lookup `m`: it is unchanged, or it is an rpm rule and has
become the rule the lookup holds under its name. -/
def CallSynced (m : RuleMap) (r r' : Rule) : Prop :=
  r' = r ∨ (r.Kind = "rpm" ∧ mapGet m r.Name = some r')

/-- How a statement may differ after `AddRPMS` has mutated the rules of its
final lookup `m`. -/
def NodeSynced (m : RuleMap) : Node → Node → Prop
  | .call X L, s' => ∃ r', s' = r'.Node ∧ CallSynced m ⟨X, L⟩ r'
  | .comment t, s' => s' = .comment t
  | .other t c, s' => ∃ c', s' = .other t c' ∧ List.Forall₂ (CallSynced m) c c'

/-! ## Attributes -/

theorem attrDefn_setAttr_same (key : String) (val : Expr) (l : List Arg) :
    attrDefn key (setAttr key val l) = some val := by
  induction l with
  | nil => simp [setAttr, attrDefn]
  | cons a l ih =>
    cases a with
    | assign k v =>
      by_cases h : k = key
      · simp [setAttr, attrDefn, h]
      · simp [setAttr, attrDefn, h, ih]
    | other t => simp [setAttr, attrDefn, ih]

theorem attrDefn_setAttr_ne {key key' : String} (h : key' ≠ key) (val : Expr) (l : List Arg) :
    attrDefn key' (setAttr key val l) = attrDefn key' l := by
  induction l with
  | nil => simp [setAttr, attrDefn, Ne.symm h]
  | cons a l ih =>
    cases a with
    | assign k v =>
      by_cases hk : k = key
      · subst hk
        simp [setAttr, attrDefn, Ne.symm h]
      · by_cases hk' : k = key'
        · subst hk'
          simp [setAttr, attrDefn, hk]
        · simp [setAttr, attrDefn, hk, hk', ih]
    | other t => simp [setAttr, attrDefn, ih]

theorem setAttr_eq_self {key : String} {val : Expr} {l : List Arg}
    (h : attrDefn key l = some val) : setAttr key val l = l := by
  induction l with
  | nil => simp [attrDefn] at h
  | cons a l ih =>
    cases a with
    | assign k v =>
      by_cases hk : k = key
      · simp [attrDefn, hk] at h
        simp [setAttr, hk, h]
      · simp [attrDefn, hk] at h
        simp [setAttr, hk, ih h]
    | other t =>
      simp [attrDefn] at h
      simp [setAttr, ih h]

theorem setAttr_setAttr (key : String) (v w : Expr) (l : List Arg) :
    setAttr key v (setAttr key w l) = setAttr key v l := by
  induction l with
  | nil => simp [setAttr]
  | cons a l ih =>
    cases a with
    | assign k u =>
      by_cases hk : k = key
      · simp [setAttr, hk]
      · simp [setAttr, hk, ih]
    | other t => simp [setAttr, ih]

theorem Rule.attr_setAttr_same (r : Rule) (key : String) (val : Expr) :
    (r.SetAttr key val).Attr key = some val :=
  attrDefn_setAttr_same key val r.List

theorem Rule.attr_setAttr_ne (r : Rule) {key key' : String} (h : key' ≠ key) (val : Expr) :
    (r.SetAttr key val).Attr key' = r.Attr key' :=
  attrDefn_setAttr_ne h val r.List

theorem Rule.setAttr_of_attr {r : Rule} {key : String} {val : Expr}
    (h : r.Attr key = some val) : r.SetAttr key val = r := by
  cases r with
  | mk X L =>
    simp only [Rule.SetAttr, Rule.mk.injEq, true_and]
    exact Bazeldnf.setAttr_eq_self h

theorem Rule.setAttr_twice (r : Rule) (key : String) (v w : Expr) :
    (r.SetAttr key w).SetAttr key v = r.SetAttr key v := by
  simp [Rule.SetAttr, Bazeldnf.setAttr_setAttr]

theorem Rule.name_of_attr {r : Rule} {k : String} (h : r.Attr "name" = some (.str k)) :
    r.Name = k := by
  simp [Rule.Name, Rule.AttrString, h]

/-! ## The lookup -/

theorem mapGet_mapSet (m : RuleMap) (k k' : String) (r : Rule) :
    mapGet (mapSet m k r) k' = if k = k' then some r else mapGet m k' := by
  induction m with
  | nil => simp [mapSet, mapGet]
  | cons e m ih =>
    obtain ⟨k0, r0⟩ := e
    by_cases h0 : k0 = k
    · subst h0
      by_cases h1 : k0 = k'
      · simp [mapSet, mapGet, h1]
      · simp [mapSet, mapGet, h1]
    · by_cases h1 : k0 = k'
      · subst h1
        simp [mapSet, mapGet, h0, Ne.symm h0]
      · simp [mapSet, mapGet, h0, h1, ih]

theorem mem_keys_mapSet (m : RuleMap) (k k' : String) (r : Rule) :
    k' ∈ (mapSet m k r).map Prod.fst ↔ k' = k ∨ k' ∈ m.map Prod.fst := by
  induction m with
  | nil => simp [mapSet]
  | cons e m ih =>
    obtain ⟨k0, r0⟩ := e
    by_cases h0 : k0 = k
    · subst h0
      simp [mapSet]
    · simp only [mapSet, h0, if_false, List.map_cons, List.mem_cons, ih]
      tauto

theorem nodupKeys_mapSet {m : RuleMap} (h : NodupKeys m) (k : String) (r : Rule) :
    NodupKeys (mapSet m k r) := by
  induction m with
  | nil => simp [Bazeldnf.mapSet, NodupKeys]
  | cons e m ih =>
    obtain ⟨k0, r0⟩ := e
    simp only [NodupKeys, List.map_cons, List.nodup_cons] at h
    by_cases h0 : k0 = k
    · subst h0
      simpa [Bazeldnf.mapSet, NodupKeys] using h
    · simp only [Bazeldnf.mapSet, h0, if_false, NodupKeys, List.map_cons, List.nodup_cons]
      refine ⟨?_, ih h.2⟩
      rw [mem_keys_mapSet]
      rintro (h1 | h1)
      · exact h0 h1
      · exact h.1 h1

theorem mapGet_eq_some_iff {m : RuleMap} (h : NodupKeys m) (k : String) (r : Rule) :
    mapGet m k = some r ↔ (k, r) ∈ m := by
  induction m with
  | nil => simp [mapGet]
  | cons e m ih =>
    obtain ⟨k0, r0⟩ := e
    simp only [NodupKeys, List.map_cons, List.nodup_cons] at h
    by_cases h0 : k0 = k
    · subst h0
      simp only [mapGet, if_true, Option.some.injEq, List.mem_cons, Prod.mk.injEq, true_and]
      constructor
      · intro e; exact Or.inl e.symm
      · rintro (e | e)
        · exact e.symm
        · exact absurd (List.mem_map_of_mem Prod.fst e) h.1
    · simp only [mapGet, h0, if_false, List.mem_cons, Prod.mk.injEq, ih h.2]
      constructor
      · intro e; exact Or.inr e
      · rintro (e | e)
        · exact absurd e.1.symm h0
        · exact e

theorem mapGet_isSome_iff (m : RuleMap) (k : String) :
    (mapGet m k).isSome = true ↔ k ∈ m.map Prod.fst := by
  induction m with
  | nil => simp [mapGet]
  | cons e m ih =>
    obtain ⟨k0, r0⟩ := e
    by_cases h0 : k0 = k
    · simp [mapGet, h0]
    · simp only [mapGet, h0, if_false, ih, List.map_cons, List.mem_cons]
      constructor
      · intro e; exact Or.inr e
      · rintro (e | e)
        · exact absurd e.symm h0
        · exact e

theorem perm_of_mapGet_eq {m₁ m₂ : RuleMap} (h₁ : NodupKeys m₁) (h₂ : NodupKeys m₂)
    (h : ∀ k, mapGet m₁ k = mapGet m₂ k) : m₁.Perm m₂ := by
  have n₁ : m₁.Nodup := List.Nodup.of_map _ h₁
  have n₂ : m₂.Nodup := List.Nodup.of_map _ h₂
  rw [List.perm_ext_iff_of_nodup n₁ n₂]
  rintro ⟨k, r⟩
  rw [← mapGet_eq_some_iff h₁, ← mapGet_eq_some_iff h₂, h k]

theorem lookupOf_concat (rules : List Rule) (r : Rule) :
    lookupOf (rules ++ [r]) = mapSet (lookupOf rules) r.Name r := by
  simp [lookupOf, List.foldl_append]

theorem nodupKeys_lookupOf (rules : List Rule) : NodupKeys (lookupOf rules) := by
  induction rules using List.reverseRecOn with
  | nil => simp [lookupOf, NodupKeys]
  | append_singleton l r ih =>
    rw [lookupOf_concat]
    exact nodupKeys_mapSet ih _ _

theorem mapGet_lookupOf (rules : List Rule) (k : String) :
    mapGet (lookupOf rules) k = rules.reverse.find? (fun r => r.Name = k) := by
  induction rules using List.reverseRecOn with
  | nil => simp [lookupOf, mapGet]
  | append_singleton l r ih =>
    rw [lookupOf_concat, mapGet_mapSet, List.reverse_append]
    by_cases h : r.Name = k
    · simp [h]
    · simp [h, ih]

/-! ## Sorting by name -/

theorem strLess_iff (a b : String) : strLess a b = true ↔ a < b := by
  simp [strLess]

theorem strLess_eq_false_iff (a b : String) : strLess b a = false ↔ a ≤ b := by
  rw [← Bool.not_eq_true, strLess_iff, not_lt]

theorem SliceStable_perm {α : Type} (less : α → α → Bool) (l : List α) :
    (sort.SliceStable less l).Perm l :=
  List.perm_insertionSort _ l

theorem SliceStable_sorted {α : Type} (f : α → String) (l : List α) :
    (sort.SliceStable (fun a b => strLess (f a) (f b)) l).Pairwise
      (fun a b => strLess (f b) (f a) = false) := by
  haveI : IsTotal α (fun a b => strLess (f b) (f a) = false) :=
    ⟨fun a b => by simp only [strLess_eq_false_iff]; exact le_total _ _⟩
  haveI : IsTrans α (fun a b => strLess (f b) (f a) = false) :=
    ⟨fun a b c => by simp only [strLess_eq_false_iff]; exact le_trans⟩
  exact List.sorted_insertionSort (fun a b => strLess (f b) (f a) = false) l

theorem SliceStable_strict {α : Type} (f : α → String) (l : List α) (h : (l.map f).Nodup) :
    (sort.SliceStable (fun a b => strLess (f a) (f b)) l).Pairwise
      (fun a b => strLess (f a) (f b) = true) := by
  have hs := SliceStable_sorted f l
  have hn : ((sort.SliceStable (fun a b => strLess (f a) (f b)) l).map f).Nodup :=
    ((SliceStable_perm _ l).map f).nodup_iff.2 h
  have hn' := List.pairwise_map.1 hn
  refine (hs.and hn').imp ?_
  rintro a b ⟨h1, h2⟩
  rw [strLess_iff]
  exact lt_of_le_of_ne ((strLess_eq_false_iff _ _).1 h1) h2

theorem eq_of_perm_of_strict {α : Type} (f : α → String) {l₁ l₂ : List α} (hp : l₁.Perm l₂)
    (h₁ : l₁.Pairwise (fun a b => strLess (f a) (f b) = true))
    (h₂ : l₂.Pairwise (fun a b => strLess (f a) (f b) = true)) : l₁ = l₂ := by
  haveI : IsAntisymm α (fun a b => strLess (f a) (f b) = true) :=
    ⟨fun a b h1 h2 => by
      rw [strLess_iff] at h1 h2
      exact absurd h1 (lt_asymm h2)⟩
  exact List.eq_of_perm_of_sorted hp h₁ h₂

theorem SliceStable_congr {α : Type} (f : α → String) {l₁ l₂ : List α} (hp : l₁.Perm l₂)
    (h : (l₁.map f).Nodup) :
    sort.SliceStable (fun a b => strLess (f a) (f b)) l₁ =
      sort.SliceStable (fun a b => strLess (f a) (f b)) l₂ := by
  have h' : (l₂.map f).Nodup := (hp.map f).nodup_iff.1 h
  exact eq_of_perm_of_strict f
    (((SliceStable_perm _ l₁).trans hp).trans (SliceStable_perm _ l₂).symm)
    (SliceStable_strict f l₁ h) (SliceStable_strict f l₂ h')

theorem nodup_of_strict {α : Type} (f : α → String) {l : List α}
    (h : l.Pairwise (fun a b => strLess (f a) (f b) = true)) : (l.map f).Nodup := by
  refine List.pairwise_map.2 (h.imp ?_)
  intro a b hab
  exact ne_of_lt ((strLess_iff _ _).1 hab)

theorem ValidLookup.names_eq {kind : String} {m : RuleMap} (h : ValidLookup kind m) :
    (m.map Prod.snd).map Rule.Name = m.map Prod.fst := by
  rw [List.map_map]
  apply List.map_congr_left
  rintro ⟨k, r⟩ hm
  exact h.name k r hm

theorem ValidLookup.names_nodup {kind : String} {m : RuleMap} (h : ValidLookup kind m) :
    ((m.map Prod.snd).map Rule.Name).Nodup := by
  rw [h.names_eq]
  exact h.nodup

theorem sortedRules_perm (o : MapOrder) (m : RuleMap) :
    (sortedRules o m).Perm (m.map Prod.snd) :=
  (SliceStable_perm _ _).trans ((o.perm m).map Prod.snd)

theorem sortedRules_strict {kind : String} (o : MapOrder) {m : RuleMap}
    (h : ValidLookup kind m) :
    (sortedRules o m).Pairwise (fun a b => strLess a.Name b.Name = true) := by
  apply SliceStable_strict Rule.Name
  exact (((o.perm m).map Prod.snd).map Rule.Name).nodup_iff.2 h.names_nodup

theorem sortedRules_congr {kind : String} (o₁ o₂ : MapOrder) {m₁ m₂ : RuleMap}
    (h₁ : ValidLookup kind m₁) (hp : m₁.Perm m₂) : sortedRules o₁ m₁ = sortedRules o₂ m₂ := by
  apply SliceStable_congr Rule.Name
  · exact (((o₁.perm m₁).trans hp).trans (o₂.perm m₂).symm).map Prod.snd
  · exact (((o₁.perm m₁).map Prod.snd).map Rule.Name).nodup_iff.2 h₁.names_nodup

theorem mem_sortedRules {kind : String} (o : MapOrder) {m : RuleMap} (h : ValidLookup kind m)
    (r : Rule) : r ∈ sortedRules o m ↔ mapGet m r.Name = some r := by
  rw [(sortedRules_perm o m).mem_iff, mapGet_eq_some_iff h.nodup]
  constructor
  · intro hr
    obtain ⟨⟨k, r'⟩, hm, rfl⟩ := List.mem_map.1 hr
    rw [h.name k r' hm]
    exact hm
  · intro hr
    exact List.mem_map_of_mem Prod.snd hr

/-! ## Insertion before the trailing comment blocks -/

theorem rdropWhile_append_rtakeWhile {α : Type} (p : α → Bool) (l : List α) :
    l.rdropWhile p ++ l.rtakeWhile p = l := by
  rw [List.rdropWhile, List.rtakeWhile, ← List.reverse_append,
    List.takeWhile_append_dropWhile, List.reverse_reverse]

theorem rdropWhile_append_of_all {α : Type} (p : α → Bool) (l c : List α)
    (h : ∀ x ∈ c, p x = true) : (l ++ c).rdropWhile p = l.rdropWhile p := by
  induction c using List.reverseRecOn with
  | nil => simp
  | append_singleton c x ih =>
    rw [← List.append_assoc, List.rdropWhile_concat_pos _ _ _ (h x (by simp))]
    exact ih (fun y hy => h y (by simp [hy]))

theorem rtakeWhile_append_of_all {α : Type} (p : α → Bool) (l c : List α)
    (h : ∀ x ∈ c, p x = true) : (l ++ c).rtakeWhile p = l.rtakeWhile p ++ c := by
  induction c using List.reverseRecOn with
  | nil => simp
  | append_singleton c x ih =>
    rw [← List.append_assoc, List.rtakeWhile_concat_pos _ _ _ (h x (by simp)),
      ih (fun y hy => h y (by simp [hy])), List.append_assoc]

theorem Rule.call_not_comment (r : Rule) : r.Call.isCommentBlock = false := rfl

theorem rdropWhile_insertAtEnd (stmt : List Stmt) (e : Stmt) (he : e.isCommentBlock = false) :
    (edit.InsertAtEnd stmt e).rdropWhile Stmt.isCommentBlock =
      stmt.rdropWhile Stmt.isCommentBlock ++ [e] := by
  have hc : ∀ x ∈ stmt.rtakeWhile Stmt.isCommentBlock, Stmt.isCommentBlock x = true :=
    fun x hx => List.mem_rtakeWhile_imp hx
  rw [edit.InsertAtEnd, ← List.singleton_append, ← List.append_assoc,
    rdropWhile_append_of_all _ _ _ hc, List.rdropWhile_concat_neg _ _ _ (by simp [he])]

theorem rtakeWhile_insertAtEnd (stmt : List Stmt) (e : Stmt) (he : e.isCommentBlock = false) :
    (edit.InsertAtEnd stmt e).rtakeWhile Stmt.isCommentBlock =
      stmt.rtakeWhile Stmt.isCommentBlock := by
  have hc : ∀ x ∈ stmt.rtakeWhile Stmt.isCommentBlock, Stmt.isCommentBlock x = true :=
    fun x hx => List.mem_rtakeWhile_imp hx
  rw [edit.InsertAtEnd, ← List.singleton_append, ← List.append_assoc,
    rtakeWhile_append_of_all _ _ _ hc, List.rtakeWhile_concat_neg _ _ _ (by simp [he])]
  simp

theorem insertAll_eq (stmt : List Stmt) (rules : List Rule) :
    insertAll stmt rules =
      stmt.rdropWhile Stmt.isCommentBlock ++ rules.map Rule.Call ++
        stmt.rtakeWhile Stmt.isCommentBlock := by
  induction rules generalizing stmt with
  | nil => simp [insertAll, rdropWhile_append_rtakeWhile]
  | cons r rules ih =>
    have := ih (edit.InsertAtEnd stmt r.Call)
    simp only [insertAll, List.foldl_cons] at this ⊢
    rw [this, rdropWhile_insertAtEnd _ _ r.call_not_comment,
      rtakeWhile_insertAtEnd _ _ r.call_not_comment]
    simp

/-! ## Rules of a statement list -/

theorem rules_append (a b : List Stmt) (kind : String) :
    (File.mk (a ++ b)).Rules kind = (File.mk a).Rules kind ++ (File.mk b).Rules kind := by
  simp [File.Rules, List.filterMap_append]

theorem rules_eq_nil_of_not_isRule {l : List Stmt} {kind : String} (hk : kind ≠ "")
    (h : ∀ s ∈ l, s.isRule kind "" = false) : (File.mk l).Rules kind = [] := by
  simp only [File.Rules, List.filterMap_eq_nil_iff]
  intro s hs
  have := h s hs
  cases s with
  | call X L =>
    simp only [Stmt.isRule, hk, decide_False, Bool.false_or, decide_True, Bool.true_or,
      Bool.and_true, decide_eq_false_iff_not] at this
    simp [hk, this]
  | comment t => rfl
  | other t => rfl

theorem rules_map_call {rules : List Rule} {kind : String}
    (h : ∀ r ∈ rules, r.Kind = kind) : (File.mk (rules.map Rule.Call)).Rules kind = rules := by
  induction rules with
  | nil => rfl
  | cons r rules ih =>
    have hr : r.Kind = kind := h r (by simp)
    have ih' := ih (fun x hx => h x (by simp [hx]))
    simp only [File.Rules] at ih' ⊢
    simp only [List.map_cons, Rule.Call, List.filterMap_cons, hr, ne_eq, not_true_eq_false,
      and_false, if_false, ih']

theorem filter_map_call {rules : List Rule} {kind : String}
    (h : ∀ r ∈ rules, r.Kind = kind) :
    (rules.map Rule.Call).filter (fun s => !s.isRule kind "") = [] := by
  simp only [List.filter_eq_nil_iff, List.mem_map]
  rintro s ⟨r, hr, rfl⟩
  simp [Rule.Call, Stmt.isRule, h r hr]

theorem filter_eq_self_of_not_isRule {l : List Stmt} {kind : String}
    (h : ∀ s ∈ l, s.isRule kind "" = false) :
    l.filter (fun s => !s.isRule kind "") = l := by
  simp only [List.filter_eq_self]
  intro s hs
  simp [h s hs]

theorem not_isRule_of_mem_kept {f : File} {s : Stmt} (h : s ∈ kept f) :
    s.isRule "rpm" "" = false := by
  simp only [kept, File.DelRules, List.mem_filter, Bool.not_eq_eq_eq_not, Bool.not_true] at h
  exact h.2

theorem not_isRule_of_mem_rdropWhile {f : File} {s : Stmt}
    (h : s ∈ (kept f).rdropWhile Stmt.isCommentBlock) : s.isRule "rpm" "" = false :=
  not_isRule_of_mem_kept ((List.rdropWhile_prefix _ _).subset h)

theorem not_isRule_of_mem_rtakeWhile {f : File} {s : Stmt}
    (h : s ∈ (kept f).rtakeWhile Stmt.isCommentBlock) : s.isRule "rpm" "" = false :=
  not_isRule_of_mem_kept ((List.rtakeWhile_suffix _ _).subset h)

theorem AddRPMS_eq_some_iff (o : MapOrder) (d : File) (ps : List Package) (d' : File) :
    AddRPMS o d ps = some d' ↔
      ∃ m, upsertAll (lookupOf (d.Rules "rpm")) ps = some m ∧ d' = layout o d m := by
  have e : AddRPMS o d ps = (upsertAll (lookupOf (d.Rules "rpm")) ps).map (layout o d) := by
    dsimp only [AddRPMS]
    generalize upsertAll (lookupOf (d.Rules "rpm")) ps = x
    cases x with
    | none => rfl
    | some m => simp [layout, insertAll_eq, kept]
  rw [e]
  cases upsertAll (lookupOf (d.Rules "rpm")) ps with
  | none => simp
  | some m => simp [eq_comm]

theorem rules_layout (o : MapOrder) (d : File) {m : RuleMap} (h : ValidLookup "rpm" m) :
    (layout o d m).Rules "rpm" = sortedRules o m := by
  have hk : ∀ r ∈ sortedRules o m, r.Kind = "rpm" := by
    intro r hr
    rw [mem_sortedRules o h, mapGet_eq_some_iff h.nodup] at hr
    exact h.kind _ _ hr
  rw [layout, rules_append, rules_append,
    rules_eq_nil_of_not_isRule (by decide) (fun s hs => not_isRule_of_mem_rdropWhile hs),
    rules_eq_nil_of_not_isRule (by decide) (fun s hs => not_isRule_of_mem_rtakeWhile hs),
    rules_map_call hk]
  simp

theorem kept_layout (o : MapOrder) (d : File) {m : RuleMap} (h : ValidLookup "rpm" m) :
    kept (layout o d m) = kept d := by
  have hk : ∀ r ∈ sortedRules o m, r.Kind = "rpm" := by
    intro r hr
    rw [mem_sortedRules o h, mapGet_eq_some_iff h.nodup] at hr
    exact h.kind _ _ hr
  show ((layout o d m).DelRules "rpm" "").Stmt = kept d
  simp only [File.DelRules, layout, List.filter_append]
  rw [filter_map_call hk,
    filter_eq_self_of_not_isRule (fun s hs => not_isRule_of_mem_rdropWhile hs),
    filter_eq_self_of_not_isRule (fun s hs => not_isRule_of_mem_rtakeWhile hs)]
  simp [rdropWhile_append_rtakeWhile]

/-! ## One descriptor applied to one rule -/

theorem stringValues_eq_some_iff (l : List Elem) (vs : List String) :
    stringValues l = some vs ↔ l = vs.map Elem.str := by
  induction l generalizing vs with
  | nil => cases vs <;> simp [stringValues]
  | cons e l ih =>
    cases e with
    | str v =>
      cases vs with
      | nil => simp [stringValues]
      | cons w ws =>
        simp only [stringValues, Option.map_eq_some', List.cons.injEq, List.map_cons,
          Elem.str.injEq]
        constructor
        · rintro ⟨a, ha, h1, h2⟩
          subst h2
          exact ⟨h1, (ih a).1 ha⟩
        · rintro ⟨h1, h2⟩
          exact ⟨ws, (ih ws).2 h2, h1, rfl⟩
    | other t => cases vs <;> simp [stringValues]

theorem URLs_congr {r r' : Rule} (h : r.Attr "urls" = r'.Attr "urls") :
    rpmRule.URLs r = rpmRule.URLs r' := by
  simp [rpmRule.URLs, h]

theorem attr_urls_of_URLs {r : Rule} {U : List String} (h : rpmRule.URLs r = some U)
    (hU : U ≠ []) : r.Attr "urls" = some (.list (U.map Elem.str)) := by
  unfold rpmRule.URLs at h
  cases ha : r.Attr "urls" with
  | none => rw [ha] at h; simp at h; exact absurd h hU
  | some e =>
    rw [ha] at h
    cases e with
    | str v => simp at h
    | other t => simp at h
    | list l =>
      by_cases hl : l.length > 0
      · simp only [hl, if_true] at h
        rw [(stringValues_eq_some_iff l U).1 h]
      · simp only [hl, if_false, Option.some.injEq] at h
        exact absurd h.symm hU

theorem URLs_of_attr {r : Rule} {U : List String}
    (h : r.Attr "urls" = some (.list (U.map Elem.str))) : rpmRule.URLs r = some U := by
  unfold rpmRule.URLs
  rw [h]
  cases U with
  | nil => simp
  | cons u U =>
    simp only [List.map_cons, List.length_cons, gt_iff_lt, Nat.zero_lt_succ, if_true]
    exact (stringValues_eq_some_iff _ _).2 rfl

theorem wellFormed_iff (r : Rule) : r.wellFormed = true ↔ (rpmRule.URLs r).isSome = true := by
  unfold Rule.wellFormed rpmRule.URLs
  cases r.Attr "urls" with
  | none => simp
  | some e =>
    cases e with
    | str v => simp
    | other t => simp
    | list l =>
      induction l with
      | nil => simp
      | cons x l ih =>
        cases x with
        | other t => simp [stringValues]
        | str v =>
          cases l with
          | nil => simp [stringValues]
          | cons y l =>
            simp only [List.all_cons, Bool.true_and, List.length_cons, gt_iff_lt,
              Nat.zero_lt_succ, if_true, Bool.and_eq_true] at ih ⊢
            simp only [stringValues, Option.isSome_map']
            exact ih

theorem attr_name_stamped (pkg : Package) (r : Rule) :
    (stamped pkg r).Attr "name" = some (.str pkg.ident) := by
  rw [stamped, rpmRule.SetSHA256, Rule.attr_setAttr_ne _ (by decide), rpmRule.SetName,
    Rule.attr_setAttr_same]

theorem attr_sha_stamped (pkg : Package) (r : Rule) :
    (stamped pkg r).Attr "sha256" = some (.str pkg.Checksum) := by
  rw [stamped, rpmRule.SetSHA256, Rule.attr_setAttr_same]

theorem attr_urls_stamped (pkg : Package) (r : Rule) :
    (stamped pkg r).Attr "urls" = r.Attr "urls" := by
  rw [stamped, rpmRule.SetSHA256, Rule.attr_setAttr_ne _ (by decide), rpmRule.SetName,
    Rule.attr_setAttr_ne _ (by decide)]

theorem upsert_eq (m : RuleMap) (pkg : Package) :
    upsert m pkg =
      (touch pkg ((mapGet m pkg.ident).getD freshRule)).map (mapSet m pkg.ident) := by
  have hu : rpmRule.URLs
      (rpmRule.SetSHA256 (rpmRule.SetName ((mapGet m pkg.ident).getD freshRule) pkg.ident)
        pkg.Checksum) = rpmRule.URLs ((mapGet m pkg.ident).getD freshRule) :=
    URLs_congr (attr_urls_stamped pkg _)
  unfold upsert touch
  simp only [freshRule] at hu ⊢
  rw [hu]
  cases rpmRule.URLs ((mapGet m pkg.ident).getD ⟨.ident "rpm", []⟩) with
  | none => rfl
  | some U => rfl

/-- What `touch` leaves: the attributes of the rule after one pass. -/
theorem touch_spec {pkg : Package} {r r' : Rule} (h : touch pkg r = some r') :
    r'.Attr "name" = some (.str pkg.ident) ∧ r'.Attr "sha256" = some (.str pkg.Checksum) ∧
      r'.Kind = r.Kind ∧
      ∃ U, rpmRule.URLs r = some U ∧
        (U ≠ [] → r' = stamped pkg r) ∧
        (U = [] → r' = rpmRule.SetURLs (stamped pkg r) pkg.Mirrors pkg.Href) := by
  unfold touch at h
  cases hU : rpmRule.URLs r with
  | none => rw [hU] at h; simp at h
  | some U =>
    rw [hU] at h
    simp only [Option.some.injEq] at h
    by_cases hl : U.length = 0
    · simp only [hl, if_true] at h
      subst h
      refine ⟨?_, ?_, rfl, U, rfl, ?_, fun _ => rfl⟩
      · rw [rpmRule.SetURLs, Rule.attr_setAttr_ne _ (by decide), attr_name_stamped]
      · rw [rpmRule.SetURLs, Rule.attr_setAttr_ne _ (by decide), attr_sha_stamped]
      · intro hne
        exact absurd (List.length_eq_zero.1 hl) hne
    · simp only [hl, if_false] at h
      subst h
      refine ⟨attr_name_stamped _ _, attr_sha_stamped _ _, rfl, U, rfl, fun _ => rfl, ?_⟩
      intro he
      exact absurd (by simp [he]) hl

theorem touch_isSome_iff (pkg : Package) (r : Rule) :
    (touch pkg r).isSome = true ↔ r.wellFormed = true := by
  rw [wellFormed_iff]
  unfold touch
  cases rpmRule.URLs r <;> simp

theorem wellFormed_of_touch {pkg : Package} {r r' : Rule} (h : touch pkg r = some r') :
    r'.wellFormed = true := by
  obtain ⟨_, _, _, U, hU, h1, h2⟩ := touch_spec h
  rw [wellFormed_iff]
  by_cases hn : U = []
  · rw [h2 hn, URLs_of_attr (U := pkg.Mirrors.map fun url => path.Join [url, pkg.Href])]
    · rfl
    · rw [rpmRule.SetURLs, Rule.attr_setAttr_same, List.map_map]
      rfl
  · rw [h1 hn, URLs_congr (attr_urls_stamped pkg r), hU]
    rfl

/-! ## The descriptors of one identity -/

theorem upsertAll_get {m m' : RuleMap} {ps : List Package} (h : upsertAll m ps = some m')
    (k : String) : touchAll k (mapGet m k) ps = some (mapGet m' k) := by
  induction ps generalizing m with
  | nil =>
    simp only [upsertAll, Option.some.injEq] at h
    simp [touchAll, h]
  | cons p ps ih =>
    simp only [upsertAll, upsert_eq] at h
    cases ht : touch p ((mapGet m p.ident).getD freshRule) with
    | none => rw [ht] at h; simp at h
    | some r =>
      rw [ht] at h
      simp only [Option.map_some'] at h
      have := ih h
      rw [mapGet_mapSet] at this
      by_cases hk : p.ident = k
      · subst hk
        simp only [touchAll, if_true, ht]
        simpa using this
      · simp only [touchAll, hk, if_false]
        simpa [hk] using this

theorem upsertAll_isSome {m : RuleMap} {ps : List Package}
    (h : ∀ k, (touchAll k (mapGet m k) ps).isSome = true) : (upsertAll m ps).isSome = true := by
  induction ps generalizing m with
  | nil => simp [upsertAll]
  | cons p ps ih =>
    simp only [upsertAll, upsert_eq]
    have hp := h p.ident
    simp only [touchAll, if_true] at hp
    cases ht : touch p ((mapGet m p.ident).getD freshRule) with
    | none => rw [ht] at hp; simp at hp
    | some r =>
      rw [ht] at hp
      simp only [Option.map_some']
      apply ih
      intro k
      rw [mapGet_mapSet]
      by_cases hk : p.ident = k
      · subst hk
        simpa using hp
      · have := h k
        simp only [touchAll, hk, if_false] at this
        simpa [hk] using this

theorem touchAll_of_not_mem {k : String} {ps : List Package} (h : ∀ p ∈ ps, p.ident ≠ k)
    (cur : Option Rule) : touchAll k cur ps = some cur := by
  induction ps with
  | nil => rfl
  | cons p ps ih =>
    have hp : p.ident ≠ k := h p (by simp)
    simp only [touchAll, hp, if_false]
    exact ih (fun q hq => h q (by simp [hq]))

/-- Name and checksum after the passes: those of the last descriptor of the identity. -/
theorem touchAll_last {k : String} {ps : List Package} {cur res : Option Rule} {q : Package}
    (h : touchAll k cur ps = some res)
    (hq : (ps.filter (fun p => p.ident = k)).getLast? = some q) :
    ∃ r, res = some r ∧ r.Attr "name" = some (.str k) ∧
      r.Attr "sha256" = some (.str q.Checksum) := by
  induction ps generalizing cur with
  | nil => simp at hq
  | cons p ps ih =>
    by_cases hk : p.ident = k
    · simp only [touchAll, hk, if_true] at h
      cases ht : touch p (cur.getD freshRule) with
      | none => rw [ht] at h; simp at h
      | some r =>
        rw [ht] at h
        simp only at h
        simp only [List.filter_cons, hk, decide_True, if_true] at hq
        cases hf : ps.filter (fun p => p.ident = k) with
        | nil =>
          rw [hf] at hq
          simp only [List.getLast?_singleton, Option.some.injEq] at hq
          subst hq
          have hn : ∀ p' ∈ ps, p'.ident ≠ k := by
            intro p' hp' he
            have : p' ∈ ps.filter (fun p => p.ident = k) := by
              simp [List.mem_filter, hp', he]
            rw [hf] at this
            simp at this
          rw [touchAll_of_not_mem hn] at h
          simp only [Option.some.injEq] at h
          obtain ⟨h1, h2, _⟩ := touch_spec ht
          exact ⟨r, h.symm, hk ▸ h1, h2⟩
        | cons a l =>
          rw [hf] at hq
          rw [List.getLast?_cons_cons] at hq
          exact ih h (by rw [hf]; exact hq)
    · simp only [touchAll, hk, if_false] at h
      simp only [List.filter_cons, hk, decide_False] at hq
      exact ih h hq

theorem StableFor.mono {k : String} {ps qs : List Package} {r : Rule} (h : StableFor k ps r)
    (hs : ∀ p ∈ qs, p ∈ ps) : StableFor k qs r := by
  obtain ⟨h1, U, h2, h3⟩ := h
  refine ⟨h1, U, h2, ?_⟩
  rcases h3 with h3 | h3
  · exact Or.inl h3
  · exact Or.inr (fun p hp => h3 p (hs p hp))

theorem StableFor.setSHA256 {k : String} {ps : List Package} {r : Rule} (h : StableFor k ps r)
    (c : String) : StableFor k ps (rpmRule.SetSHA256 r c) := by
  obtain ⟨h1, U, h2, h3⟩ := h
  refine ⟨?_, U, ?_, h3⟩
  · rw [rpmRule.SetSHA256, Rule.attr_setAttr_ne _ (by decide), h1]
  · rw [rpmRule.SetSHA256, Rule.attr_setAttr_ne _ (by decide), h2]

theorem touch_of_stable {k : String} {ps : List Package} {r : Rule} (h : StableFor k ps r)
    {p : Package} (hp : p ∈ ps) (hk : p.ident = k) :
    touch p r = some (rpmRule.SetSHA256 r p.Checksum) := by
  obtain ⟨h1, U, h2, h3⟩ := h
  have hs : stamped p r = rpmRule.SetSHA256 r p.Checksum := by
    rw [stamped, rpmRule.SetName, hk, Rule.setAttr_of_attr h1]
  unfold touch
  rw [URLs_of_attr h2]
  by_cases hU : U = []
  · subst hU
    have hm : p.Mirrors = [] := by
      rcases h3 with h3 | h3
      · exact absurd rfl h3
      · exact h3 p hp hk
    have : rpmRule.SetURLs (stamped p r) p.Mirrors p.Href = stamped p r := by
      rw [rpmRule.SetURLs, hm]
      apply Rule.setAttr_of_attr
      rw [attr_urls_stamped, h2]
      rfl
    simp only [List.length_nil, if_true, Option.some.injEq]
    rw [this, hs]
  · have : U.length ≠ 0 := fun e => hU (List.length_eq_zero.1 e)
    simp [this, hs]

theorem touchAll_of_stable {k : String} {ps : List Package} {r : Rule}
    (h : StableFor k ps r) :
    touchAll k (some r) ps =
      some (some (match (ps.filter (fun p => p.ident = k)).getLast? with
        | some q => rpmRule.SetSHA256 r q.Checksum
        | none => r)) := by
  induction ps generalizing r with
  | nil => rfl
  | cons p ps ih =>
    have h' : StableFor k ps r := h.mono (fun q hq => by simp [hq])
    by_cases hk : p.ident = k
    · simp only [touchAll, hk, if_true, Option.getD_some,
        touch_of_stable h (List.mem_cons_self p ps) hk]
      rw [ih (h'.setSHA256 _)]
      simp only [List.filter_cons, hk, decide_True, if_true]
      cases hf : ps.filter (fun p => p.ident = k) with
      | nil => simp
      | cons a l =>
        rw [List.getLast?_cons_cons]
        cases hx : (a :: l).getLast? with
        | none => simp at hx
        | some q => simp [rpmRule.SetSHA256, Rule.setAttr_twice]
    · simp only [touchAll, hk, if_false, List.filter_cons, decide_False]
      exact ih h'

theorem touchAll_settled {k : String} {ps : List Package} {cur res : Option Rule}
    (h : touchAll k cur ps = some res) (pre : List Package) (hc : Settled k pre cur) :
    Settled k (pre ++ ps) res := by
  induction ps generalizing cur pre with
  | nil =>
    simp only [touchAll, Option.some.injEq] at h
    subst h
    simpa using hc
  | cons p ps ih =>
    have e : pre ++ p :: ps = (pre ++ [p]) ++ ps := by simp
    rw [e]
    by_cases hk : p.ident = k
    · simp only [touchAll, hk, if_true] at h
      cases ht : touch p (cur.getD freshRule) with
      | none => rw [ht] at h; simp at h
      | some r1 =>
        rw [ht] at h
        simp only at h
        apply ih h
        right
        refine ⟨r1, rfl, ?_⟩
        obtain ⟨hn, _, _, U0, hU0, ha, hb⟩ := touch_spec ht
        refine ⟨hk ▸ hn, ?_⟩
        by_cases hU : U0 = []
        · refine ⟨p.Mirrors.map fun url => path.Join [url, p.Href], ?_, ?_⟩
          · rw [hb hU, rpmRule.SetURLs, Rule.attr_setAttr_same, List.map_map]
            rfl
          · by_cases hm : p.Mirrors = []
            · right
              intro p' hp' hk'
              rcases List.mem_append.1 hp' with hp' | hp'
              · rcases hc with hc | ⟨r, hr, _, U, hU', hd⟩
                · exact absurd hk' (hc p' hp')
                · subst hr
                  simp only [Option.getD_some] at hU0
                  rw [URLs_of_attr hU'] at hU0
                  simp only [Option.some.injEq] at hU0
                  rcases hd with hd | hd
                  · exact absurd (hU0.trans hU) hd
                  · exact hd p' hp' hk'
              · simp only [List.mem_singleton] at hp'
                rw [hp']; exact hm
            · left
              simpa using hm
        · refine ⟨U0, ?_, Or.inl hU⟩
          rw [ha hU, attr_urls_stamped, attr_urls_of_URLs hU0 hU]
    · simp only [touchAll, hk, if_false] at h
      apply ih h
      rcases hc with hc | ⟨r, hr, hs⟩
      · left
        intro p' hp'
        rcases List.mem_append.1 hp' with hp' | hp'
        · exact hc p' hp'
        · simp only [List.mem_singleton] at hp'
          rw [hp']; exact hk
      · right
        refine ⟨r, hr, hs.1, ?_⟩
        obtain ⟨U, hU, hd⟩ := hs.2
        refine ⟨U, hU, ?_⟩
        rcases hd with hd | hd
        · exact Or.inl hd
        · right
          intro p' hp' hk'
          rcases List.mem_append.1 hp' with hp' | hp'
          · exact hd p' hp' hk'
          · simp only [List.mem_singleton] at hp'
            rw [hp'] at hk'
            exact absurd hk' hk

/-- Running the same descriptors again leaves the entry for `k` as it is. -/
theorem touchAll_idem {k : String} {ps : List Package} {cur res : Option Rule}
    (h : touchAll k cur ps = some res) : touchAll k res ps = some res := by
  have hs := touchAll_settled h [] (Or.inl (by simp))
  simp only [List.nil_append] at hs
  rcases hs with hs | ⟨r, hr, hs⟩
  · exact touchAll_of_not_mem hs res
  · subst hr
    rw [touchAll_of_stable hs]
    cases hq : (ps.filter (fun p => p.ident = k)).getLast? with
    | none => rfl
    | some q =>
      obtain ⟨r', hr', _, hsha⟩ := touchAll_last h hq
      simp only [Option.some.injEq] at hr'
      subst hr'
      simp only [rpmRule.SetSHA256, Rule.setAttr_of_attr hsha]

/-- A non-empty `urls` list survives every pass. -/
theorem touchAll_urls {k : String} {ps : List Package} {r : Rule} {res : Option Rule}
    {U : List String} (h : touchAll k (some r) ps = some res) (hU : rpmRule.URLs r = some U)
    (hne : U ≠ []) : ∃ r', res = some r' ∧ r'.Attr "urls" = r.Attr "urls" := by
  induction ps generalizing r with
  | nil =>
    simp only [touchAll, Option.some.injEq] at h
    exact ⟨r, h.symm, rfl⟩
  | cons p ps ih =>
    by_cases hk : p.ident = k
    · simp only [touchAll, hk, if_true, Option.getD_some] at h
      cases ht : touch p r with
      | none => rw [ht] at h; simp at h
      | some r1 =>
        rw [ht] at h
        simp only at h
        obtain ⟨_, _, _, U0, hU0, ha, _⟩ := touch_spec ht
        rw [hU] at hU0
        simp only [Option.some.injEq] at hU0
        subst hU0
        have e1 : r1.Attr "urls" = r.Attr "urls" := by rw [ha hne, attr_urls_stamped]
        obtain ⟨r', hr', hu'⟩ := ih h (by rw [URLs_congr e1]; exact hU)
        exact ⟨r', hr', hu'.trans e1⟩
    · simp only [touchAll, hk, if_false] at h
      exact ih h hU

/-! ## The lookup stays valid -/

theorem kind_of_mem_rules {f : File} {kind : String} (hk : kind ≠ "") {r : Rule}
    (h : r ∈ f.Rules kind) : r.Kind = kind := by
  simp only [File.Rules, List.mem_filterMap] at h
  obtain ⟨s, _, hs⟩ := h
  cases s with
  | call X L =>
    by_cases hc : (Rule.mk X L).Kind = kind
    · simp only [hk, ne_eq, not_false_eq_true, hc, not_true_eq_false, and_false, if_false,
        Option.some.injEq] at hs
      rw [← hs]; exact hc
    · simp [hk, hc] at hs
  | comment t => simp at hs
  | other t => simp at hs

theorem validLookup_lookupOf (f : File) {kind : String} (hk : kind ≠ "") :
    ValidLookup kind (lookupOf (f.Rules kind)) := by
  refine ⟨nodupKeys_lookupOf _, ?_, ?_⟩
  · intro k r h
    rw [← mapGet_eq_some_iff (nodupKeys_lookupOf _), mapGet_lookupOf] at h
    simpa using List.find?_some h
  · intro k r h
    rw [← mapGet_eq_some_iff (nodupKeys_lookupOf _), mapGet_lookupOf] at h
    have := List.mem_of_find?_eq_some h
    exact kind_of_mem_rules hk (List.mem_reverse.1 this)

theorem validLookup_mapSet {kind : String} {m : RuleMap} (h : ValidLookup kind m) {k : String}
    {r : Rule} (hn : r.Name = k) (hk : r.Kind = kind) : ValidLookup kind (mapSet m k r) := by
  have hnd := nodupKeys_mapSet h.nodup k r
  refine ⟨hnd, ?_, ?_⟩
  · intro k' r' hm
    rw [← mapGet_eq_some_iff hnd, mapGet_mapSet] at hm
    by_cases e : k = k'
    · simp only [e, if_true, Option.some.injEq] at hm
      rw [← hm, hn, e]
    · simp only [e, if_false] at hm
      exact h.name k' r' ((mapGet_eq_some_iff h.nodup _ _).1 hm)
  · intro k' r' hm
    rw [← mapGet_eq_some_iff hnd, mapGet_mapSet] at hm
    by_cases e : k = k'
    · simp only [e, if_true, Option.some.injEq] at hm
      rw [← hm, hk]
    · simp only [e, if_false] at hm
      exact h.kind k' r' ((mapGet_eq_some_iff h.nodup _ _).1 hm)

theorem ValidLookup.getD_kind {kind : String} {m : RuleMap} (h : ValidLookup kind m)
    (k : String) {fresh : Rule} (hf : fresh.Kind = kind) :
    ((mapGet m k).getD fresh).Kind = kind := by
  cases hg : mapGet m k with
  | none => simpa using hf
  | some r => exact h.kind k r ((mapGet_eq_some_iff h.nodup _ _).1 hg)

theorem validLookup_upsertAll {m m' : RuleMap} {ps : List Package}
    (hv : ValidLookup "rpm" m) (h : upsertAll m ps = some m') : ValidLookup "rpm" m' := by
  induction ps generalizing m with
  | nil =>
    simp only [upsertAll, Option.some.injEq] at h
    exact h ▸ hv
  | cons p ps ih =>
    simp only [upsertAll, upsert_eq] at h
    cases ht : touch p ((mapGet m p.ident).getD freshRule) with
    | none => rw [ht] at h; simp at h
    | some r =>
      rw [ht] at h
      simp only [Option.map_some'] at h
      obtain ⟨hn, _, hkind, _⟩ := touch_spec ht
      exact ih (validLookup_mapSet hv (Rule.name_of_attr hn)
        (hkind.trans (hv.getD_kind _ (by decide)))) h

theorem find?_eq_some_of_unique {α : Type} {p : α → Bool} {l : List α}
    (hu : ∀ x ∈ l, ∀ y ∈ l, p x = true → p y = true → x = y) (a : α) :
    l.find? p = some a ↔ a ∈ l ∧ p a = true := by
  constructor
  · intro h
    exact ⟨List.mem_of_find?_eq_some h, List.find?_some h⟩
  · rintro ⟨h1, h2⟩
    cases hf : l.find? p with
    | none =>
      rw [List.find?_eq_none] at hf
      exact absurd h2 (hf a h1)
    | some b =>
      rw [hu b (List.mem_of_find?_eq_some hf) a h1 (List.find?_some hf) h2]

/-- Reading the sorted rules back gives the lookup they were collected from. -/
theorem mapGet_lookupOf_sortedRules {kind : String} (o : MapOrder) {m : RuleMap}
    (h : ValidLookup kind m) (k : String) :
    mapGet (lookupOf (sortedRules o m)) k = mapGet m k := by
  rw [mapGet_lookupOf]
  apply Option.ext
  intro r
  simp only [Option.mem_def]
  rw [find?_eq_some_of_unique]
  · simp only [List.mem_reverse, decide_eq_true_eq, mem_sortedRules o h]
    constructor
    · rintro ⟨h1, h2⟩
      rw [← h2]; exact h1
    · intro h1
      have hn := h.name k r ((mapGet_eq_some_iff h.nodup _ _).1 h1)
      exact ⟨hn ▸ h1, hn⟩
  · intro x hx y hy px py
    simp only [List.mem_reverse, mem_sortedRules o h] at hx hy
    simp only [decide_eq_true_eq] at px py
    rw [px] at hx
    rw [py] at hy
    exact Option.some.inj (hx.symm.trans hy)

theorem rule_layout {o : MapOrder} (d : File) {m : RuleMap} (h : ValidLookup "rpm" m)
    (k : String) : (layout o d m).rule "rpm" k = mapGet m k := by
  rw [File.rule, rules_layout o d h, mapGet_lookupOf_sortedRules o h]

/-! ## Completion on well-formed documents -/

theorem touchAll_isSome_of_wellFormed {k : String} {ps : List Package} {cur : Option Rule}
    (h : ∀ r, cur = some r → r.wellFormed = true) : (touchAll k cur ps).isSome = true := by
  induction ps generalizing cur with
  | nil => rfl
  | cons p ps ih =>
    by_cases hk : p.ident = k
    · simp only [touchAll, hk, if_true]
      have hw : (cur.getD freshRule).wellFormed = true := by
        cases cur with
        | none => rfl
        | some r => exact h r rfl
      cases ht : touch p (cur.getD freshRule) with
      | none =>
        have := (touch_isSome_iff p _).2 hw
        rw [ht] at this
        simp at this
      | some r1 =>
        simp only
        apply ih
        intro r hr
        simp only [Option.some.injEq] at hr
        exact hr ▸ wellFormed_of_touch ht
    · simp only [touchAll, hk, if_false]
      exact ih h

theorem upsertAll_isSome_of_wellFormed (d : File) (ps : List Package) (h : d.WellFormed) :
    (upsertAll (lookupOf (d.Rules "rpm")) ps).isSome = true := by
  apply upsertAll_isSome
  intro k
  apply touchAll_isSome_of_wellFormed
  intro r hr
  rw [mapGet_lookupOf] at hr
  exact h r (List.mem_reverse.1 (List.mem_of_find?_eq_some hr))

theorem AddRPMS_isSome_of_wellFormed (o : MapOrder) (d : File) (ps : List Package)
    (h : d.WellFormed) : ∃ d', AddRPMS o d ps = some d' := by
  have := upsertAll_isSome_of_wellFormed d ps h
  obtain ⟨m, hm⟩ := Option.isSome_iff_exists.1 this
  exact ⟨layout o d m, (AddRPMS_eq_some_iff o d ps _).2 ⟨m, hm, rfl⟩⟩

/-- The final lookup behind a completed call, with all that is known of it. -/
theorem AddRPMS_final {o : MapOrder} {d d' : File} {ps : List Package}
    (h : AddRPMS o d ps = some d') :
    ∃ m, ValidLookup "rpm" m ∧ d' = layout o d m ∧
      ∀ k, touchAll k (d.rule "rpm" k) ps = some (mapGet m k) := by
  obtain ⟨m, hm, hd⟩ := (AddRPMS_eq_some_iff o d ps d').1 h
  exact ⟨m, validLookup_upsertAll (validLookup_lookupOf d (by decide)) hm, hd,
    fun k => upsertAll_get hm k⟩

/-! ## The rules of the result -/

theorem filter_eq_singleton {α : Type} {p : α → Bool} {l : List α} {a : α} (hn : l.Nodup)
    (ha : a ∈ l) (hp : ∀ x ∈ l, p x = true ↔ x = a) : l.filter p = [a] := by
  induction l with
  | nil => simp at ha
  | cons x l ih =>
    rw [List.nodup_cons] at hn
    by_cases hx : x = a
    · subst hx
      have hpx : p x = true := (hp x (by simp)).2 rfl
      have hnil : l.filter p = [] := by
        rw [List.filter_eq_nil_iff]
        intro y hy hpy
        have := (hp y (by simp [hy])).1 hpy
        exact hn.1 (this ▸ hy)
      simp [List.filter_cons, hpx, hnil]
    · have hpx : p x = false := by
        cases h : p x with
        | false => rfl
        | true => exact absurd ((hp x (by simp)).1 h) hx
      have ha' : a ∈ l := by
        rcases List.mem_cons.1 ha with h | h
        · exact absurd h.symm hx
        · exact h
      simp only [List.filter_cons, hpx]
      exact ih hn.2 ha' (fun y hy => hp y (by simp [hy]))

theorem sortedRules_nodup {kind : String} (o : MapOrder) {m : RuleMap}
    (h : ValidLookup kind m) : (sortedRules o m).Nodup :=
  List.Nodup.of_map Rule.Name (nodup_of_strict Rule.Name (sortedRules_strict o h))

theorem filter_sortedRules {kind : String} (o : MapOrder) {m : RuleMap}
    (h : ValidLookup kind m) {k : String} {r : Rule} (hr : mapGet m k = some r) :
    (sortedRules o m).filter (fun x => x.Name = k) = [r] := by
  have hn := h.name k r ((mapGet_eq_some_iff h.nodup _ _).1 hr)
  apply filter_eq_singleton (sortedRules_nodup o h)
  · rw [mem_sortedRules o h, hn]; exact hr
  · intro x hx
    rw [mem_sortedRules o h] at hx
    simp only [decide_eq_true_eq]
    constructor
    · intro e
      rw [e, hr] at hx
      exact (Option.some.inj hx).symm
    · intro e
      rw [e]; exact hn

theorem mem_rules_iff_rule {f : File} {kind : String} (k : String) :
    (∃ r ∈ f.Rules kind, r.Name = k) ↔ (f.rule kind k).isSome = true := by
  rw [File.rule, mapGet_lookupOf]
  constructor
  · rintro ⟨r, hr, hk⟩
    cases hf : (f.Rules kind).reverse.find? (fun r => r.Name = k) with
    | none =>
      rw [List.find?_eq_none] at hf
      have := hf r (List.mem_reverse.2 hr)
      simp [hk] at this
    | some x => rfl
  · intro h
    obtain ⟨r, hr⟩ := Option.isSome_iff_exists.1 h
    exact ⟨r, List.mem_reverse.1 (List.mem_of_find?_eq_some hr), by simpa using List.find?_some hr⟩

theorem touchAll_isSome_of_mem {k : String} {ps : List Package} {cur res : Option Rule}
    (h : touchAll k cur ps = some res) (hk : ∃ p ∈ ps, p.ident = k) : res.isSome = true := by
  rcases touchAll_settled h [] (Or.inl (by simp)) with hs | ⟨r, hr, _⟩
  · obtain ⟨p, hp, e⟩ := hk
    exact absurd e (hs p (by simpa using hp))
  · rw [hr]; rfl

theorem layout_congr {o o' : MapOrder} {f g : File} {m m' : RuleMap} (hk : kept f = kept g)
    (hs : sortedRules o m = sortedRules o' m') : layout o f m = layout o' g m' := by
  rw [layout, layout, hk, hs]

/-! ## Claims on `AddRPMS` -/

/-- C1: `AddRPMS` is idempotent. On a document whose rpm rules are well
formed the call completes, and applying `AddRPMS` with the same descriptors
to its result returns that result again, statement for statement and
attribute for attribute, whatever the enumeration orders of the lookup. -/
theorem addRPMS_idempotent (o₁ o₂ : MapOrder) (d : File) (ps : List Package)
    (h : d.WellFormed) :
    ∃ d', AddRPMS o₁ d ps = some d' ∧ AddRPMS o₂ d' ps = some d' := by
  obtain ⟨d', hd⟩ := AddRPMS_isSome_of_wellFormed o₁ d ps h
  refine ⟨d', hd, ?_⟩
  obtain ⟨m, hv, rfl, hm⟩ := AddRPMS_final hd
  have hget : ∀ k, touchAll k (mapGet (lookupOf ((layout o₁ d m).Rules "rpm")) k) ps =
      some (mapGet m k) := by
    intro k
    have := rule_layout (o := o₁) d hv k
    rw [File.rule] at this
    rw [this]
    exact touchAll_idem (hm k)
  have hsome : (upsertAll (lookupOf ((layout o₁ d m).Rules "rpm")) ps).isSome = true :=
    upsertAll_isSome (fun k => by rw [hget k]; rfl)
  obtain ⟨m₂, hm₂⟩ := Option.isSome_iff_exists.1 hsome
  have hv₂ : ValidLookup "rpm" m₂ :=
    validLookup_upsertAll (validLookup_lookupOf _ (by decide)) hm₂
  have heq : ∀ k, mapGet m₂ k = mapGet m k := by
    intro k
    have := upsertAll_get hm₂ k
    rw [hget k] at this
    exact (Option.some.inj this).symm
  rw [AddRPMS_eq_some_iff]
  refine ⟨m₂, hm₂, ?_⟩
  have hs : sortedRules o₂ m₂ = sortedRules o₁ m :=
    sortedRules_congr o₂ o₁ hv₂ (perm_of_mapGet_eq hv₂.nodup hv.nodup heq)
  exact (layout_congr (kept_layout o₁ d hv) hs).symm

/-- C2: whenever `AddRPMS` completes (as it does on every well-formed
document), the rpm rules of the result stand in strictly ascending
lexicographic order of their names, so no two of them share a name. -/
theorem addRPMS_strictly_sorted (o : MapOrder) (d : File) (ps : List Package) :
    (d.WellFormed → ∃ d', AddRPMS o d ps = some d') ∧
      ∀ d', AddRPMS o d ps = some d' →
        ((d'.Rules "rpm").map Rule.Name).Pairwise (fun a b => strLess a b = true) ∧
          ((d'.Rules "rpm").map Rule.Name).Nodup := by
  refine ⟨AddRPMS_isSome_of_wellFormed o d ps, ?_⟩
  intro d' hd
  obtain ⟨m, hv, rfl, _⟩ := AddRPMS_final hd
  rw [rules_layout o d hv]
  have hs := sortedRules_strict o hv
  exact ⟨List.pairwise_map.2 hs, nodup_of_strict Rule.Name hs⟩

/-- C5: name and checksum are always overwritten, the last descriptor wins.
When `q` is the last descriptor of identity `k`, then after `AddRPMS`
exactly one rpm rule is named `k`, and it has `name` equal to `k` and
`sha256` equal to the checksum of `q`, whatever the document held before. -/
theorem addRPMS_last_descriptor_wins (o : MapOrder) (d : File) (ps : List Package)
    (k : String) (q : Package)
    (hq : (ps.filter (fun p => p.ident = k)).getLast? = some q) :
    (d.WellFormed → ∃ d', AddRPMS o d ps = some d') ∧
      ∀ d', AddRPMS o d ps = some d' →
        ∃ r, (d'.Rules "rpm").filter (fun x => x.Name = k) = [r] ∧
          r.Attr "name" = some (.str k) ∧ r.Attr "sha256" = some (.str q.Checksum) := by
  refine ⟨AddRPMS_isSome_of_wellFormed o d ps, ?_⟩
  intro d' hd
  obtain ⟨m, hv, rfl, hm⟩ := AddRPMS_final hd
  obtain ⟨r, hr, hname, hsha⟩ := touchAll_last (hm k) hq
  refine ⟨r, ?_, hname, hsha⟩
  rw [rules_layout o d hv]
  exact filter_sortedRules o hv hr

theorem rule_eq_some_of_unique {f : File} {kind : String} {r : Rule} (hr : r ∈ f.Rules kind)
    (hu : ∀ x ∈ f.Rules kind, x.Name = r.Name → x = r) : f.rule kind r.Name = some r := by
  rw [File.rule, mapGet_lookupOf, find?_eq_some_of_unique]
  · exact ⟨List.mem_reverse.2 hr, by simp⟩
  · intro x hx y hy px py
    simp only [decide_eq_true_eq] at px py
    rw [hu x (List.mem_reverse.1 hx) px, hu y (List.mem_reverse.1 hy) py]

/-! ## A fresh document -/

theorem touch_freshRule (p : Package) : touch p freshRule = some (ruleOf p) := rfl

theorem name_ruleOf (p : Package) : (ruleOf p).Name = p.ident := by
  simp [ruleOf, Rule.Name, Rule.AttrString, Rule.Attr, attrDefn]

theorem touchAll_none_of_nodup {ps : List Package} (h : (ps.map Package.ident).Nodup)
    (k : String) :
    touchAll k none ps = some ((ps.find? (fun p => p.ident = k)).map ruleOf) := by
  induction ps with
  | nil => rfl
  | cons p ps ih =>
    simp only [List.map_cons, List.nodup_cons] at h
    by_cases hk : p.ident = k
    · simp only [touchAll, hk, if_true, Option.getD_none, touch_freshRule, List.find?_cons,
        decide_True, Option.map_some']
      apply touchAll_of_not_mem
      intro q hq e
      exact h.1 (List.mem_map.2 ⟨q, hq, e.trans hk.symm⟩)
    · simp only [touchAll, hk, if_false, List.find?_cons, decide_False]
      exact ih h.2

theorem rules_empty (kind : String) : (File.mk []).Rules kind = [] := rfl

theorem addRPMS_empty_eq (o : MapOrder) {ps : List Package}
    (h : (ps.map Package.ident).Nodup) :
    AddRPMS o ⟨[]⟩ ps =
      some ⟨(sort.SliceStable (fun a b => strLess a.ident b.ident) ps).map
        fun p => (ruleOf p).Call⟩ := by
  obtain ⟨d', hd⟩ := AddRPMS_isSome_of_wellFormed o ⟨[]⟩ ps (by intro r hr; simp [rules_empty] at hr)
  rw [hd]
  obtain ⟨m, hv, rfl, hm⟩ := AddRPMS_final hd
  have hget : ∀ k, mapGet m k = (ps.find? (fun p => p.ident = k)).map ruleOf := by
    intro k
    have := hm k
    rw [show (File.mk []).rule "rpm" k = none from rfl, touchAll_none_of_nodup h] at this
    exact (Option.some.inj this).symm
  have hinj : ∀ p ∈ ps, ∀ q ∈ ps, p.ident = q.ident → p = q :=
    fun p hp q hq e => List.inj_on_of_nodup_map h hp hq e
  have hsorted := SliceStable_strict Package.ident ps h
  have hperm := SliceStable_perm (fun a b : Package => strLess a.ident b.ident) ps
  have e : sortedRules o m =
      (sort.SliceStable (fun a b => strLess a.ident b.ident) ps).map ruleOf := by
    apply eq_of_perm_of_strict Rule.Name
    · rw [List.perm_ext_iff_of_nodup (sortedRules_nodup o hv)]
      · intro r
        rw [mem_sortedRules o hv, hget, List.mem_map]
        constructor
        · intro hr
          obtain ⟨p, hp, rfl⟩ := Option.map_eq_some'.1 hr
          exact ⟨p, hperm.mem_iff.2 (List.mem_of_find?_eq_some hp), rfl⟩
        · rintro ⟨p, hp, rfl⟩
          have hp' := hperm.mem_iff.1 hp
          rw [name_ruleOf]
          have : ps.find? (fun q => q.ident = p.ident) = some p := by
            rw [find?_eq_some_of_unique]
            · exact ⟨hp', by simp⟩
            · intro x hx y hy px py
              simp only [decide_eq_true_eq] at px py
              exact hinj x hx y hy (px.trans py.symm)
          rw [this]; rfl
      · apply List.Nodup.of_map Rule.Name
        rw [List.map_map]
        have : (Rule.Name ∘ ruleOf) = Package.ident := funext name_ruleOf
        rw [this]
        exact (hperm.map _).nodup_iff.2 h
    · exact sortedRules_strict o hv
    · rw [List.pairwise_map]
      simpa only [name_ruleOf] using hsorted
  rw [layout, e]
  simp [kept, File.DelRules, List.map_map, Function.comp_def]

/-- C7: on the empty document, descriptors of pairwise distinct identities
give exactly one statement per descriptor, each the rpm rule of that
descriptor (name, checksum, one URL per mirror), in strictly ascending order
of identity; the descriptors `a-1-1.x86_64` and `b-1-1.x86_64` give the rule
of the first followed by the rule of the second. -/
theorem addRPMS_fresh_document (o : MapOrder) (ps : List Package)
    (h : (ps.map Package.ident).Nodup) :
    (∃ qs : List Package, qs.Perm ps ∧
      (qs.map Package.ident).Pairwise (fun a b => strLess a b = true) ∧
      AddRPMS o ⟨[]⟩ ps = some ⟨qs.map fun p => (ruleOf p).Call⟩ ∧
      (qs.map fun p => (ruleOf p).Call).length = ps.length ∧
      ∀ p ∈ qs, (ruleOf p).Kind = "rpm" ∧ (ruleOf p).Name = p.ident ∧
        (ruleOf p).Attr "sha256" = some (.str p.Checksum) ∧
        (rpmRule.URLs (ruleOf p)).map List.length = some p.Mirrors.length) ∧
    ∀ (na nb ha hb : String) (ma mb : List String),
      AddRPMS o ⟨[]⟩ [exampleA na ha ma, exampleB nb hb mb] =
          some ⟨[(ruleOf (exampleA na ha ma)).Call, (ruleOf (exampleB nb hb mb)).Call]⟩ ∧
        AddRPMS o ⟨[]⟩ [exampleB nb hb mb, exampleA na ha ma] =
          some ⟨[(ruleOf (exampleA na ha ma)).Call, (ruleOf (exampleB nb hb mb)).Call]⟩ := by
  constructor
  · refine ⟨sort.SliceStable (fun a b => strLess a.ident b.ident) ps, SliceStable_perm _ ps,
      List.pairwise_map.2 (SliceStable_strict Package.ident ps h), addRPMS_empty_eq o h, ?_, ?_⟩
    · rw [List.length_map]
      exact (SliceStable_perm _ ps).length_eq
    · intro p _
      refine ⟨rfl, name_ruleOf p, rfl, ?_⟩
      rw [URLs_of_attr (U := p.Mirrors.map fun url => path.Join [url, p.Href])]
      · simp
      · simp [ruleOf, Rule.Attr, attrDefn, List.map_map, Function.comp_def]
  · intro na nb ha hb ma mb
    rw [addRPMS_empty_eq o (by simp [exampleA, exampleB]),
      addRPMS_empty_eq o (by simp [exampleA, exampleB])]
    exact ⟨rfl, rfl⟩

/-! ## URL construction -/

/-- C4 at the input of the specification: for the mirrors `http://a/` and
`http://b/` and the href `pkg-1.rpm`, `SetURLs` on a fresh rule stores
`http:/a/pkg-1.rpm` and `http:/b/pkg-1.rpm`: `path.Join` cleans the joined
path and so collapses the `//` of the scheme. The stored list differs from
the mirror base followed by the href. -/
theorem setURLs_collapses_scheme :
    rpmRule.URLs (rpmRule.SetURLs freshRule ["http://a/", "http://b/"] "pkg-1.rpm") =
        some ["http:/a/pkg-1.rpm", "http:/b/pkg-1.rpm"] ∧
      rpmRule.URLs (rpmRule.SetURLs freshRule ["http://a/", "http://b/"] "pkg-1.rpm") ≠
        some ["http://a/pkg-1.rpm", "http://b/pkg-1.rpm"] ∧
      (AddRPMS insertionOrder ⟨[]⟩
          [⟨"pkg", "pkg-1", "c0ffee", ["http://a/", "http://b/"], "pkg-1.rpm"⟩]).map
          (fun f => (f.Rules "rpm").map rpmRule.URLs) =
        some [some ["http:/a/pkg-1.rpm", "http:/b/pkg-1.rpm"]] := by
  refine ⟨by decide, by decide, by decide⟩

/-! ## `AddTree` -/

theorem rules_eq_nil_of_comments {l : List Stmt} (kind : String)
    (h : ∀ s ∈ l, s.isCommentBlock = true) : (File.mk l).Rules kind = [] := by
  simp only [File.Rules, List.filterMap_eq_nil_iff]
  intro s hs
  have := h s hs
  cases s with
  | call X L => simp [Stmt.isCommentBlock] at this
  | comment t => rfl
  | other t => rfl

theorem name_bundleRule (name : String) (d : File) (pkgs : List Package)
    (files : List String) : (bundleRule name d pkgs files).Name = name := by
  apply Rule.name_of_attr
  rw [bundleRule, rpmTree.SetFiles, Rule.attr_setAttr_ne _ (by decide), rpmTree.SetRPMs,
    Rule.attr_setAttr_ne _ (by decide), rpmTree.SetName, Rule.attr_setAttr_same]

theorem kind_bundleRule (name : String) (d : File) (pkgs : List Package)
    (files : List String) : (bundleRule name d pkgs files).Kind = "rpmtree" := by
  have hv : ValidLookup "rpmtree" (lookupOf (d.Rules "rpmtree")) :=
    validLookup_lookupOf d (by decide)
  have hf : freshTree.Kind = "rpmtree" := by decide
  exact hv.getD_kind name hf

/-- The document `AddTree` leaves: the statements of the input, with the
update written through to the statement of the bundle rule, and the sorted
rules of the lookup inserted before the trailing comment blocks. -/
theorem addTree_stmt (o : MapOrder) (name : String) (d : File) (pkgs : List Package)
    (files : List String) :
    ∃ stmt : List Stmt, stmt.length = d.Stmt.length ∧
      (AddTree o name d pkgs files).Stmt =
        stmt.rdropWhile Stmt.isCommentBlock ++
          (sortedRules o (mapSet (lookupOf (d.Rules "rpmtree")) name
            (bundleRule name d pkgs files))).map Rule.Call ++
          stmt.rtakeWhile Stmt.isCommentBlock := by
  unfold AddTree
  simp only [insertAll_eq]
  refine ⟨_, ?_, rfl⟩
  cases mapGet (lookupOf (d.Rules "rpmtree")) name with
  | none => rfl
  | some r =>
    cases lastRulePos "rpmtree" name d.Stmt with
    | none => rfl
    | some i => simp

/-- After `AddTree` the document holds the updated bundle rule under the
bundle name. -/
theorem addTree_rule (o : MapOrder) (name : String) (d : File) (pkgs : List Package)
    (files : List String) :
    (AddTree o name d pkgs files).rule "rpmtree" name = some (bundleRule name d pkgs files) := by
  obtain ⟨stmt, _, hs⟩ := addTree_stmt o name d pkgs files
  have hv : ValidLookup "rpmtree"
      (mapSet (lookupOf (d.Rules "rpmtree")) name (bundleRule name d pkgs files)) :=
    validLookup_mapSet (validLookup_lookupOf d (by decide))
      (name_bundleRule name d pkgs files) (kind_bundleRule name d pkgs files)
  have hk : ∀ r ∈ sortedRules o (mapSet (lookupOf (d.Rules "rpmtree")) name
      (bundleRule name d pkgs files)), r.Kind = "rpmtree" := by
    intro r hr
    rw [mem_sortedRules o hv, mapGet_eq_some_iff hv.nodup] at hr
    exact hv.kind _ _ hr
  have hf := mapGet_lookupOf_sortedRules o hv name
  rw [mapGet_mapSet, if_pos rfl, mapGet_lookupOf] at hf
  have e : (AddTree o name d pkgs files) = ⟨(AddTree o name d pkgs files).Stmt⟩ := rfl
  rw [File.rule, e, hs, rules_append, rules_append, rules_map_call hk,
    rules_eq_nil_of_comments _ (fun s hs => List.mem_rtakeWhile_imp hs), List.append_nil,
    mapGet_lookupOf, List.reverse_append, List.find?_append, hf]
  rfl

/-- C9: bundle file sort. After `AddTree` the bundle rule the document holds
under the bundle name has as `files` attribute the list of string literals
of the ascending sorted rearrangement of the given files, whatever the
document held before; the files `z.txt`, `a.txt`, `m.txt` are stored as
`a.txt`, `m.txt`, `z.txt`. -/
theorem addTree_files_sorted (o : MapOrder) (name : String) (d : File) (pkgs : List Package) :
    (∀ files : List String, ∃ (r : Rule) (gs : List String),
      (AddTree o name d pkgs files).rule "rpmtree" name = some r ∧
        r.Attr "files" = some (.list (gs.map Elem.str)) ∧ gs.Perm files ∧
        gs.Pairwise (fun a b => strLess b a = false)) ∧
    ∃ r, (AddTree o name d pkgs ["z.txt", "a.txt", "m.txt"]).rule "rpmtree" name = some r ∧
      r.Attr "files" = some (.list [.str "a.txt", .str "m.txt", .str "z.txt"]) := by
  constructor
  · intro files
    refine ⟨_, sort.SliceStable strLess files, addTree_rule o name d pkgs files, ?_,
      SliceStable_perm _ _, SliceStable_sorted id files⟩
    rw [bundleRule, rpmTree.SetFiles, Rule.attr_setAttr_same]
  · refine ⟨_, addTree_rule o name d pkgs _, ?_⟩
    rw [bundleRule, rpmTree.SetFiles, Rule.attr_setAttr_same]
    decide

/-- C10: bundle reference order. After `AddTree` the bundle rule the
document holds under the bundle name has as `rpms` attribute the list of
string literals `"@" ++ name ++ "//rpm"` of the descriptors, in input order,
neither sorted nor deduplicated, whatever the document held before; the
packages `foo`, `bar` give `@foo//rpm`, `@bar//rpm`. -/
theorem addTree_rpms_in_input_order (o : MapOrder) (name : String) (d : File)
    (files : List String) :
    (∀ pkgs : List Package, ∃ r,
      (AddTree o name d pkgs files).rule "rpmtree" name = some r ∧
        r.Attr "rpms" =
          some (.list (pkgs.map fun pkg => .str ("@" ++ pkg.Name ++ "//rpm")))) ∧
    ∀ (ia ib ca cb ha hb : String) (ma mb : List String),
      ∃ r, (AddTree o name d [⟨"foo", ia, ca, ma, ha⟩, ⟨"bar", ib, cb, mb, hb⟩]
          files).rule "rpmtree" name = some r ∧
        r.Attr "rpms" = some (.list [.str "@foo//rpm", .str "@bar//rpm"]) := by
  have key : ∀ pkgs : List Package, (bundleRule name d pkgs files).Attr "rpms" =
      some (.list (pkgs.map fun pkg => .str ("@" ++ pkg.Name ++ "//rpm"))) := by
    intro pkgs
    rw [bundleRule, rpmTree.SetFiles, Rule.attr_setAttr_ne _ (by decide), rpmTree.SetRPMs,
      Rule.attr_setAttr_same, List.map_map]
    rfl
  constructor
  · intro pkgs
    exact ⟨_, addTree_rule o name d pkgs files, key pkgs⟩
  · intro ia ib ca cb ha hb ma mb
    refine ⟨_, addTree_rule o name d _ files, ?_⟩
    rw [key]
    rfl

/-! ## Worked inputs -/

/-- Idempotence on the sample document, with two different enumeration orders. -/
theorem addRPMS_idempotent_witness :
    sampleDoc.WellFormed ∧
      ∃ d', AddRPMS insertionOrder sampleDoc samplePkgs = some d' ∧
        AddRPMS reverseOrder d' samplePkgs = some d' :=
  ⟨by decide, addRPMS_idempotent insertionOrder reverseOrder sampleDoc samplePkgs (by decide)⟩

/-- The sample document is well formed, so the call completes and its rpm rules are sorted. -/
theorem addRPMS_strictly_sorted_witness :
    ∃ d', AddRPMS reverseOrder sampleDoc samplePkgs = some d' ∧
      ((d'.Rules "rpm").map Rule.Name).Pairwise (fun a b => strLess a b = true) ∧
      ((d'.Rules "rpm").map Rule.Name).Nodup := by
  obtain ⟨d', hd⟩ := (addRPMS_strictly_sorted reverseOrder sampleDoc samplePkgs).1 (by decide)
  exact ⟨d', hd, (addRPMS_strictly_sorted reverseOrder sampleDoc samplePkgs).2 d' hd⟩

/-- Of the two descriptors of `b-1-1.x86_64` the second sets the checksum. -/
theorem addRPMS_last_descriptor_wins_witness :
    ∃ d' r, AddRPMS reverseOrder sampleDoc samplePkgs = some d' ∧
      (d'.Rules "rpm").filter (fun x => x.Name = "b-1-1.x86_64") = [r] ∧
      r.Attr "name" = some (.str "b-1-1.x86_64") ∧
      r.Attr "sha256" = some (.str "f00df00d") := by
  have h := addRPMS_last_descriptor_wins reverseOrder sampleDoc samplePkgs "b-1-1.x86_64"
    ⟨"b", "b-1-1.x86_64", "f00df00d", ["http://n/"], "b-1-1.x86_64.rpm"⟩ (by decide)
  obtain ⟨d', hd⟩ := h.1 (by decide)
  obtain ⟨r, h1, h2, h3⟩ := h.2 d' hd
  exact ⟨d', r, hd, h1, h2, h3⟩

/-- Two descriptors of distinct identities on the empty document. -/
theorem addRPMS_fresh_document_witness :
    (samplePkgs.tail.map Package.ident).Nodup ∧
      ∃ qs : List Package, qs.Perm samplePkgs.tail ∧
        AddRPMS insertionOrder ⟨[]⟩ samplePkgs.tail = some ⟨qs.map fun p => (ruleOf p).Call⟩ := by
  have h := (addRPMS_fresh_document insertionOrder samplePkgs.tail (by decide)).1
  obtain ⟨qs, h1, _, h3, _⟩ := h
  exact ⟨by decide, qs, h1, h3⟩

theorem AddTree_eq (o : MapOrder) (name : String) (d : File) (pkgs : List Package)
    (files : List String) :
    AddTree o name d pkgs files =
      ⟨(writtenThrough name d pkgs files).rdropWhile Stmt.isCommentBlock ++
        (sortedRules o (treeLookup name d pkgs files)).map Rule.Call ++
        (writtenThrough name d pkgs files).rtakeWhile Stmt.isCommentBlock⟩ := by
  unfold AddTree
  simp only [insertAll_eq]
  rfl

theorem validLookup_treeLookup (name : String) (d : File) (pkgs : List Package)
    (files : List String) : ValidLookup "rpmtree" (treeLookup name d pkgs files) :=
  validLookup_mapSet (validLookup_lookupOf d (by decide))
    (name_bundleRule name d pkgs files) (kind_bundleRule name d pkgs files)

theorem attr_name_bundleRule (name : String) (d : File) (pkgs : List Package)
    (files : List String) : (bundleRule name d pkgs files).Attr "name" = some (.str name) := by
  rw [bundleRule, rpmTree.SetFiles, Rule.attr_setAttr_ne _ (by decide), rpmTree.SetRPMs,
    Rule.attr_setAttr_ne _ (by decide), rpmTree.SetName, Rule.attr_setAttr_same]

theorem attr_rpms_bundleRule (name : String) (d : File) (pkgs : List Package)
    (files : List String) :
    (bundleRule name d pkgs files).Attr "rpms" =
      some (.list ((pkgs.map fun pkg => "@" ++ pkg.Name ++ "//rpm").map fun rpm => .str rpm)) := by
  rw [bundleRule, rpmTree.SetFiles, Rule.attr_setAttr_ne _ (by decide), rpmTree.SetRPMs,
    Rule.attr_setAttr_same]

theorem attr_files_bundleRule (name : String) (d : File) (pkgs : List Package)
    (files : List String) :
    (bundleRule name d pkgs files).Attr "files" =
      some (.list ((sort.SliceStable strLess files).map fun file => .str file)) := by
  rw [bundleRule, rpmTree.SetFiles, Rule.attr_setAttr_same]

theorem bundleRule_of_rule {name : String} {d d' : File} {pkgs : List Package}
    {files : List String} (h : d'.rule "rpmtree" name = some (bundleRule name d pkgs files)) :
    bundleRule name d' pkgs files = bundleRule name d pkgs files := by
  have h1 : rpmTree.SetName (bundleRule name d pkgs files) name = bundleRule name d pkgs files :=
    Rule.setAttr_of_attr (attr_name_bundleRule name d pkgs files)
  have h2 : rpmTree.SetRPMs (bundleRule name d pkgs files)
      (pkgs.map fun pkg => "@" ++ pkg.Name ++ "//rpm") = bundleRule name d pkgs files :=
    Rule.setAttr_of_attr (attr_rpms_bundleRule name d pkgs files)
  have h3 : rpmTree.SetFiles (bundleRule name d pkgs files) (sort.SliceStable strLess files) =
      bundleRule name d pkgs files :=
    Rule.setAttr_of_attr (attr_files_bundleRule name d pkgs files)
  conv_lhs => rw [bundleRule, h, Option.getD_some, h1, h2, h3]

/-- Applying the three setters of `AddTree` to the bundle rule they produced changes nothing. -/
theorem bundleRule_again (o : MapOrder) (name : String) (d : File) (pkgs : List Package)
    (files : List String) :
    bundleRule name (AddTree o name d pkgs files) pkgs files = bundleRule name d pkgs files :=
  bundleRule_of_rule (addTree_rule o name d pkgs files)

/-- C11: bundle attribute idempotence. The bundle rule the document holds
under the bundle name after two calls of `AddTree` with the same arguments
is the one it holds after the first call: its `name`, `rpms` and `files`
attributes (and every other one) have the same values, whatever the
enumeration orders of the lookup. -/
theorem addTree_attributes_idempotent (o₁ o₂ : MapOrder) (name : String) (d : File)
    (pkgs : List Package) (files : List String) :
    ∃ r, (AddTree o₁ name d pkgs files).rule "rpmtree" name = some r ∧
      (AddTree o₂ name (AddTree o₁ name d pkgs files) pkgs files).rule "rpmtree" name = some r ∧
      r.Attr "name" = some (.str name) ∧
      r.Attr "rpms" = some (.list (pkgs.map fun pkg => .str ("@" ++ pkg.Name ++ "//rpm"))) ∧
      r.Attr "files" =
        some (.list ((sort.SliceStable strLess files).map fun file => .str file)) := by
  refine ⟨bundleRule name d pkgs files, addTree_rule o₁ name d pkgs files, ?_,
    attr_name_bundleRule name d pkgs files, ?_, attr_files_bundleRule name d pkgs files⟩
  · rw [addTree_rule, bundleRule_again]
  · rw [attr_rpms_bundleRule, List.map_map]
    rfl

/-! ## Totality and the list accessors -/

theorem stringValues_isSome_iff (l : List Elem) :
    (stringValues l).isSome = true ↔
      (l.all fun e => match e with
        | .str _ => true
        | .other _ => false) = true := by
  induction l with
  | nil => simp [stringValues]
  | cons x l ih =>
    cases x with
    | other t => simp [stringValues]
    | str v =>
      simp only [stringValues, Option.isSome_map', List.all_cons, Bool.true_and]
      exact ih

theorem wellFormedRPMs_iff (r : Rule) :
    r.wellFormedRPMs = true ↔ (rpmTree.RPMs r).isSome = true := by
  unfold Rule.wellFormedRPMs rpmTree.RPMs
  cases r.Attr "rpms" with
  | none => simp
  | some e =>
    cases e with
    | str v => simp
    | other t => simp
    | list l =>
      cases l with
      | nil => simp
      | cons x l =>
        simp only [List.length_cons, gt_iff_lt, Nat.zero_lt_succ, if_true]
        exact (stringValues_isSome_iff (x :: l)).symm

theorem RPMs_of_attr {r : Rule} {xs : List String}
    (h : r.Attr "rpms" = some (.list (xs.map Elem.str))) : rpmTree.RPMs r = some xs := by
  unfold rpmTree.RPMs
  rw [h]
  cases xs with
  | nil => simp
  | cons u U =>
    simp only [List.map_cons, List.length_cons, gt_iff_lt, Nat.zero_lt_succ, if_true]
    exact (stringValues_eq_some_iff _ _).2 rfl

/-- C13: the reconciliation operations are total on well-formed rule
blocks. On a document in which the `urls` attribute of every rpm rule is
absent or a list of string literals, `AddRPMS` completes for every
descriptor list and enumeration order; `URLs` returns on every rule whose
`urls` is absent or a list of string literals, and `RPMs` on every rule
whose `rpms` is absent or a list of string literals. -/
theorem total_on_wellFormed :
    (∀ (o : MapOrder) (d : File) (ps : List Package), d.WellFormed →
      ∃ d', AddRPMS o d ps = some d') ∧
    (∀ r : Rule, r.wellFormed = true → ∃ urls, rpmRule.URLs r = some urls) ∧
    (∀ r : Rule, r.wellFormedRPMs = true → ∃ rpms, rpmTree.RPMs r = some rpms) := by
  refine ⟨fun o d ps h => AddRPMS_isSome_of_wellFormed o d ps h, ?_, ?_⟩
  · intro r h
    exact Option.isSome_iff_exists.1 ((wellFormed_iff r).1 h)
  · intro r h
    exact Option.isSome_iff_exists.1 ((wellFormedRPMs_iff r).1 h)

/-- C14: list accessor round trip. `RPMs` after `SetRPMs` with `xs` returns
`xs` in the same order (the empty sequence for the empty list), `RPMs` on a
rule without `rpms` attribute returns the empty sequence, and `SetRPMs`
leaves the callee and every attribute other than `rpms` as they were. -/
theorem rpms_round_trip (r : Rule) (xs : List String) :
    rpmTree.RPMs (rpmTree.SetRPMs r xs) = some xs ∧
      rpmTree.RPMs (rpmTree.SetRPMs r []) = some [] ∧
      (r.Attr "rpms" = none → rpmTree.RPMs r = some []) ∧
      (∀ key, key ≠ "rpms" → (rpmTree.SetRPMs r xs).Attr key = r.Attr key) ∧
      (rpmTree.SetRPMs r xs).X = r.X := by
  have h : ∀ ys : List String, rpmTree.RPMs (rpmTree.SetRPMs r ys) = some ys := by
    intro ys
    apply RPMs_of_attr
    rw [rpmTree.SetRPMs, Rule.attr_setAttr_same]
  refine ⟨h xs, h [], ?_, ?_, rfl⟩
  · intro hn
    simp [rpmTree.RPMs, hn]
  · intro key hk
    exact Rule.attr_setAttr_ne r hk _

/-! ## Independence of the enumeration order and of the descriptor order -/

theorem AddRPMS_eq_map (o : MapOrder) (d : File) (ps : List Package) :
    AddRPMS o d ps = (upsertAll (lookupOf (d.Rules "rpm")) ps).map (layout o d) := by
  dsimp only [AddRPMS]
  generalize upsertAll (lookupOf (d.Rules "rpm")) ps = x
  cases x with
  | none => rfl
  | some m => simp [layout, insertAll_eq, kept]

theorem upsertAll_follow {m m₁ : RuleMap} {ps qs : List Package} (hv : ValidLookup "rpm" m)
    (h : ∀ k, touchAll k (mapGet m k) ps = touchAll k (mapGet m k) qs)
    (h₁ : upsertAll m ps = some m₁) :
    ∃ m₂, upsertAll m qs = some m₂ ∧ m₁.Perm m₂ := by
  have hget : ∀ k, touchAll k (mapGet m k) qs = some (mapGet m₁ k) :=
    fun k => (h k).symm.trans (upsertAll_get h₁ k)
  have hsome : (upsertAll m qs).isSome = true :=
    upsertAll_isSome (fun k => by rw [hget k]; rfl)
  obtain ⟨m₂, hm₂⟩ := Option.isSome_iff_exists.1 hsome
  refine ⟨m₂, hm₂, ?_⟩
  apply perm_of_mapGet_eq (validLookup_upsertAll hv h₁).nodup (validLookup_upsertAll hv hm₂).nodup
  intro k
  have := upsertAll_get hm₂ k
  rw [hget k] at this
  exact Option.some.inj this

theorem upsertAll_layout_congr (o₁ o₂ : MapOrder) (d : File) {m : RuleMap}
    {ps qs : List Package} (hv : ValidLookup "rpm" m)
    (h : ∀ k, touchAll k (mapGet m k) ps = touchAll k (mapGet m k) qs) :
    (upsertAll m ps).map (layout o₁ d) = (upsertAll m qs).map (layout o₂ d) := by
  cases h₁ : upsertAll m ps with
  | some m₁ =>
    obtain ⟨m₂, hm₂, hp⟩ := upsertAll_follow hv h h₁
    rw [hm₂]
    simp only [Option.map_some', Option.some.injEq]
    exact layout_congr rfl (sortedRules_congr o₁ o₂ (validLookup_upsertAll hv h₁) hp)
  | none =>
    cases h₂ : upsertAll m qs with
    | none => rfl
    | some m₂ =>
      obtain ⟨m₁, hm₁, _⟩ := upsertAll_follow hv (fun k => (h k).symm) h₂
      rw [h₁] at hm₁
      simp at hm₁

/-- C18: determinism despite unordered map iteration. For any two
enumeration orders of the lookup, `AddRPMS` returns the same result and
`AddTree` the same document, and the sorted rule sequences they append are
the same. -/
theorem enumeration_order_irrelevant (o₁ o₂ : MapOrder) :
    (∀ (d : File) (ps : List Package), AddRPMS o₁ d ps = AddRPMS o₂ d ps) ∧
    (∀ (name : String) (d : File) (ps : List Package) (files : List String),
      AddTree o₁ name d ps files = AddTree o₂ name d ps files) ∧
    (∀ (d : File) (ps : List Package),
      (upsertAll (lookupOf (d.Rules "rpm")) ps).map (sortedRules o₁) =
        (upsertAll (lookupOf (d.Rules "rpm")) ps).map (sortedRules o₂)) ∧
    ∀ (name : String) (d : File) (ps : List Package) (files : List String),
      sortedRules o₁ (treeLookup name d ps files) =
        sortedRules o₂ (treeLookup name d ps files) := by
  have ht : ∀ (name : String) (d : File) (ps : List Package) (files : List String),
      sortedRules o₁ (treeLookup name d ps files) =
        sortedRules o₂ (treeLookup name d ps files) :=
    fun name d ps files =>
      sortedRules_congr o₁ o₂ (validLookup_treeLookup name d ps files) (List.Perm.refl _)
  refine ⟨?_, ?_, ?_, ht⟩
  · intro d ps
    rw [AddRPMS_eq_map, AddRPMS_eq_map]
    exact upsertAll_layout_congr o₁ o₂ d (validLookup_lookupOf d (by decide)) (fun _ => rfl)
  · intro name d ps files
    rw [AddTree_eq, AddTree_eq, ht]
  · intro d ps
    cases h : upsertAll (lookupOf (d.Rules "rpm")) ps with
    | none => rfl
    | some m =>
      simp only [Option.map_some', Option.some.injEq]
      exact sortedRules_congr o₁ o₂
        (validLookup_upsertAll (validLookup_lookupOf d (by decide)) h) (List.Perm.refl _)

theorem find?_ident_perm {ps qs : List Package} (hp : ps.Perm qs)
    (hn : (ps.map Package.ident).Nodup) (k : String) :
    ps.find? (fun p => p.ident = k) = qs.find? (fun p => p.ident = k) := by
  have hn2 : (qs.map Package.ident).Nodup := (hp.map _).nodup_iff.1 hn
  apply Option.ext
  intro a
  simp only [Option.mem_def]
  rw [find?_eq_some_of_unique, find?_eq_some_of_unique, hp.mem_iff]
  · intro x hx y hy px py
    simp only [decide_eq_true_eq] at px py
    exact List.inj_on_of_nodup_map hn2 hx hy (px.trans py.symm)
  · intro x hx y hy px py
    simp only [decide_eq_true_eq] at px py
    exact List.inj_on_of_nodup_map hn hx hy (px.trans py.symm)

theorem touchAll_of_nodup {ps : List Package} (hn : (ps.map Package.ident).Nodup)
    (k : String) (cur : Option Rule) :
    touchAll k cur ps =
      match ps.find? (fun p => p.ident = k) with
      | none => some cur
      | some p => (touch p (cur.getD freshRule)).map some := by
  induction ps with
  | nil => rfl
  | cons p ps ih =>
    simp only [List.map_cons, List.nodup_cons] at hn
    by_cases hk : p.ident = k
    · simp only [touchAll, hk, if_true, List.find?_cons, decide_True]
      cases ht : touch p (cur.getD freshRule) with
      | none => rfl
      | some r =>
        simp only [Option.map_some']
        apply touchAll_of_not_mem
        intro q hq e
        exact hn.1 (List.mem_map.2 ⟨q, hq, e.trans hk.symm⟩)
    · simp only [touchAll, hk, if_false, List.find?_cons, decide_False]
      exact ih hn.2

/-- C16: permutation invariance of `AddRPMS`. For descriptors of pairwise
distinct identities, `AddRPMS` with any rearrangement of the descriptor list
gives the same result (the same document, or a failed type assertion in
both), whatever the enumeration orders of the lookup. -/
theorem addRPMS_permutation_invariant (o₁ o₂ : MapOrder) (d : File) (ps qs : List Package)
    (hp : ps.Perm qs) (hn : (ps.map Package.ident).Nodup) :
    AddRPMS o₁ d ps = AddRPMS o₂ d qs := by
  rw [AddRPMS_eq_map, AddRPMS_eq_map]
  apply upsertAll_layout_congr o₁ o₂ d (validLookup_lookupOf d (by decide))
  intro k
  rw [touchAll_of_nodup hn, touchAll_of_nodup ((hp.map _).nodup_iff.1 hn),
    find?_ident_perm hp hn]

/-! ## Rules that share a name -/

theorem reverse_find?_eq_getLast?_filter {α : Type} (p : α → Bool) (l : List α) :
    l.reverse.find? p = (l.filter p).getLast? := by
  induction l using List.reverseRecOn with
  | nil => rfl
  | append_singleton l a ih =>
    rw [List.reverse_append, List.filter_append]
    by_cases h : p a = true
    · simp [List.find?_cons, h, List.filter_cons]
    · simp only [Bool.not_eq_true] at h
      simp only [List.reverse_singleton, List.singleton_append, List.find?_cons, h,
        List.filter_cons, List.filter_nil, Bool.false_eq_true, if_false, List.append_nil]
      exact ih

theorem rule_eq_getLast? (f : File) (kind k : String) :
    f.rule kind k = ((f.Rules kind).filter (fun x => x.Name = k)).getLast? := by
  rw [File.rule, mapGet_lookupOf, reverse_find?_eq_getLast?_filter]

theorem touch_frame {p : Package} {r r' : Rule} (h : touch p r = some r') :
    r'.X = r.X ∧ ∀ key, key ≠ "name" → key ≠ "sha256" → key ≠ "urls" →
      r'.Attr key = r.Attr key := by
  obtain ⟨_, _, _, U, _, h1, h2⟩ := touch_spec h
  have hs : ∀ key, key ≠ "name" → key ≠ "sha256" → (stamped p r).Attr key = r.Attr key := by
    intro key k1 k2
    rw [stamped, rpmRule.SetSHA256, Rule.attr_setAttr_ne _ k2, rpmRule.SetName,
      Rule.attr_setAttr_ne _ k1]
  by_cases hU : U = []
  · rw [h2 hU]
    refine ⟨rfl, ?_⟩
    intro key k1 k2 k3
    rw [rpmRule.SetURLs, Rule.attr_setAttr_ne _ k3, hs key k1 k2]
  · rw [h1 hU]
    exact ⟨rfl, fun key k1 k2 _ => hs key k1 k2⟩

theorem touchAll_frame {k : String} {ps : List Package} {r r' : Rule}
    (h : touchAll k (some r) ps = some (some r')) :
    r'.X = r.X ∧ ∀ key, key ≠ "name" → key ≠ "sha256" → key ≠ "urls" →
      r'.Attr key = r.Attr key := by
  induction ps generalizing r with
  | nil =>
    simp only [touchAll, Option.some.injEq] at h
    subst h
    exact ⟨rfl, fun _ _ _ _ => rfl⟩
  | cons p ps ih =>
    by_cases hk : p.ident = k
    · simp only [touchAll, hk, if_true, Option.getD_some] at h
      cases ht : touch p r with
      | none => rw [ht] at h; simp at h
      | some r1 =>
        rw [ht] at h
        simp only at h
        obtain ⟨hx, ha⟩ := ih h
        obtain ⟨hx1, ha1⟩ := touch_frame ht
        exact ⟨hx.trans hx1, fun key k1 k2 k3 => (ha key k1 k2 k3).trans (ha1 key k1 k2 k3)⟩
    · simp only [touchAll, hk, if_false] at h
      exact ih h

/-- C17: duplicate collapse in `AddRPMS`. When `r` is the last rpm rule
named `k` in the input, then whenever `AddRPMS` completes (as it does on
every well-formed document) exactly one rpm rule of the result is named `k`:
it is `r` after the passes of the descriptors of identity `k`, with the
callee of `r` and every attribute of `r` other than `name`, `sha256` and
`urls`, and it is `r` itself when no descriptor matches. The earlier rules
of that name are gone. -/
theorem addRPMS_collapses_duplicates (o : MapOrder) (d : File) (ps : List Package)
    (k : String) (r : Rule)
    (hl : ((d.Rules "rpm").filter (fun x => x.Name = k)).getLast? = some r) :
    (d.WellFormed → ∃ d', AddRPMS o d ps = some d') ∧
      ∀ d', AddRPMS o d ps = some d' →
        ∃ r', (d'.Rules "rpm").filter (fun x => x.Name = k) = [r'] ∧
          touchAll k (some r) ps = some (some r') ∧
          r'.X = r.X ∧
          (∀ key, key ≠ "name" → key ≠ "sha256" → key ≠ "urls" →
            r'.Attr key = r.Attr key) ∧
          ((∀ p ∈ ps, p.ident ≠ k) → r' = r) := by
  refine ⟨AddRPMS_isSome_of_wellFormed o d ps, ?_⟩
  intro d' hd
  obtain ⟨m, hv, rfl, hm⟩ := AddRPMS_final hd
  have hk := hm k
  rw [rule_eq_getLast?, hl] at hk
  have hsome : (mapGet m k).isSome = true := by
    rcases touchAll_settled hk [] (Or.inl (by simp)) with hs | ⟨r1, hr1, _⟩
    · rw [touchAll_of_not_mem (by simpa using hs)] at hk
      rw [← Option.some.inj hk]; rfl
    · rw [hr1]; rfl
  obtain ⟨r', hr'⟩ := Option.isSome_iff_exists.1 hsome
  rw [hr'] at hk
  obtain ⟨hx, ha⟩ := touchAll_frame hk
  refine ⟨r', ?_, hk, hx, ha, ?_⟩
  · rw [rules_layout o d hv]
    exact filter_sortedRules o hv hr'
  · intro hn
    rw [touchAll_of_not_mem hn] at hk
    exact (Option.some.inj (Option.some.inj hk)).symm

/-! ## How many statements `AddTree` adds -/

theorem length_treeLookup (name : String) (d : File) (pkgs : List Package)
    (files : List String) :
    (treeLookup name d pkgs files).length =
      ((d.Rules "rpmtree").map Rule.Name ++ [name]).dedup.length := by
  have hv := validLookup_treeLookup name d pkgs files
  rw [← List.length_map (treeLookup name d pkgs files) Prod.fst]
  apply List.Perm.length_eq
  rw [List.perm_ext_iff_of_nodup hv.nodup (List.nodup_dedup _)]
  intro k
  rw [List.mem_dedup, treeLookup, mem_keys_mapSet, ← mapGet_isSome_iff, List.mem_append,
    List.mem_singleton, List.mem_map]
  have : (mapGet (lookupOf (d.Rules "rpmtree")) k).isSome = true ↔
      ∃ r ∈ d.Rules "rpmtree", r.Name = k := (mem_rules_iff_rule k).symm
  rw [this]
  exact or_comm

theorem dedup_of_forall_eq {l : List String} {a : String} (hne : l ≠ [])
    (h : ∀ x ∈ l, x = a) : l.dedup = [a] := by
  have h2 : ∀ x ∈ l.dedup, x = a := fun x hx => h x (List.mem_dedup.1 hx)
  have h3 := List.eq_replicate_of_mem h2
  have h4 : l.dedup.length ≤ 1 := by
    have := List.nodup_dedup l
    rw [h3] at this
    exact List.nodup_replicate.1 this
  have h5 : l.dedup ≠ [] := by
    obtain ⟨x, hx⟩ := List.exists_mem_of_ne_nil l hne
    exact List.ne_nil_of_mem (List.mem_dedup.2 hx)
  have h6 : l.dedup.length = 1 := by
    have := List.length_pos.2 h5
    omega
  rw [h3, h6]
  rfl

/-! ## Further worked inputs -/

/-- The sample document is well formed, and so are the fresh rules. -/
theorem total_on_wellFormed_witness :
    (∃ d', AddRPMS reverseOrder sampleDoc samplePkgs = some d') ∧
      (∃ urls, rpmRule.URLs freshRule = some urls) ∧
      ∃ rpms, rpmTree.RPMs freshTree = some rpms :=
  ⟨total_on_wellFormed.1 reverseOrder sampleDoc samplePkgs (by decide),
    total_on_wellFormed.2.1 freshRule (by decide),
    total_on_wellFormed.2.2 freshTree (by decide)⟩

/-- Round trip on the fresh bundle rule, which has no `rpms` attribute. -/
theorem rpms_round_trip_witness :
    rpmTree.RPMs (rpmTree.SetRPMs freshTree ["@foo//rpm", "@bar//rpm"]) =
        some ["@foo//rpm", "@bar//rpm"] ∧
      rpmTree.RPMs freshTree = some [] ∧
      (rpmTree.SetRPMs freshTree ["@foo//rpm", "@bar//rpm"]).Attr "name" =
        freshTree.Attr "name" :=
  ⟨(rpms_round_trip freshTree ["@foo//rpm", "@bar//rpm"]).1,
    (rpms_round_trip freshTree ["@foo//rpm", "@bar//rpm"]).2.2.1 (by decide),
    (rpms_round_trip freshTree ["@foo//rpm", "@bar//rpm"]).2.2.2.1 "name" (by decide)⟩

/-- The two descriptors of distinct identities of the sample, in either order. -/
theorem addRPMS_permutation_invariant_witness :
    (samplePkgs.tail.map Package.ident).Nodup ∧
      AddRPMS insertionOrder sampleDoc samplePkgs.tail =
        AddRPMS reverseOrder sampleDoc samplePkgs.tail.reverse :=
  ⟨by decide,
    addRPMS_permutation_invariant insertionOrder reverseOrder sampleDoc samplePkgs.tail
      samplePkgs.tail.reverse (List.reverse_perm _).symm (by decide)⟩

/-- Of the two rpm rules of the same name the second one is kept. -/
theorem addRPMS_collapses_duplicates_witness :
    ∃ d', AddRPMS insertionOrder duplicateDoc [] = some d' ∧
      (d'.Rules "rpm").filter (fun x => x.Name = "a-1-1.x86_64") =
        [⟨.ident "rpm",
          [.assign "name" (.str "a-1-1.x86_64"), .assign "sha256" (.str "2")]⟩] := by
  have h := addRPMS_collapses_duplicates insertionOrder duplicateDoc [] "a-1-1.x86_64"
    ⟨.ident "rpm", [.assign "name" (.str "a-1-1.x86_64"), .assign "sha256" (.str "2")]⟩
    (by decide)
  obtain ⟨d', hd⟩ := h.1 (by decide)
  obtain ⟨r', h1, _, _, _, h5⟩ := h.2 d' hd
  have e := h5 (by simp)
  subst e
  exact ⟨d', hd, h1⟩

/-! ## Documents whose statements hold calls -/

theorem rules_flat (f : Tree) {kind : String} (hk : kind ≠ "") :
    f.flat.Rules kind = f.Rules kind := by
  simp only [Tree.flat, Tree.Rules, File.Rules]
  induction f.Stmt.flatMap Node.rules with
  | nil => rfl
  | cons r l ih =>
    simp only [List.map_cons, List.filterMap_cons, List.filter_cons, Rule.Call, ih]
    by_cases h : r.Kind = kind
    · have h' : (Rule.mk r.X r.List).Kind = kind := h
      simp [hk, h, h']
    · have h' : ¬ (Rule.mk r.X r.List).Kind = kind := h
      simp [hk, h, h']

theorem Rule.node_not_comment (r : Rule) : r.Node.isCommentBlock = false := rfl

theorem nested_insertAll_eq (stmt : List Node) (rules : List Rule) :
    Nested.insertAll stmt rules =
      stmt.rdropWhile Node.isCommentBlock ++ rules.map Rule.Node ++
        stmt.rtakeWhile Node.isCommentBlock := by
  induction rules generalizing stmt with
  | nil => simp [Nested.insertAll, rdropWhile_append_rtakeWhile]
  | cons r rules ih =>
    have hc : ∀ x ∈ stmt.rtakeWhile Node.isCommentBlock, Node.isCommentBlock x = true :=
      fun x hx => List.mem_rtakeWhile_imp hx
    have h1 : (Nested.InsertAtEnd stmt r.Node).rdropWhile Node.isCommentBlock =
        stmt.rdropWhile Node.isCommentBlock ++ [r.Node] := by
      rw [Nested.InsertAtEnd, ← List.singleton_append, ← List.append_assoc,
        rdropWhile_append_of_all _ _ _ hc,
        List.rdropWhile_concat_neg _ _ _ (by simp [r.node_not_comment])]
    have h2 : (Nested.InsertAtEnd stmt r.Node).rtakeWhile Node.isCommentBlock =
        stmt.rtakeWhile Node.isCommentBlock := by
      rw [Nested.InsertAtEnd, ← List.singleton_append, ← List.append_assoc,
        rtakeWhile_append_of_all _ _ _ hc,
        List.rtakeWhile_concat_neg _ _ _ (by simp [r.node_not_comment])]
      simp
    have := ih (Nested.InsertAtEnd stmt r.Node)
    simp only [Nested.insertAll, List.foldl_cons] at this ⊢
    rw [this, h1, h2]
    simp

theorem callUpdated_refl (kind name : String) (new : Rule) (l : List Rule) :
    List.Forall₂ (CallUpdated kind name new) l l :=
  List.forall₂_same.2 (fun _ _ => Or.inl rfl)

theorem nodeUpdated_refl (kind name : String) (new : Rule) (s : Node) :
    NodeUpdated kind name new s s := by
  cases s with
  | call X L => exact Or.inl rfl
  | comment t => rfl
  | other t c => exact ⟨c, rfl, callUpdated_refl kind name new c⟩

theorem nodeUpdated_refl_list (kind name : String) (new : Rule) (l : List Node) :
    List.Forall₂ (NodeUpdated kind name new) l l :=
  List.forall₂_same.2 (fun s _ => nodeUpdated_refl kind name new s)

theorem replaceLastCall_updated {kind name : String} {new : Rule} {l l' : List Rule}
    (h : replaceLastCall kind name new l = some l') :
    List.Forall₂ (CallUpdated kind name new) l l' := by
  induction l generalizing l' with
  | nil => simp [replaceLastCall] at h
  | cons r l ih =>
    simp only [replaceLastCall] at h
    cases hl : replaceLastCall kind name new l with
    | some l1 =>
      rw [hl] at h
      simp only [Option.some.injEq] at h
      subst h
      exact List.Forall₂.cons (Or.inl rfl) (ih hl)
    | none =>
      rw [hl] at h
      by_cases hr : r.Kind = kind ∧ r.Name = name
      · simp only [hr, and_self, if_true, Option.some.injEq] at h
        subst h
        exact List.Forall₂.cons (Or.inr ⟨hr.1, hr.2, rfl⟩) (callUpdated_refl kind name new l)
      · simp [hr] at h

theorem replaceLast_updated {kind name : String} {new : Rule} {l l' : List Node}
    (h : replaceLast kind name new l = some l') :
    List.Forall₂ (NodeUpdated kind name new) l l' := by
  induction l generalizing l' with
  | nil => simp [replaceLast] at h
  | cons s l ih =>
    simp only [replaceLast] at h
    cases hl : replaceLast kind name new l with
    | some l1 =>
      rw [hl] at h
      simp only [Option.some.injEq] at h
      subst h
      exact List.Forall₂.cons (nodeUpdated_refl kind name new s) (ih hl)
    | none =>
      rw [hl] at h
      cases s with
      | comment t => simp at h
      | call X L =>
        by_cases hr : (Rule.mk X L).Kind = kind ∧ (Rule.mk X L).Name = name
        · simp only [hr, and_self, if_true, Option.some.injEq] at h
          subst h
          exact List.Forall₂.cons (Or.inr ⟨hr.1, hr.2, rfl⟩)
            (nodeUpdated_refl_list kind name new l)
        · simp [hr] at h
      | other t c =>
        simp only [Option.map_eq_some'] at h
        obtain ⟨c', hc, rfl⟩ := h
        exact List.Forall₂.cons ⟨c', rfl, replaceLastCall_updated hc⟩
          (nodeUpdated_refl_list kind name new l)

theorem writeThrough_updated (kind name : String) (new : Rule) (l : List Node) :
    List.Forall₂ (NodeUpdated kind name new) l (writeThrough kind name new l) := by
  unfold writeThrough
  cases h : replaceLast kind name new l with
  | none => exact nodeUpdated_refl_list kind name new l
  | some l' => exact replaceLast_updated h

theorem nodeKept_refl (kind : String) (s : Node) : NodeKept kind s s :=
  ⟨rfl, rfl, fun _ => rfl, fun _ c h => ⟨c, h, rfl⟩⟩

theorem forall₂_eq_of_left {α : Type} {R : α → α → Prop} {l l' : List α}
    (h : List.Forall₂ R l l') (hR : ∀ a ∈ l, ∀ b, R a b → b = a) : l' = l := by
  induction h with
  | nil => rfl
  | cons hab _ ih =>
    rw [hR _ (List.mem_cons_self _ _) _ hab,
      ih (fun a ha b hb => hR a (List.mem_cons_of_mem _ ha) b hb)]

theorem nodeKept_of_updated {kind name : String} {new : Rule} (hnew : new.Kind = kind)
    {s s' : Node} (h : NodeUpdated kind name new s s') : NodeKept kind s s' := by
  cases s with
  | comment t =>
    have e : s' = .comment t := h
    subst e
    exact nodeKept_refl kind _
  | call X L =>
    rcases h with e | ⟨hk, _, e⟩
    · subst e
      exact nodeKept_refl kind _
    · subst e
      have hk' : (Rule.mk new.X new.List).Kind = kind := hnew
      refine ⟨?_, rfl, fun hno => ?_, fun t c hc => by cases hc⟩
      · simp [Node.isRule, Rule.Node, hk, hk']
      · exact absurd hk (hno _ (by simp [Node.rules]))
  | other t c =>
    obtain ⟨c', e, hc⟩ := h
    subst e
    refine ⟨rfl, rfl, fun hno => ?_, fun t₁ c₁ h₁ => ?_⟩
    · have : c' = c := forall₂_eq_of_left hc (fun a ha b hb => by
        rcases hb with e | ⟨hk, _, _⟩
        · exact e
        · exact absurd hk (hno a (by simpa [Node.rules] using ha)))
      rw [this]
    · cases h₁
      exact ⟨c', rfl, hc.length_eq.symm⟩

theorem forall₂_get? {α : Type} {R : α → α → Prop} {l l' : List α}
    (h : List.Forall₂ R l l') {j : Nat} {a : α} (ha : l.get? j = some a) :
    ∃ b, l'.get? j = some b ∧ R a b := by
  induction h generalizing j with
  | nil => simp at ha
  | cons hab _ ih =>
    cases j with
    | zero =>
      simp only [List.get?_cons_zero, Option.some.injEq] at ha
      subst ha
      exact ⟨_, rfl, hab⟩
    | succ j => exact ih (by simpa using ha)

theorem forall₂_flatMap_rules {kind name : String} {new : Rule} {l l' : List Node}
    (h : List.Forall₂ (NodeUpdated kind name new) l l') :
    List.Forall₂ (CallUpdated kind name new) (l.flatMap Node.rules)
      (l'.flatMap Node.rules) := by
  induction h with
  | nil => exact List.Forall₂.nil
  | @cons a b l l' hab _ ih =>
    simp only [List.flatMap_cons]
    refine List.rel_append ?_ ih
    cases a with
    | comment t =>
      have e : b = .comment t := hab
      subst e
      exact List.Forall₂.nil
    | call X L =>
      rcases hab with e | ⟨hk, hn, e⟩
      · subst e
        exact callUpdated_refl kind name new _
      · subst e
        exact List.Forall₂.cons (Or.inr ⟨hk, hn, rfl⟩) List.Forall₂.nil
    | other t c =>
      obtain ⟨c', e, hc⟩ := hab
      subst e
      exact hc

/-! ## The statements `AddTree` leaves -/

theorem bundleRule_flat (d : Tree) (name : String) (pkgs : List Package)
    (files : List String) : bundleRule name d.flat pkgs files = d.bundleRule name pkgs files := by
  have h : d.flat.Rules "rpmtree" = d.Rules "rpmtree" := rules_flat d (by decide)
  simp only [bundleRule, Tree.bundleRule, File.rule, Tree.rule, h]

theorem treeLookup_flat (d : Tree) (name : String) (pkgs : List Package)
    (files : List String) : treeLookup name d.flat pkgs files = d.treeLookup name pkgs files := by
  have h : d.flat.Rules "rpmtree" = d.Rules "rpmtree" := rules_flat d (by decide)
  simp only [treeLookup, Tree.treeLookup, bundleRule_flat, h]

theorem validLookup_tree (d : Tree) (name : String) (pkgs : List Package)
    (files : List String) : ValidLookup "rpmtree" (d.treeLookup name pkgs files) := by
  rw [← treeLookup_flat]
  exact validLookup_treeLookup name d.flat pkgs files

theorem kind_sortedRules_tree (o : MapOrder) (d : Tree) (name : String) (pkgs : List Package)
    (files : List String) :
    ∀ r ∈ sortedRules o (d.treeLookup name pkgs files), r.Kind = "rpmtree" := by
  intro r hr
  have hv := validLookup_tree d name pkgs files
  rw [mem_sortedRules o hv, mapGet_eq_some_iff hv.nodup] at hr
  exact hv.kind _ _ hr

theorem nested_addTree_eq (o : MapOrder) (name : String) (d : Tree) (pkgs : List Package)
    (files : List String) :
    (Nested.AddTree o name d pkgs files).Stmt =
      (writeThrough "rpmtree" name (d.bundleRule name pkgs files) d.Stmt).rdropWhile
          Node.isCommentBlock ++
        (sortedRules o (d.treeLookup name pkgs files)).map Rule.Node ++
        (writeThrough "rpmtree" name (d.bundleRule name pkgs files) d.Stmt).rtakeWhile
          Node.isCommentBlock := by
  simp only [Nested.AddTree, nested_insertAll_eq]
  rfl

theorem mem_tree_rules {f : Tree} {kind : String} (hk : kind ≠ "") (r : Rule) :
    r ∈ f.Rules kind ↔ r ∈ f.Stmt.flatMap Node.rules ∧ r.Kind = kind := by
  simp [Tree.Rules, hk]

theorem rules_node_map (l : List Rule) : (l.map Rule.Node).flatMap Node.rules = l := by
  induction l with
  | nil => rfl
  | cons r l ih =>
    simp only [List.map_cons, List.flatMap_cons, ih]
    rfl

theorem rules_of_comments {l : List Node} (h : ∀ s ∈ l, s.isCommentBlock = true) :
    l.flatMap Node.rules = [] := by
  induction l with
  | nil => rfl
  | cons s l ih =>
    have hs := h s (List.mem_cons_self _ _)
    cases s with
    | comment t =>
      simp only [List.flatMap_cons, Node.rules, List.nil_append]
      exact ih (fun x hx => h x (List.mem_cons_of_mem _ hx))
    | call X L => simp [Node.isCommentBlock] at hs
    | other t c => simp [Node.isCommentBlock] at hs

theorem forall₂_mem_right {α : Type} {R : α → α → Prop} {l l' : List α}
    (h : List.Forall₂ R l l') {b : α} (hb : b ∈ l') : ∃ a ∈ l, R a b := by
  induction h with
  | nil => simp at hb
  | cons hab _ ih =>
    rcases List.mem_cons.1 hb with e | hb
    · subst e
      exact ⟨_, List.mem_cons_self _ _, hab⟩
    · obtain ⟨a, ha, hr⟩ := ih hb
      exact ⟨a, List.mem_cons_of_mem _ ha, hr⟩

theorem name_tree_bundleRule (d : Tree) (name : String) (pkgs : List Package)
    (files : List String) : (d.bundleRule name pkgs files).Name = name := by
  rw [← bundleRule_flat]
  exact name_bundleRule name d.flat pkgs files

theorem kind_tree_bundleRule (d : Tree) (name : String) (pkgs : List Package)
    (files : List String) : (d.bundleRule name pkgs files).Kind = "rpmtree" := by
  rw [← bundleRule_flat]
  exact kind_bundleRule name d.flat pkgs files

theorem nested_addTree_rules (o : MapOrder) (name : String) (d : Tree) (pkgs : List Package)
    (files : List String) :
    (Nested.AddTree o name d pkgs files).Stmt.flatMap Node.rules =
      (writeThrough "rpmtree" name (d.bundleRule name pkgs files) d.Stmt).flatMap Node.rules ++
        sortedRules o (d.treeLookup name pkgs files) := by
  rw [nested_addTree_eq, List.flatMap_append, List.flatMap_append, rules_node_map,
    rules_of_comments (fun s hs => List.mem_rtakeWhile_imp hs), List.append_nil]
  conv_rhs => rw [← rdropWhile_append_rtakeWhile Node.isCommentBlock
    (writeThrough "rpmtree" name (d.bundleRule name pkgs files) d.Stmt)]
  rw [List.flatMap_append, rules_of_comments (fun s hs => List.mem_rtakeWhile_imp hs),
    List.append_nil]

theorem nested_addTree_rule_other (o : MapOrder) (name : String) (d : Tree)
    (pkgs : List Package) (files : List String) {k : String} (hk : k ≠ name) :
    (Nested.AddTree o name d pkgs files).rule "rpmtree" k = d.rule "rpmtree" k := by
  have hv := validLookup_tree d name pkgs files
  have hkind := kind_sortedRules_tree o d name pkgs files
  have hf := mapGet_lookupOf_sortedRules o hv k
  have hg : mapGet (d.treeLookup name pkgs files) k = mapGet (lookupOf (d.Rules "rpmtree")) k := by
    rw [Tree.treeLookup, mapGet_mapSet, if_neg (Ne.symm hk)]
  rw [mapGet_lookupOf, hg] at hf
  have hR : (Nested.AddTree o name d pkgs files).Rules "rpmtree" =
      ((writeThrough "rpmtree" name (d.bundleRule name pkgs files) d.Stmt).flatMap
        Node.rules).filter (fun r => !(decide ("rpmtree" ≠ "") && decide (r.Kind ≠ "rpmtree"))) ++
        sortedRules o (d.treeLookup name pkgs files) := by
    rw [Tree.Rules, nested_addTree_rules, List.filter_append]
    congr 1
    rw [List.filter_eq_self]
    intro r hr
    simp [hkind r hr]
  rw [Tree.rule, hR, mapGet_lookupOf, List.reverse_append, List.find?_append, hf]
  cases hd : mapGet (lookupOf (d.Rules "rpmtree")) k with
  | some r => simp [Tree.rule, hd]
  | none =>
    simp only [Option.none_or, Tree.rule, hd]
    rw [List.find?_eq_none]
    intro x hx
    simp only [decide_eq_true_eq]
    intro hxk
    rw [List.mem_reverse, List.mem_filter] at hx
    have hxkind : x.Kind = "rpmtree" := by simpa using hx.2
    obtain ⟨r, hr, hu⟩ := forall₂_mem_right
      (forall₂_flatMap_rules (writeThrough_updated "rpmtree" name
        (d.bundleRule name pkgs files) d.Stmt)) hx.1
    rcases hu with e | ⟨_, _, e⟩
    · subst e
      have hmem : x ∈ d.Rules "rpmtree" := (mem_tree_rules (by decide) x).2 ⟨hr, hxkind⟩
      have hfind : ((d.Rules "rpmtree").reverse.find? (fun r => r.Name = k)) = none := by
        rw [← mapGet_lookupOf]; exact hd
      rw [List.find?_eq_none] at hfind
      exact absurd hxk (by simpa using hfind x (List.mem_reverse.2 hmem))
    · rw [e, name_tree_bundleRule] at hxk
      exact hk hxk.symm

/-- C15, as stated, fails in its second part: an assignment statement that
holds the rpmtree rule named `t` is not an rpmtree rule, and `AddTree`
rewrites it, since it updates the rule where the document holds it. -/
theorem addTree_others_counterexample :
    (Node.other 0 [⟨.ident "rpmtree", [.assign "name" (.str "t")]⟩]).isRule "rpmtree" "" = false ∧
      heldTreeDoc.Stmt.get? 0 =
        some (.other 0 [⟨.ident "rpmtree", [.assign "name" (.str "t")]⟩]) ∧
      (Nested.AddTree insertionOrder "t" heldTreeDoc [] ["f"]).Stmt =
        [.other 0 [⟨.ident "rpmtree", [.assign "name" (.str "t"), .assign "rpms" (.list []),
            .assign "files" (.list [.str "f"])]⟩],
          .call (.ident "rpmtree") [.assign "name" (.str "t"), .assign "rpms" (.list []),
            .assign "files" (.list [.str "f"])]] ∧
      (Nested.AddTree insertionOrder "t" heldTreeDoc [] ["f"]).Stmt.get? 0 ≠
        heldTreeDoc.Stmt.get? 0 := by
  refine ⟨by decide, by decide, by decide, by decide⟩

/-! ## The statements `AddRPMS` leaves -/

theorem nested_addRPMS_eq (o : MapOrder) (d : Tree) (ps : List Package) :
    Nested.AddRPMS o d ps =
      (upsertAll (lookupOf (d.Rules "rpm")) ps).map fun m =>
        ⟨((writeAll m ps d.Stmt).filter fun s => !s.isRule "rpm" "").rdropWhile
            Node.isCommentBlock ++ (sortedRules o m).map Rule.Node ++
          ((writeAll m ps d.Stmt).filter fun s => !s.isRule "rpm" "").rtakeWhile
            Node.isCommentBlock⟩ := by
  dsimp only [Nested.AddRPMS]
  generalize upsertAll (lookupOf (d.Rules "rpm")) ps = x
  cases x with
  | none => rfl
  | some m => simp [nested_insertAll_eq, writeAll, Tree.DelRules]

theorem validLookup_tree_rules (d : Tree) {kind : String} (hk : kind ≠ "") :
    ValidLookup kind (lookupOf (d.Rules kind)) := by
  rw [← rules_flat d hk]
  exact validLookup_lookupOf d.flat hk

theorem isRule_node (r : Rule) (kind : String) :
    r.Node.isRule kind "" = (decide (kind = "") || decide (r.Kind = kind)) := by
  cases r
  simp [Rule.Node, Node.isRule]

theorem filter_block {K : List Node} {rules : List Rule}
    (hK : ∀ s ∈ K, s.isRule "rpm" "" = false) (hr : ∀ r ∈ rules, r.Kind = "rpm") :
    (K.rdropWhile Node.isCommentBlock ++ rules.map Rule.Node ++
        K.rtakeWhile Node.isCommentBlock).filter (fun s => !s.isRule "rpm" "") = K ∧
      (K.rdropWhile Node.isCommentBlock ++ rules.map Rule.Node ++
        K.rtakeWhile Node.isCommentBlock).filter (fun s => s.isRule "rpm" "") =
        rules.map Rule.Node := by
  have h1 : ∀ s ∈ K.rdropWhile Node.isCommentBlock, s.isRule "rpm" "" = false :=
    fun s hs => hK s ((List.rdropWhile_prefix _ _).subset hs)
  have h2 : ∀ s ∈ K.rtakeWhile Node.isCommentBlock, s.isRule "rpm" "" = false :=
    fun s hs => hK s ((List.rtakeWhile_suffix _ _).subset hs)
  have h3 : ∀ s ∈ rules.map Rule.Node, s.isRule "rpm" "" = true := by
    intro s hs
    obtain ⟨r, hr', rfl⟩ := List.mem_map.1 hs
    simp [isRule_node, hr r hr']
  constructor
  · rw [List.filter_append, List.filter_append,
      List.filter_eq_self.2 (fun s hs => by simp [h1 s hs]),
      List.filter_eq_nil_iff.2 (fun s hs => by simp [h3 s hs]),
      List.filter_eq_self.2 (fun s hs => by simp [h2 s hs]), List.append_nil,
      rdropWhile_append_rtakeWhile]
  · rw [List.filter_append, List.filter_append,
      List.filter_eq_nil_iff.2 (fun s hs => by simp [h1 s hs]),
      List.filter_eq_self.2 (fun s hs => by simp [h3 s hs]),
      List.filter_eq_nil_iff.2 (fun s hs => by simp [h2 s hs]), List.append_nil,
      List.nil_append]

/-- C8, as stated, fails twice: the assignment statement that holds the rpm
rule is not an rpm rule and `AddRPMS` rewrites it, since the descriptor is
written to the rule where the document holds it; and the rpm rule is
inserted before the comment block, so the rpm rules are not the suffix. -/
theorem addRPMS_statements_counterexample :
    (Node.other 0 [⟨.ident "rpm", [.assign "name" (.str "a-1-1.x86_64")]⟩]).isRule "rpm" "" =
        false ∧
      heldDoc.Stmt.filter (fun s => !s.isRule "rpm" "") =
        [.other 0 [⟨.ident "rpm", [.assign "name" (.str "a-1-1.x86_64")]⟩], .comment 1] ∧
      Nested.AddRPMS insertionOrder heldDoc [samplePkg] =
        some ⟨[.other 0 [⟨.ident "rpm", [.assign "name" (.str "a-1-1.x86_64"),
            .assign "sha256" (.str "deadbeef"), .assign "urls" (.list [.str "m/a.rpm"])]⟩],
          .call (.ident "rpm") [.assign "name" (.str "a-1-1.x86_64"),
            .assign "sha256" (.str "deadbeef"), .assign "urls" (.list [.str "m/a.rpm"])],
          .comment 1]⟩ ∧
      (Nested.AddRPMS insertionOrder heldDoc [samplePkg]).map
          (fun d' => d'.Stmt.filter (fun s => !s.isRule "rpm" "")) ≠
        some (heldDoc.Stmt.filter (fun s => !s.isRule "rpm" "")) ∧
      (Nested.AddRPMS insertionOrder heldDoc [samplePkg]).map
          (fun d' => d'.Stmt.getLast?.map (fun s => s.isRule "rpm" "")) =
        some (some false) := by
  refine ⟨by decide, by decide, by decide, by decide, by decide⟩

/-! ## How many statements `AddTree` adds -/

theorem length_tree_lookup (o : MapOrder) (d : Tree) (name : String) (pkgs : List Package)
    (files : List String) :
    (sortedRules o (d.treeLookup name pkgs files)).length =
      ((d.Rules "rpmtree").map Rule.Name ++ [name]).dedup.length := by
  rw [(sortedRules_perm o _).length_eq, List.length_map, ← treeLookup_flat, length_treeLookup,
    rules_flat d (by decide)]

theorem nested_addTree_length (o : MapOrder) (name : String) (d : Tree) (pkgs : List Package)
    (files : List String) :
    (Nested.AddTree o name d pkgs files).Stmt.length =
      d.Stmt.length + ((d.Rules "rpmtree").map Rule.Name ++ [name]).dedup.length := by
  rw [nested_addTree_eq]
  simp only [List.length_append, List.length_map]
  rw [length_tree_lookup o]
  have := congrArg List.length (rdropWhile_append_rtakeWhile Node.isCommentBlock
    (writeThrough "rpmtree" name (d.bundleRule name pkgs files) d.Stmt))
  rw [List.length_append,
    (writeThrough_updated "rpmtree" name (d.bundleRule name pkgs files) d.Stmt).length_eq.symm]
    at this
  omega

theorem mem_sortedRules_tree (o : MapOrder) (d : Tree) (name : String) (pkgs : List Package)
    (files : List String) (r : Rule) :
    r ∈ sortedRules o (d.treeLookup name pkgs files) ↔
      r = d.bundleRule name pkgs files ∨ (r.Name ≠ name ∧ d.rule "rpmtree" r.Name = some r) := by
  rw [mem_sortedRules o (validLookup_tree d name pkgs files), Tree.treeLookup, mapGet_mapSet]
  by_cases h : name = r.Name
  · rw [if_pos h]
    constructor
    · intro e
      exact Or.inl (Option.some.inj e).symm
    · rintro (e | ⟨hn, _⟩)
      · rw [e]
      · exact absurd h.symm hn
  · rw [if_neg h]
    constructor
    · intro e
      exact Or.inr ⟨fun h' => h h'.symm, e⟩
    · rintro (e | ⟨_, e⟩)
      · exact absurd (by rw [e, name_tree_bundleRule]) h
      · exact e

theorem isNamed_node (r : Rule) (kind name : String) :
    r.Node.isNamed kind name = (decide (r.Kind = kind) && decide (r.Name = name)) := by
  cases r
  rfl

theorem rules_of_isNamed {s : Node} {kind name : String} (h : s.isNamed kind name = true) :
    ∀ r ∈ s.rules, r.Kind = kind ∧ r.Name = name := by
  cases s with
  | call X L =>
    intro r hr
    simp only [Node.rules, List.mem_singleton] at hr
    subst hr
    simpa [Node.isNamed] using h
  | comment t => simp [Node.isNamed] at h
  | other t c => simp [Node.isNamed] at h

/-- One more call on a document that consists of rpmtree rules of the
bundle name adds one statement, again such a rule. -/
theorem nested_addTree_step {name : String} {d : Tree}
    (hd : ∀ s ∈ d.Stmt, s.isNamed "rpmtree" name = true) (o : MapOrder)
    (pkgs : List Package) (files : List String) :
    (Nested.AddTree o name d pkgs files).Stmt.length = d.Stmt.length + 1 ∧
      ∀ s ∈ (Nested.AddTree o name d pkgs files).Stmt, s.isNamed "rpmtree" name = true := by
  have hnames : ∀ x ∈ (d.Rules "rpmtree").map Rule.Name ++ [name], x = name := by
    intro x hx
    rcases List.mem_append.1 hx with h | h
    · obtain ⟨r, hr, rfl⟩ := List.mem_map.1 h
      obtain ⟨s, hs, hrs⟩ := List.mem_flatMap.1 ((mem_tree_rules (by decide) r).1 hr).1
      exact (rules_of_isNamed (hd s hs) r hrs).2
    · simpa using h
  have hb : (d.bundleRule name pkgs files).Node.isNamed "rpmtree" name = true := by
    simp [isNamed_node, kind_tree_bundleRule, name_tree_bundleRule]
  constructor
  · rw [nested_addTree_length, dedup_of_forall_eq (by simp) hnames]
    rfl
  · intro s hs
    rw [nested_addTree_eq] at hs
    have hwt : ∀ x ∈ writeThrough "rpmtree" name (d.bundleRule name pkgs files) d.Stmt,
        x.isNamed "rpmtree" name = true := by
      intro x hx
      obtain ⟨a, ha, hu⟩ := forall₂_mem_right
        (writeThrough_updated "rpmtree" name (d.bundleRule name pkgs files) d.Stmt) hx
      have hna := hd a ha
      cases a with
      | call X L =>
        rcases hu with e | ⟨_, _, e⟩
        · rw [e]; exact hna
        · rw [e]; exact hb
      | comment t => simp [Node.isNamed] at hna
      | other t c => simp [Node.isNamed] at hna
    simp only [List.mem_append] at hs
    rcases hs with (hs | hs) | hs
    · exact hwt s ((List.rdropWhile_prefix _ _).subset hs)
    · obtain ⟨r, hr, rfl⟩ := List.mem_map.1 hs
      rcases (mem_sortedRules_tree o d name pkgs files r).1 hr with e | ⟨hn, hr2⟩
      · rw [e]; exact hb
      · exfalso
        rw [Tree.rule, mapGet_lookupOf] at hr2
        have hmem := List.mem_reverse.1 (List.mem_of_find?_eq_some hr2)
        exact hn (hnames _ (List.mem_append.2 (Or.inl (List.mem_map_of_mem _ hmem))))
    · exact hwt s ((List.rtakeWhile_suffix _ _).subset hs)

theorem nested_successive_spec (name : String)
    (calls : List (MapOrder × List Package × List String)) :
    (Nested.successiveAddTree name calls).Stmt.length = calls.length ∧
      ∀ s ∈ (Nested.successiveAddTree name calls).Stmt, s.isNamed "rpmtree" name = true := by
  induction calls using List.reverseRecOn with
  | nil => simp [Nested.successiveAddTree]
  | append_singleton cs c ih =>
    have e : Nested.successiveAddTree name (cs ++ [c]) =
        Nested.AddTree c.1 name (Nested.successiveAddTree name cs) c.2.1 c.2.2 := by
      simp [Nested.successiveAddTree, List.foldl_append]
    rw [e]
    obtain ⟨h1, h2⟩ := nested_addTree_step ih.2 c.1 c.2.1 c.2.2
    exact ⟨by rw [h1, ih.1]; simp, h2⟩

/-- C12, as stated, fails: the input statements are not a prefix of the
result. On a document that holds the bundle rule, the statement of that rule
is itself updated; on a document that ends in a comment block, the rule is
inserted before that block. -/
theorem addTree_not_prefix_counterexample :
    (Nested.AddTree insertionOrder "t" bundleDoc.toTree [] ["new.txt"]).Stmt =
        [.call (.ident "rpmtree")
            [.assign "name" (.str "t"), .assign "files" (.list [.str "new.txt"]),
              .assign "rpms" (.list [])],
          .call (.ident "rpmtree")
            [.assign "name" (.str "t"), .assign "files" (.list [.str "new.txt"]),
              .assign "rpms" (.list [])]] ∧
      bundleDoc.toTree.Stmt =
        [.call (.ident "rpmtree")
          [.assign "name" (.str "t"), .assign "files" (.list [.str "old.txt"])]] ∧
      ¬ bundleDoc.toTree.Stmt <+:
        (Nested.AddTree insertionOrder "t" bundleDoc.toTree [] ["new.txt"]).Stmt ∧
      (Nested.AddTree insertionOrder "t" commentedDoc.toTree [] []).Stmt =
        [.other 0 [],
          .call (.ident "rpmtree")
            [.assign "name" (.str "t"), .assign "rpms" (.list []), .assign "files" (.list [])],
          .comment 1] ∧
      commentedDoc.toTree.Stmt = [.other 0 [], .comment 1] ∧
      ¬ commentedDoc.toTree.Stmt <+:
        (Nested.AddTree insertionOrder "t" commentedDoc.toTree [] []).Stmt := by
  refine ⟨by decide, by decide, by decide, by decide, by decide, by decide⟩

/-- C12, amended: `AddTree` never removes statements. The result is the
statement sequence of the input, each statement at its place (a statement
that is or holds an rpmtree rule named `name` possibly with that rule
updated, every other statement unchanged), with the rules of the lookup
inserted before the trailing comment blocks: these are the updated bundle
rule and, for every other name, the rpmtree rule the input holds under it,
all of kind rpmtree and sorted strictly by name. Their number is the number
of distinct names among the rpmtree rules of the input together with
`name`, and the result is longer by exactly that number. Hence successive
calls with the same name on the empty document leave one statement per
call, each an rpmtree rule of that name. -/
theorem addTree_inserts_lookup_rules (o : MapOrder) (name : String) (d : Tree)
    (pkgs : List Package) (files : List String) :
    (∃ stmt : List Node,
      (Nested.AddTree o name d pkgs files).Stmt =
        stmt.rdropWhile Node.isCommentBlock ++
          (sortedRules o (d.treeLookup name pkgs files)).map Rule.Node ++
          stmt.rtakeWhile Node.isCommentBlock ∧
      stmt.length = d.Stmt.length ∧
      (∀ j s, d.Stmt.get? j = some s →
        (∀ r ∈ s.rules, ¬ (r.Kind = "rpmtree" ∧ r.Name = name)) → stmt.get? j = some s) ∧
      ∀ j s, d.Stmt.get? j = some s →
        ∃ s', stmt.get? j = some s' ∧
          NodeUpdated "rpmtree" name (d.bundleRule name pkgs files) s s') ∧
    ((sortedRules o (d.treeLookup name pkgs files)).Pairwise
        (fun a b => strLess a.Name b.Name = true) ∧
      (∀ r ∈ sortedRules o (d.treeLookup name pkgs files), r.Kind = "rpmtree") ∧
      (∀ r, r ∈ sortedRules o (d.treeLookup name pkgs files) ↔
        r = d.bundleRule name pkgs files ∨
          (r.Name ≠ name ∧ d.rule "rpmtree" r.Name = some r)) ∧
      (d.bundleRule name pkgs files).Name = name ∧
      (sortedRules o (d.treeLookup name pkgs files)).length =
        ((d.Rules "rpmtree").map Rule.Name ++ [name]).dedup.length) ∧
    (Nested.AddTree o name d pkgs files).Stmt.length =
      d.Stmt.length + ((d.Rules "rpmtree").map Rule.Name ++ [name]).dedup.length ∧
    ∀ calls : List (MapOrder × List Package × List String),
      (Nested.successiveAddTree name calls).Stmt.length = calls.length ∧
        ∀ s ∈ (Nested.successiveAddTree name calls).Stmt, s.isNamed "rpmtree" name = true := by
  have hu := writeThrough_updated "rpmtree" name (d.bundleRule name pkgs files) d.Stmt
  refine ⟨⟨writeThrough "rpmtree" name (d.bundleRule name pkgs files) d.Stmt,
    nested_addTree_eq o name d pkgs files, hu.length_eq.symm, ?_,
    fun j s hs => forall₂_get? hu hs⟩,
    ⟨sortedRules_strict o (validLookup_tree d name pkgs files),
      kind_sortedRules_tree o d name pkgs files, mem_sortedRules_tree o d name pkgs files,
      name_tree_bundleRule d name pkgs files, length_tree_lookup o d name pkgs files⟩,
    nested_addTree_length o name d pkgs files, nested_successive_spec name⟩
  intro j s hs hno
  obtain ⟨s', hs', hr⟩ := forall₂_get? hu hs
  rw [hs']
  cases s with
  | comment t =>
    have e : s' = .comment t := hr
    rw [e]
  | call X L =>
    rcases hr with e | ⟨h1, h2, _⟩
    · rw [e]
    · exact absurd ⟨h1, h2⟩ (hno _ (by simp [Node.rules]))
  | other t c =>
    obtain ⟨c', e, hc⟩ := hr
    have : c' = c := forall₂_eq_of_left hc (fun a ha b hb => by
      rcases hb with e | ⟨h1, h2, _⟩
      · exact e
      · exact absurd ⟨h1, h2⟩ (hno a (by simpa [Node.rules] using ha)))
    rw [e, this]

/-! ## What the write-through changes -/

theorem callSynced_trans {m : RuleMap} (hv : ValidLookup "rpm" m) {r₁ r₂ r₃ : Rule}
    (h₁ : CallSynced m r₁ r₂) (h₂ : CallSynced m r₂ r₃) : CallSynced m r₁ r₃ := by
  rcases h₁ with e | ⟨hk, hm⟩
  · rw [e] at h₂; exact h₂
  · rcases h₂ with e | ⟨_, hm'⟩
    · rw [e]; exact Or.inr ⟨hk, hm⟩
    · have hn := hv.name _ _ ((mapGet_eq_some_iff hv.nodup _ _).1 hm)
      rw [hn] at hm'
      exact Or.inr ⟨hk, hm'⟩

theorem forall₂_trans_of {α : Type} (R : α → α → Prop)
    (ht : ∀ a b c, R a b → R b c → R a c) {l₁ l₂ l₃ : List α}
    (h₁ : List.Forall₂ R l₁ l₂) (h₂ : List.Forall₂ R l₂ l₃) : List.Forall₂ R l₁ l₃ := by
  induction h₁ generalizing l₃ with
  | nil => cases h₂; exact List.Forall₂.nil
  | cons hab _ ih =>
    cases h₂ with
    | cons hbc hrest => exact List.Forall₂.cons (ht _ _ _ hab hbc) (ih hrest)

theorem nodeSynced_refl (m : RuleMap) (s : Node) : NodeSynced m s s := by
  cases s with
  | call X L => exact ⟨⟨X, L⟩, rfl, Or.inl rfl⟩
  | comment t => rfl
  | other t c => exact ⟨c, rfl, List.forall₂_same.2 (fun _ _ => Or.inl rfl)⟩

theorem nodeSynced_trans {m : RuleMap} (hv : ValidLookup "rpm" m) {s₁ s₂ s₃ : Node}
    (h₁ : NodeSynced m s₁ s₂) (h₂ : NodeSynced m s₂ s₃) : NodeSynced m s₁ s₃ := by
  cases s₁ with
  | comment t =>
    have e : s₂ = .comment t := h₁
    subst e
    exact h₂
  | call X L =>
    obtain ⟨r', e, hc⟩ := h₁
    subst e
    obtain ⟨r'', e, hc'⟩ := h₂
    exact ⟨r'', e, callSynced_trans hv hc hc'⟩
  | other t c =>
    obtain ⟨c', e, hc⟩ := h₁
    subst e
    obtain ⟨c'', e, hc'⟩ := h₂
    exact ⟨c'', e, forall₂_trans_of (CallSynced m) (fun _ _ _ => callSynced_trans hv) hc hc'⟩

theorem nodeSynced_of_updated {m : RuleMap} {name : String} {new : Rule}
    (hm : mapGet m name = some new) {s s' : Node} (h : NodeUpdated "rpm" name new s s') :
    NodeSynced m s s' := by
  have hcall : ∀ r r', CallUpdated "rpm" name new r r' → CallSynced m r r' := by
    intro r r' hu
    rcases hu with e | ⟨hk, hn, e⟩
    · exact Or.inl e
    · exact Or.inr ⟨hk, by rw [hn, e]; exact hm⟩
  cases s with
  | comment t => exact h
  | call X L =>
    rcases h with e | ⟨hk, hn, e⟩
    · exact ⟨⟨X, L⟩, e, Or.inl rfl⟩
    · exact ⟨new, e, Or.inr ⟨hk, by rw [hn]; exact hm⟩⟩
  | other t c =>
    obtain ⟨c', e, hc⟩ := h
    exact ⟨c', e, hc.imp hcall⟩

theorem writeAll_synced {m : RuleMap} (hv : ValidLookup "rpm" m) (ps : List Package)
    (stmt : List Node) : List.Forall₂ (NodeSynced m) stmt (writeAll m ps stmt) := by
  induction ps generalizing stmt with
  | nil => exact List.forall₂_same.2 (fun s _ => nodeSynced_refl m s)
  | cons p ps ih =>
    simp only [writeAll, List.foldl_cons]
    cases hr : mapGet m p.ident with
    | none => exact ih stmt
    | some r =>
      exact forall₂_trans_of (NodeSynced m) (fun _ _ _ => nodeSynced_trans hv)
        ((writeThrough_updated "rpm" p.ident r stmt).imp
          (fun _ _ h => nodeSynced_of_updated hr h))
        (ih (writeThrough "rpm" p.ident r stmt))

theorem forall₂_filter_of {α : Type} {R : α → α → Prop} {p : α → Bool}
    (hp : ∀ a b, R a b → p b = p a) {l l' : List α} (h : List.Forall₂ R l l') :
    List.Forall₂ R (l.filter p) (l'.filter p) := by
  induction h with
  | nil => exact List.Forall₂.nil
  | @cons a b l l' hab _ ih =>
    simp only [List.filter_cons, hp a b hab]
    cases p a with
    | true => simpa using List.Forall₂.cons hab ih
    | false => simpa using ih

theorem isRule_of_synced {m : RuleMap} (hv : ValidLookup "rpm" m) {s s' : Node}
    (h : NodeSynced m s s') : s'.isRule "rpm" "" = s.isRule "rpm" "" := by
  cases s with
  | comment t =>
    have e : s' = .comment t := h
    rw [e]
  | other t c =>
    obtain ⟨c', e, _⟩ := h
    rw [e]
    rfl
  | call X L =>
    obtain ⟨r', e, hc⟩ := h
    rw [e]
    rcases hc with e' | ⟨hk, hm⟩
    · rw [e']
      rfl
    · have hk' := hv.kind _ _ ((mapGet_eq_some_iff hv.nodup _ _).1 hm)
      have hk2 : (Rule.mk X L).Kind = "rpm" := hk
      rw [isRule_node]
      simp [Node.isRule, hk', hk2]

theorem eq_of_synced {m : RuleMap} {s s' : Node} (h : NodeSynced m s s')
    (hno : ∀ r ∈ s.rules, r.Kind ≠ "rpm") : s' = s := by
  cases s with
  | comment t => exact h
  | call X L =>
    obtain ⟨r', e, hc⟩ := h
    rcases hc with e' | ⟨hk, _⟩
    · rw [e, e']
      rfl
    · exact absurd hk (hno _ (by simp [Node.rules]))
  | other t c =>
    obtain ⟨c', e, hc⟩ := h
    have : c' = c := forall₂_eq_of_left hc (fun a ha b hb => by
      rcases hb with e | ⟨hk, _⟩
      · exact e
      · exact absurd hk (hno a (by simpa [Node.rules] using ha)))
    rw [e, this]

theorem isCommentBlock_of_synced {m : RuleMap} {s s' : Node} (h : NodeSynced m s s') :
    s'.isCommentBlock = s.isCommentBlock := by
  cases s with
  | comment t =>
    have e : s' = .comment t := h
    rw [e]
  | call X L =>
    obtain ⟨r', e, _⟩ := h
    rw [e]
    rfl
  | other t c =>
    obtain ⟨c', e, _⟩ := h
    rw [e]
    rfl

/-- C8, amended: whenever `AddRPMS` completes (as it does on every
well-formed document), the statements of the result that are not rpm rules
are the statements of the input that are not rpm rules, each at its place
among them: unchanged when it holds no rpm call, and otherwise the same
statement with the same calls, except that an rpm call it holds may have
become the rpm rule of the same name of the result. The statements of the
result that are rpm rules form one block, sorted strictly by name, that
follows all the other statements except the comment blocks that end the
sequence of the statements that are not rpm rules; these comment blocks
stay last. -/
theorem addRPMS_keeps_other_statements (o : MapOrder) (d : Tree) (ps : List Package) :
    ((∀ r ∈ d.Rules "rpm", r.wellFormed = true) → ∃ d', Nested.AddRPMS o d ps = some d') ∧
      ∀ d', Nested.AddRPMS o d ps = some d' →
        ∃ (kept : List Node) (rules : List Rule),
          d'.Stmt = kept.rdropWhile Node.isCommentBlock ++ rules.map Rule.Node ++
            kept.rtakeWhile Node.isCommentBlock ∧
          d'.Stmt.filter (fun s => !s.isRule "rpm" "") = kept ∧
          d'.Stmt.filter (fun s => s.isRule "rpm" "") = rules.map Rule.Node ∧
          (∀ r ∈ rules, r.Kind = "rpm") ∧
          rules.Pairwise (fun a b => strLess a.Name b.Name = true) ∧
          kept.length = (d.Stmt.filter (fun s => !s.isRule "rpm" "")).length ∧
          (∀ j s, (d.Stmt.filter (fun s => !s.isRule "rpm" "")).get? j = some s →
            (∀ r ∈ s.rules, r.Kind ≠ "rpm") → kept.get? j = some s) ∧
          (∀ j s, (d.Stmt.filter (fun s => !s.isRule "rpm" "")).get? j = some s →
            ∃ s', kept.get? j = some s' ∧ s'.isCommentBlock = s.isCommentBlock) ∧
          ∀ j t c, (d.Stmt.filter (fun s => !s.isRule "rpm" "")).get? j = some (.other t c) →
            ∃ c', kept.get? j = some (.other t c') ∧
              List.Forall₂
                (fun r r' => r' = r ∨ (r.Kind = "rpm" ∧ r'.Name = r.Name ∧ r' ∈ rules))
                c c' := by
  have hv0 : ValidLookup "rpm" (lookupOf (d.Rules "rpm")) :=
    validLookup_tree_rules d (by decide)
  constructor
  · intro hw
    have hwf : d.flat.WellFormed := by
      intro r hr
      rw [rules_flat d (by decide)] at hr
      exact hw r hr
    have := upsertAll_isSome_of_wellFormed d.flat ps hwf
    rw [rules_flat d (by decide)] at this
    obtain ⟨m, hm⟩ := Option.isSome_iff_exists.1 this
    exact ⟨_, by rw [nested_addRPMS_eq, hm]; rfl⟩
  · intro d' hd
    rw [nested_addRPMS_eq] at hd
    simp only [Option.map_eq_some'] at hd
    obtain ⟨m, hm, rfl⟩ := hd
    have hv := validLookup_upsertAll hv0 hm
    have hkind : ∀ r ∈ sortedRules o m, r.Kind = "rpm" := by
      intro r hr
      rw [mem_sortedRules o hv, mapGet_eq_some_iff hv.nodup] at hr
      exact hv.kind _ _ hr
    have hK : ∀ s ∈ (writeAll m ps d.Stmt).filter (fun s => !s.isRule "rpm" ""),
        s.isRule "rpm" "" = false := by
      intro s hs
      simpa using (List.mem_filter.1 hs).2
    have hrel : List.Forall₂ (NodeSynced m) (d.Stmt.filter (fun s => !s.isRule "rpm" ""))
        ((writeAll m ps d.Stmt).filter (fun s => !s.isRule "rpm" "")) :=
      forall₂_filter_of (fun a b h => by rw [isRule_of_synced hv h])
        (writeAll_synced hv ps d.Stmt)
    refine ⟨_, sortedRules o m, rfl, (filter_block hK hkind).1, (filter_block hK hkind).2,
      hkind, sortedRules_strict o hv, hrel.length_eq.symm, ?_, ?_, ?_⟩
    · intro j s hs hno
      obtain ⟨s', hs', hr⟩ := forall₂_get? hrel hs
      rw [hs', eq_of_synced hr hno]
    · intro j s hs
      obtain ⟨s', hs', hr⟩ := forall₂_get? hrel hs
      exact ⟨s', hs', isCommentBlock_of_synced hr⟩
    · intro j t c hs
      obtain ⟨s', hs', hr⟩ := forall₂_get? hrel hs
      obtain ⟨c', e, hc⟩ := hr
      refine ⟨c', by rw [hs', e], hc.imp ?_⟩
      intro r r' h
      rcases h with e | ⟨hk, hmr⟩
      · exact Or.inl e
      · have hn := hv.name _ _ ((mapGet_eq_some_iff hv.nodup _ _).1 hmr)
        refine Or.inr ⟨hk, hn, ?_⟩
        rw [mem_sortedRules o hv, hn]
        exact hmr

theorem get?_append_of_some {α : Type} {l l' : List α} {i : Nat} {a : α}
    (h : l.get? i = some a) : (l ++ l').get? i = some a := by
  rw [List.get?_eq_getElem?] at h ⊢
  have hlt := (List.getElem?_eq_some_iff.1 h).1
  rw [List.getElem?_append_left hlt]
  exact h

/-- C15, amended: `AddTree` leaves the other bundles and the other calls
alone. The document after `AddTree` is the statement sequence of the input,
in which every statement that neither is nor holds an rpmtree rule named
`name` is unchanged at its place, a statement that holds calls holds as
many as before, and every call other than an rpmtree rule named `name` is
unchanged at its place in the order in which the document is walked, with
the sorted rules of the lookup, all of kind rpmtree, inserted before the
trailing comment blocks; and under every name other than `name` the
document holds the rule it held, with the same `name`, `rpms` and `files`.
So every call of the input other than an rpmtree rule named `name` is
unchanged at its place among the calls of the result. -/
theorem addTree_leaves_other_calls (o : MapOrder) (name : String) (d : Tree)
    (pkgs : List Package) (files : List String) :
    (∃ stmt : List Node,
      (Nested.AddTree o name d pkgs files).Stmt =
        stmt.rdropWhile Node.isCommentBlock ++
          (sortedRules o (d.treeLookup name pkgs files)).map Rule.Node ++
          stmt.rtakeWhile Node.isCommentBlock ∧
      stmt.length = d.Stmt.length ∧
      (∀ j s, d.Stmt.get? j = some s →
        (∀ r ∈ s.rules, ¬ (r.Kind = "rpmtree" ∧ r.Name = name)) → stmt.get? j = some s) ∧
      (∀ j t c, d.Stmt.get? j = some (.other t c) →
        ∃ c', stmt.get? j = some (.other t c') ∧ c'.length = c.length) ∧
      ∀ i r, (d.Stmt.flatMap Node.rules).get? i = some r →
        ¬ (r.Kind = "rpmtree" ∧ r.Name = name) →
        (stmt.flatMap Node.rules).get? i = some r) ∧
    (∀ r ∈ sortedRules o (d.treeLookup name pkgs files), r.Kind = "rpmtree") ∧
    (∀ i r, (d.Stmt.flatMap Node.rules).get? i = some r →
      ¬ (r.Kind = "rpmtree" ∧ r.Name = name) →
      ((Nested.AddTree o name d pkgs files).Stmt.flatMap Node.rules).get? i = some r) ∧
    ∀ k, k ≠ name →
      (Nested.AddTree o name d pkgs files).rule "rpmtree" k = d.rule "rpmtree" k := by
  have hu := writeThrough_updated "rpmtree" name (d.bundleRule name pkgs files) d.Stmt
  have hkept := hu.imp (fun _ _ h => nodeKept_of_updated (kind_tree_bundleRule d name pkgs files) h)
  refine ⟨⟨writeThrough "rpmtree" name (d.bundleRule name pkgs files) d.Stmt,
    nested_addTree_eq o name d pkgs files, hu.length_eq.symm, ?_, ?_, ?_⟩,
    kind_sortedRules_tree o d name pkgs files, ?_,
    fun k hk => nested_addTree_rule_other o name d pkgs files hk⟩
  · intro j s hs hno
    obtain ⟨s', hs', hr⟩ := forall₂_get? hu hs
    rw [hs']
    cases s with
    | comment t =>
      have e : s' = .comment t := hr
      rw [e]
    | call X L =>
      rcases hr with e | ⟨h1, h2, _⟩
      · rw [e]
      · exact absurd ⟨h1, h2⟩ (hno _ (by simp [Node.rules]))
    | other t c =>
      obtain ⟨c', e, hc⟩ := hr
      have : c' = c := forall₂_eq_of_left hc (fun a ha b hb => by
        rcases hb with e | ⟨h1, h2, _⟩
        · exact e
        · exact absurd ⟨h1, h2⟩ (hno a (by simpa [Node.rules] using ha)))
      rw [e, this]
  · intro j t c hs
    obtain ⟨s', hs', hr⟩ := forall₂_get? hkept hs
    obtain ⟨c', e, hl⟩ := hr.2.2.2 t c rfl
    exact ⟨c', by rw [hs', e], hl⟩
  · intro i r hr hno
    obtain ⟨r', hr', hc⟩ := forall₂_get? (forall₂_flatMap_rules hu) hr
    rcases hc with e | ⟨h1, h2, _⟩
    · rw [hr', e]
    · exact absurd ⟨h1, h2⟩ hno
  · intro i r hr hno
    obtain ⟨r', hr', hc⟩ := forall₂_get? (forall₂_flatMap_rules hu) hr
    rw [nested_addTree_rules]
    apply get?_append_of_some
    rcases hc with e | ⟨h1, h2, _⟩
    · rw [hr', e]
    · exact absurd ⟨h1, h2⟩ hno

/-- On the sample document the other statements persist and the comment
block stays last; a comment block that precedes the only rpm rule ends the
statements that are not rpm rules, so the rule is inserted before it. -/
theorem addRPMS_keeps_other_statements_witness :
    (∃ d', Nested.AddRPMS insertionOrder sampleDoc.toTree samplePkgs = some d' ∧
      d'.Stmt.filter (fun s => !s.isRule "rpm" "") =
        [.other 0 [], .call (.ident "filegroup") [.assign "name" (.str "srcs")], .comment 1] ∧
      d'.Stmt.getLast? = some (.comment 1)) ∧
    Nested.AddRPMS insertionOrder commentThenRule [] =
      some ⟨[.other 0 [], .call (.ident "rpm") [.assign "name" (.str "a-1-1.x86_64")],
        .comment 1]⟩ := by
  have h := addRPMS_keeps_other_statements insertionOrder sampleDoc.toTree samplePkgs
  obtain ⟨d', hd⟩ := h.1 (by decide)
  obtain ⟨kept, rules, h1, h2, _, _, _, _, h7, _, _⟩ := h.2 d' hd
  have e : d' = (Nested.AddRPMS insertionOrder sampleDoc.toTree samplePkgs).getD ⟨[]⟩ := by
    rw [hd]
    rfl
  refine ⟨⟨d', hd, ?_, ?_⟩, by decide⟩
  · rw [e]
    decide
  · rw [e]
    decide

/-! ## The rules `AddRPMS` leaves in a document whose statements hold calls -/

theorem rule_flat (d : Tree) (k : String) : d.flat.rule "rpm" k = d.rule "rpm" k := by
  rw [File.rule, Tree.rule, rules_flat d (by decide)]

theorem forall₂_synced_rules {m : RuleMap} {l l' : List Node}
    (h : List.Forall₂ (NodeSynced m) l l') :
    List.Forall₂ (CallSynced m) (l.flatMap Node.rules) (l'.flatMap Node.rules) := by
  induction h with
  | nil => exact List.Forall₂.nil
  | @cons a b l l' hab _ ih =>
    simp only [List.flatMap_cons]
    refine List.rel_append ?_ ih
    cases a with
    | comment t =>
      have e : b = .comment t := hab
      subst e
      exact List.Forall₂.nil
    | call X L =>
      obtain ⟨r', e, hc⟩ := hab
      subst e
      cases r'
      exact List.Forall₂.cons hc List.Forall₂.nil
    | other t c =>
      obtain ⟨c', e, hc⟩ := hab
      subst e
      exact hc

/-- The final lookup behind a completed call, with all that is known of it
and of the statements that are left. -/
theorem nested_addRPMS_final {o : MapOrder} {d d' : Tree} {ps : List Package}
    (h : Nested.AddRPMS o d ps = some d') :
    ∃ (m : RuleMap) (K : List Node), ValidLookup "rpm" m ∧
      (∀ k, touchAll k (d.rule "rpm" k) ps = some (mapGet m k)) ∧
      List.Forall₂ (NodeSynced m) (d.Stmt.filter (fun s => !s.isRule "rpm" "")) K ∧
      (∀ s ∈ K, s.isRule "rpm" "" = false) ∧
      d'.Stmt = K.rdropWhile Node.isCommentBlock ++ (sortedRules o m).map Rule.Node ++
        K.rtakeWhile Node.isCommentBlock := by
  have hv0 : ValidLookup "rpm" (lookupOf (d.Rules "rpm")) :=
    validLookup_tree_rules d (by decide)
  rw [nested_addRPMS_eq] at h
  simp only [Option.map_eq_some'] at h
  obtain ⟨m, hm, rfl⟩ := h
  have hv := validLookup_upsertAll hv0 hm
  refine ⟨m, _, hv, fun k => upsertAll_get hm k,
    forall₂_filter_of (fun a b h => by rw [isRule_of_synced hv h])
      (writeAll_synced hv ps d.Stmt), ?_, rfl⟩
  intro s hs
  simpa using (List.mem_filter.1 hs).2

theorem kind_of_mem_sortedRules {kind : String} (o : MapOrder) {m : RuleMap}
    (hv : ValidLookup kind m) : ∀ r ∈ sortedRules o m, r.Kind = kind := by
  intro r hr
  rw [mem_sortedRules o hv, mapGet_eq_some_iff hv.nodup] at hr
  exact hv.kind _ _ hr

theorem rules_of_layout (o : MapOrder) {m : RuleMap} (hv : ValidLookup "rpm" m)
    (K : List Node) :
    (Tree.mk (K.rdropWhile Node.isCommentBlock ++ (sortedRules o m).map Rule.Node ++
        K.rtakeWhile Node.isCommentBlock)).Rules "rpm" =
      (Tree.mk K).Rules "rpm" ++ sortedRules o m := by
  have h1 : (K.rdropWhile Node.isCommentBlock).flatMap Node.rules = K.flatMap Node.rules := by
    conv_rhs => rw [← rdropWhile_append_rtakeWhile Node.isCommentBlock K]
    rw [List.flatMap_append, rules_of_comments (fun s hs => List.mem_rtakeWhile_imp hs),
      List.append_nil]
  simp only [Tree.Rules]
  rw [List.flatMap_append, List.flatMap_append, rules_node_map,
    rules_of_comments (fun s hs => List.mem_rtakeWhile_imp hs), List.append_nil, h1,
    List.filter_append]
  congr 1
  rw [List.filter_eq_self]
  intro r hr
  simp [kind_of_mem_sortedRules o hv r hr]

theorem rule_of_layout (o : MapOrder) {m : RuleMap} (hv : ValidLookup "rpm" m)
    (K : List Node) (k : String) :
    (Tree.mk (K.rdropWhile Node.isCommentBlock ++ (sortedRules o m).map Rule.Node ++
        K.rtakeWhile Node.isCommentBlock)).rule "rpm" k =
      (mapGet m k).or ((Tree.mk K).rule "rpm" k) := by
  have hf := mapGet_lookupOf_sortedRules o hv k
  rw [mapGet_lookupOf] at hf
  rw [Tree.rule, rules_of_layout o hv, mapGet_lookupOf, List.reverse_append, List.find?_append,
    hf, Tree.rule, mapGet_lookupOf]

theorem mem_rules_iff_tree_rule (d : Tree) (k : String) :
    (∃ r ∈ d.Rules "rpm", r.Name = k) ↔ (d.rule "rpm" k).isSome = true := by
  rw [← rule_flat, ← rules_flat d (by decide)]
  exact mem_rules_iff_rule k

/-- A held rpm call of the statements that are left comes from an rpm rule
of the input of the same name. -/
theorem origin_of_held {m : RuleMap} (hv : ValidLookup "rpm" m) {d : Tree} {K : List Node}
    (hrel : List.Forall₂ (NodeSynced m) (d.Stmt.filter (fun s => !s.isRule "rpm" "")) K)
    {r : Rule} (hr : r ∈ (Tree.mk K).Rules "rpm") :
    ∃ r₀ ∈ d.Rules "rpm", r₀.Name = r.Name := by
  rw [mem_tree_rules (by decide)] at hr
  obtain ⟨r₀, h₀, hc⟩ := forall₂_mem_right (forall₂_synced_rules hrel) hr.1
  have hmem : r₀ ∈ d.Stmt.flatMap Node.rules := by
    obtain ⟨s, hs, hrs⟩ := List.mem_flatMap.1 h₀
    exact List.mem_flatMap.2 ⟨s, (List.mem_filter.1 hs).1, hrs⟩
  rcases hc with e | ⟨hk, hm⟩
  · subst e
    exact ⟨r, (mem_tree_rules (by decide) r).2 ⟨hmem, hr.2⟩, rfl⟩
  · exact ⟨r₀, (mem_tree_rules (by decide) r₀).2 ⟨hmem, hk⟩,
      (hv.name _ _ ((mapGet_eq_some_iff hv.nodup _ _).1 hm)).symm⟩

theorem filter_isNamed_layout (o : MapOrder) {m : RuleMap} (hv : ValidLookup "rpm" m)
    {K : List Node} (hK : ∀ s ∈ K, s.isRule "rpm" "" = false) {k : String} {r : Rule}
    (hr : mapGet m k = some r) :
    (K.rdropWhile Node.isCommentBlock ++ (sortedRules o m).map Rule.Node ++
        K.rtakeWhile Node.isCommentBlock).filter (fun s => s.isNamed "rpm" k) = [r.Node] := by
  have hno : ∀ s ∈ K, s.isNamed "rpm" k = false := by
    intro s hs
    have := hK s hs
    cases s with
    | call X L =>
      simp only [Node.isRule, Bool.and_eq_false_imp] at this
      simp only [Node.isNamed, Bool.and_eq_false_imp, decide_eq_true_eq, decide_eq_false_iff_not]
      intro hk
      simp [hk] at this
    | comment t => rfl
    | other t c => rfl
  have h1 : (K.rdropWhile Node.isCommentBlock).filter (fun s => s.isNamed "rpm" k) = [] :=
    List.filter_eq_nil_iff.2 (fun s hs => by
      simp [hno s ((List.rdropWhile_prefix _ _).subset hs)])
  have h2 : (K.rtakeWhile Node.isCommentBlock).filter (fun s => s.isNamed "rpm" k) = [] :=
    List.filter_eq_nil_iff.2 (fun s hs => by
      simp [hno s ((List.rtakeWhile_suffix _ _).subset hs)])
  rw [List.filter_append, List.filter_append, h1, h2, List.nil_append, List.append_nil,
    List.filter_map]
  have : (sortedRules o m).filter ((fun s => s.isNamed "rpm" k) ∘ Rule.Node) =
      (sortedRules o m).filter (fun x => x.Name = k) := by
    apply List.filter_congr
    intro x hx
    simp [isNamed_node, kind_of_mem_sortedRules o hv x hx]
  rw [this, filter_sortedRules o hv hr]
  rfl

theorem nested_addRPMS_isSome (o : MapOrder) (d : Tree) (ps : List Package)
    (hw : ∀ r ∈ d.Rules "rpm", r.wellFormed = true) :
    ∃ d', Nested.AddRPMS o d ps = some d' := by
  have hwf : d.flat.WellFormed := by
    intro r hr
    rw [rules_flat d (by decide)] at hr
    exact hw r hr
  have := upsertAll_isSome_of_wellFormed d.flat ps hwf
  rw [rules_flat d (by decide)] at this
  obtain ⟨m, hm⟩ := Option.isSome_iff_exists.1 this
  exact ⟨_, by rw [nested_addRPMS_eq, hm]; rfl⟩

theorem tree_rule_of_unique {d : Tree} {r : Rule} (hr : r ∈ d.Rules "rpm")
    (hu : ∀ x ∈ d.Rules "rpm", x.Name = r.Name → x = r) : d.rule "rpm" r.Name = some r := by
  rw [← rule_flat]
  rw [← rules_flat d (by decide)] at hr hu
  exact rule_eq_some_of_unique hr hu

/-- C3, as stated, fails: a document may contain an rpm rule named `k` with
a non-empty `urls` list and a later rpm rule of the same name without one.
The lookup holds the later rule, so the URLs are generated from the
descriptor and the kept list is gone. -/
theorem addRPMS_urls_counterexample :
    (⟨.ident "rpm",
        [.assign "name" (.str "a-1-1.x86_64"),
          .assign "urls" (.list [.str "https://kept/a.rpm"])]⟩ : Rule) ∈
        shadowedDoc.toTree.Rules "rpm" ∧
      rpmRule.URLs ⟨.ident "rpm",
        [.assign "name" (.str "a-1-1.x86_64"),
          .assign "urls" (.list [.str "https://kept/a.rpm"])]⟩ = some ["https://kept/a.rpm"] ∧
      samplePkg.ident = "a-1-1.x86_64" ∧
      Nested.AddRPMS insertionOrder shadowedDoc.toTree [samplePkg] =
        some ⟨[.call (.ident "rpm")
          [.assign "name" (.str "a-1-1.x86_64"), .assign "sha256" (.str "deadbeef"),
            .assign "urls" (.list [.str "m/a.rpm"])]]⟩ ∧
      (Nested.AddRPMS insertionOrder shadowedDoc.toTree [samplePkg]).map
          (fun f => (f.Rules "rpm").map rpmRule.URLs) = some [some ["m/a.rpm"]] := by
  refine ⟨by decide, by decide, by decide, by decide, by decide⟩

/-- C3, amended: URL first-write-wins for the rule the document holds under
its name. When the document holds under `k` an rpm rule (the last rpm rule
named `k` that `Rules` meets, which is the only one when no two share the
name) whose `urls` list `U` is non-empty, and `q` is the descriptor of
identity `k` (the last one, should several share the identity), whatever its
mirrors and href, then after `AddRPMS` the document holds under `k` a rule
that is its only rpm statement named `k`; its `urls` attribute is the one it
had (so `URLs` is still `U`), its `name` is `k` and its `sha256` is the
checksum of `q`. -/
theorem addRPMS_keeps_held_urls (o : MapOrder) (d : Tree) (ps : List Package)
    (k : String) (r : Rule) (U : List String) (q : Package)
    (hr : d.rule "rpm" k = some r) (hU : rpmRule.URLs r = some U) (hne : U ≠ [])
    (hq : (ps.filter (fun p => p.ident = k)).getLast? = some q) :
    ((∀ x ∈ d.Rules "rpm", x.wellFormed = true) → ∃ d', Nested.AddRPMS o d ps = some d') ∧
      ∀ d', Nested.AddRPMS o d ps = some d' →
        ∃ r', d'.rule "rpm" k = some r' ∧
          d'.Stmt.filter (fun s => s.isNamed "rpm" k) = [r'.Node] ∧
          r'.Attr "urls" = r.Attr "urls" ∧ rpmRule.URLs r' = some U ∧
          r'.Attr "name" = some (.str k) ∧ r'.Attr "sha256" = some (.str q.Checksum) := by
  refine ⟨nested_addRPMS_isSome o d ps, ?_⟩
  intro d' hd
  obtain ⟨m, K, hv, hm, _, hK, hs⟩ := nested_addRPMS_final hd
  have hk := hm k
  rw [hr] at hk
  obtain ⟨r', hr', hu'⟩ := touchAll_urls hk hU hne
  obtain ⟨r'', hr'', hname, hsha⟩ := touchAll_last hk hq
  rw [hr'] at hr''
  simp only [Option.some.injEq] at hr''
  subst hr''
  have hd' : d' = ⟨K.rdropWhile Node.isCommentBlock ++ (sortedRules o m).map Rule.Node ++
      K.rtakeWhile Node.isCommentBlock⟩ := by
    cases d'
    simpa using hs
  refine ⟨r', ?_, ?_, hu', ?_, hname, hsha⟩
  · rw [hd', rule_of_layout o hv, hr']
    rfl
  · rw [hs]
    exact filter_isNamed_layout o hv hK hr'
  · rw [URLs_congr hu']; exact hU

/-- C6, as stated, fails in its second part: of two rpm rules of one name
that no descriptor matches, the earlier one does not keep its attributes, it
is removed. -/
theorem addRPMS_keeps_counterexample :
    (⟨.ident "rpm",
        [.assign "name" (.str "a-1-1.x86_64"), .assign "sha256" (.str "1")]⟩ : Rule) ∈
        duplicateDoc.toTree.Rules "rpm" ∧
      Nested.AddRPMS insertionOrder duplicateDoc.toTree [] =
        some ⟨[.other 0 [],
          .call (.ident "rpm")
            [.assign "name" (.str "a-1-1.x86_64"), .assign "sha256" (.str "2")]]⟩ ∧
      (⟨.ident "rpm",
        [.assign "name" (.str "a-1-1.x86_64"), .assign "sha256" (.str "1")]⟩ : Rule) ∉
        (Tree.mk [.other 0 [],
          .call (.ident "rpm")
            [.assign "name" (.str "a-1-1.x86_64"), .assign "sha256" (.str "2")]]).Rules "rpm" := by
  refine ⟨by decide, by decide, by decide⟩

/-- C6, amended: `AddRPMS` never drops an identity. Whenever it completes (as
it does on every well-formed document), the names of the rpm rules of the
result are exactly the names of the rpm rules of the input together with the
identities of the descriptors; under a name that matches no descriptor the
result holds the very rule the input held, which is the last of that name,
with all its attributes; so an rpm rule of the input that is the only one of
its name and matches no descriptor is an rpm rule of the result, unchanged,
and a statement of it. -/
theorem addRPMS_keeps_names (o : MapOrder) (d : Tree) (ps : List Package) :
    ((∀ x ∈ d.Rules "rpm", x.wellFormed = true) → ∃ d', Nested.AddRPMS o d ps = some d') ∧
      ∀ d', Nested.AddRPMS o d ps = some d' →
        (∀ k, (∃ r ∈ d'.Rules "rpm", r.Name = k) ↔
          ((∃ r ∈ d.Rules "rpm", r.Name = k) ∨ ∃ p ∈ ps, p.ident = k)) ∧
        (∀ k, (∀ p ∈ ps, p.ident ≠ k) → d'.rule "rpm" k = d.rule "rpm" k) ∧
        ∀ r ∈ d.Rules "rpm", (∀ p ∈ ps, p.ident ≠ r.Name) →
          (∀ x ∈ d.Rules "rpm", x.Name = r.Name → x = r) →
          r ∈ d'.Rules "rpm" ∧ r.Node ∈ d'.Stmt := by
  refine ⟨nested_addRPMS_isSome o d ps, ?_⟩
  intro d' hd
  obtain ⟨m, K, hv, hm, hrel, hK, hs⟩ := nested_addRPMS_final hd
  have hd' : d' = ⟨K.rdropWhile Node.isCommentBlock ++ (sortedRules o m).map Rule.Node ++
      K.rtakeWhile Node.isCommentBlock⟩ := by
    cases d'
    simpa using hs
  have key : ∀ k, (∀ p ∈ ps, p.ident ≠ k) → mapGet m k = d.rule "rpm" k := by
    intro k hk
    have := hm k
    rw [touchAll_of_not_mem hk] at this
    exact (Option.some.inj this).symm
  have hsome : ∀ k, (mapGet m k).isSome = true ↔
      ((∃ r ∈ d.Rules "rpm", r.Name = k) ∨ ∃ p ∈ ps, p.ident = k) := by
    intro k
    by_cases hk : ∃ p ∈ ps, p.ident = k
    · simp only [hk, or_true, iff_true]
      exact touchAll_isSome_of_mem (hm k) hk
    · have hk2 : ∀ p ∈ ps, p.ident ≠ k := fun p hp e => hk ⟨p, hp, e⟩
      simp only [hk, or_false]
      rw [key k hk2, mem_rules_iff_tree_rule]
  have hin : ∀ r, mapGet m r.Name = some r → r ∈ d'.Rules "rpm" ∧ r.Node ∈ d'.Stmt := by
    intro r h
    have hmem : r ∈ sortedRules o m := (mem_sortedRules o hv r).2 h
    constructor
    · rw [hd', rules_of_layout o hv]
      exact List.mem_append.2 (Or.inr hmem)
    · rw [hs]
      exact List.mem_append.2 (Or.inl (List.mem_append.2 (Or.inr (List.mem_map_of_mem _ hmem))))
  refine ⟨?_, ?_, ?_⟩
  · intro k
    constructor
    · rintro ⟨r, hr, hn⟩
      rw [hd', rules_of_layout o hv] at hr
      rcases List.mem_append.1 hr with h | h
      · obtain ⟨r₀, h₀, hn₀⟩ := origin_of_held hv hrel h
        exact Or.inl ⟨r₀, h₀, hn₀.trans hn⟩
      · rw [mem_sortedRules o hv, hn] at h
        exact (hsome k).1 (by rw [h]; rfl)
    · intro h
      obtain ⟨r, hr⟩ := Option.isSome_iff_exists.1 ((hsome k).2 h)
      have hn := hv.name _ _ ((mapGet_eq_some_iff hv.nodup _ _).1 hr)
      exact ⟨r, (hin r (by rw [hn]; exact hr)).1, hn⟩
  · intro k hk
    rw [hd', rule_of_layout o hv, key k hk]
    cases hdk : d.rule "rpm" k with
    | some r => rfl
    | none =>
      simp only [Option.none_or]
      cases hK' : (Tree.mk K).rule "rpm" k with
      | none => rfl
      | some x =>
        exfalso
        have hx : ∃ r ∈ (Tree.mk K).Rules "rpm", r.Name = k :=
          (mem_rules_iff_tree_rule _ k).2 (by rw [hK']; rfl)
        obtain ⟨y, hy, hyn⟩ := hx
        obtain ⟨r₀, h₀, hn₀⟩ := origin_of_held hv hrel hy
        have := (mem_rules_iff_tree_rule d k).1 ⟨r₀, h₀, hn₀.trans hyn⟩
        rw [hdk] at this
        simp at this
  · intro r hr hk hu
    apply hin
    rw [key _ hk]
    exact tree_rule_of_unique hr hu

/-- On the sample document the rule `b-1-1.x86_64` keeps its URL and takes the last checksum. -/
theorem addRPMS_keeps_held_urls_witness :
    ∃ d' r', Nested.AddRPMS insertionOrder sampleDoc.toTree samplePkgs = some d' ∧
      d'.rule "rpm" "b-1-1.x86_64" = some r' ∧
      rpmRule.URLs r' = some ["https://kept/b.rpm"] ∧
      r'.Attr "name" = some (.str "b-1-1.x86_64") ∧
      r'.Attr "sha256" = some (.str "f00df00d") := by
  have h := addRPMS_keeps_held_urls insertionOrder sampleDoc.toTree samplePkgs "b-1-1.x86_64"
    ⟨.ident "rpm",
      [.assign "name" (.str "b-1-1.x86_64"), .assign "sha256" (.str "0ld"),
        .assign "urls" (.list [.str "https://kept/b.rpm"])]⟩
    ["https://kept/b.rpm"]
    ⟨"b", "b-1-1.x86_64", "f00df00d", ["http://n/"], "b-1-1.x86_64.rpm"⟩
    (by decide) (by decide) (by decide) (by decide)
  obtain ⟨d', hd⟩ := h.1 (by decide)
  obtain ⟨r', h1, _, _, h3, h4, h5⟩ := h.2 d' hd
  exact ⟨d', r', hd, h1, h3, h4, h5⟩

/-- On the sample document the new identity appears and the untouched rule persists. -/
theorem addRPMS_keeps_names_witness :
    ∃ d', Nested.AddRPMS insertionOrder sampleDoc.toTree samplePkgs = some d' ∧
      (∃ r ∈ d'.Rules "rpm", r.Name = "a-1-1.x86_64") ∧
      d'.rule "rpm" "zlib-1.2-3.x86_64" = sampleDoc.toTree.rule "rpm" "zlib-1.2-3.x86_64" ∧
      Rule.mk (.ident "rpm") [.assign "name" (.str "zlib-1.2-3.x86_64")] ∈ d'.Rules "rpm" := by
  have h := addRPMS_keeps_names insertionOrder sampleDoc.toTree samplePkgs
  obtain ⟨d', hd⟩ := h.1 (by decide)
  refine ⟨d', hd, ?_, ?_, ?_⟩
  · exact ((h.2 d' hd).1 "a-1-1.x86_64").2 (Or.inr (by decide))
  · exact (h.2 d' hd).2.1 "zlib-1.2-3.x86_64" (by decide)
  · exact ((h.2 d' hd).2.2 _ (by decide) (by decide) (by decide)).1

end Bazeldnf
